import Mathlib

/-!
# LeakFreeByDefaultTraining: doubly linked list and binary search tree

A shallow embedding of `src/main.cpp` (class `LinkedList`, owning `unique_ptr`
forward links, raw back pointers) and of `src/shared_main.cpp` (class
`BinarySearchTree`, owning `shared_ptr` child links, `weak_ptr` parent links).

Memory is a map from addresses to nodes.  A pointer is an `Option Nat`
(`none` is the null pointer).  Addresses are handed out in increasing order and
never reused, so a destroyed node stays distinguishable from every live one.
Every access through a pointer is checked: reading through a null pointer or
through a pointer to a destroyed node is a `Fault`, as is a failing `assert`.

Payloads and the diagnostic counters `instanceCount` are mathematical integers;
the `unsigned int` members `size` and `processed` of the tree, which steer its
loops, wrap at `2 ^ 32`.  Loops whose termination is at stake take an iteration
budget (`fuel`); the theorems show that every large enough budget gives the
result.

Destroying a node destroys the nodes its links still own, by nested destructor
calls.  Teardown of the tree exists to keep that nesting shallow, so `release`
and `~BinarySearchTree` are also embedded on a call stack of a given depth
(`releaseStepWithin` to `destructorWithin`), where a cascade that is deeper than
the stack is the fault `stackOverflow`.
-/

/-- Ways in which an execution of the embedded code can go wrong. -/
inductive Fault where
  /-- A null pointer was dereferenced. -/
  | nullDeref
  /-- A pointer to a node that is no longer alive was dereferenced or deleted. -/
  | deadAccess
  /-- An `assert` of the source failed. -/
  | assertFailed
  /-- The iteration budget of the model was exhausted. -/
  | outOfFuel
  /-- A chain of nested destructor calls was deeper than the call stack admits. -/
  | stackOverflow
  deriving DecidableEq, Repr

/-- Pointwise update of a memory map. -/
def setCell {α : Type} (m : Nat → Option α) (a : Nat) (v : Option α) : Nat → Option α :=
  fun b => if b = a then v else m b

/-! ## Part I.  The doubly linked list of `main.cpp` -/

namespace LinkedList

/-- The class `LinkedList::Node`: an owning `unique_ptr` to the next node, a raw
pointer to the previous node, and the payload. -/
structure Node where
  next : Option Nat
  previous : Option Nat
  content : Int
  deriving DecidableEq, Repr

end LinkedList

/-- The state a `LinkedList` object lives in: the node memory, the static
counter `Node::instanceCount`, and the members `head` (owning) and `tail`
(raw). -/
structure LinkedList where
  cells : Nat → Option LinkedList.Node
  fresh : Nat
  instanceCount : Int
  head : Option Nat
  tail : Option Nat

namespace LinkedList

/-- The constructor `LinkedList() : tail(nullptr)` on a process that has created
no node yet. -/
def empty : LinkedList :=
  { cells := fun _ => none, fresh := 0, instanceCount := 0, head := none, tail := none }

/-- Read of the node a pointer refers to (`p->...`). -/
def deref (s : LinkedList) (p : Option Nat) : Except Fault Node :=
  match p with
  | none => .error .nullDeref
  | some a =>
    match s.cells a with
    | none => .error .deadAccess
    | some n => .ok n

/-- Store into the node a pointer refers to. -/
def store (s : LinkedList) (p : Option Nat) (f : Node → Node) : Except Fault LinkedList :=
  match p with
  | none => .error .nullDeref
  | some a =>
    match s.cells a with
    | none => .error .deadAccess
    | some n => .ok { s with cells := setCell s.cells a (some (f n)) }

/-- The expression `new Node(i)`: the constructor sets `content(i)`,
`previous(nullptr)`, leaves `next` empty and increments `instanceCount`. -/
def newNode (s : LinkedList) (i : Int) : LinkedList × Nat :=
  ({ s with
      cells := setCell s.cells s.fresh (some { next := none, previous := none, content := i }),
      fresh := s.fresh + 1,
      instanceCount := s.instanceCount + 1 },
   s.fresh)

/-- The effect of `delete a` as performed by a `unique_ptr`: `~Node()` decrements
`instanceCount`, then the member `next` is destroyed, which deletes the node it
still owns, and so on along the chain; finally the storage of `a` is gone. -/
def deleteNode : Nat → LinkedList → Nat → Except Fault LinkedList
  | 0, _, _ => .error .outOfFuel
  | fuel + 1, s, a =>
    match s.cells a with
    | none => .error .deadAccess
    | some n =>
      let s1 := { s with instanceCount := s.instanceCount - 1 }
      match n.next with
      | none => .ok { s1 with cells := setCell s1.cells a none }
      | some b =>
        match deleteNode fuel s1 b with
        | .error e => .error e
        | .ok s2 => .ok { s2 with cells := setCell s2.cells a none }

/-- What a `unique_ptr` does with the pointer it gives up on `reset` or on
assignment: nothing for null, `delete` otherwise. -/
def dispose (s : LinkedList) (old : Option Nat) : Except Fault LinkedList :=
  match old with
  | none => .ok s
  | some a => deleteNode s.fresh s a

/-- Assignment `head = std::move(src)` / `head.reset(v)` once the new value `v`
has been released from its source: the old head is replaced, then deleted. -/
def assignHead (s : LinkedList) (v : Option Nat) : Except Fault LinkedList :=
  dispose { s with head := v } s.head

/-- Assignment `p->next = std::move(src)` once the new value `v` has been
released from its source: the old target is replaced, then deleted. -/
def assignNext (s : LinkedList) (p : Option Nat) (v : Option Nat) : Except Fault LinkedList := do
  let n ← deref s p
  let s1 ← store s p (fun c => { c with next := v })
  dispose s1 n.next

/-- The method `appendToEnd(std::unique_ptr<Node>&& toAdd)`. -/
def appendToEnd (s : LinkedList) (toAdd : Nat) : Except Fault LinkedList :=
  match s.tail with
  | some t => do
    -- tail->next = std::move(toAdd);
    let s1 ← assignNext s (some t) (some toAdd)
    -- tail->next->previous = tail;
    let tn ← deref s1 (some t)
    let s2 ← store s1 tn.next (fun c => { c with previous := some t })
    -- tail = tail->next.get();
    let tn2 ← deref s2 (some t)
    pure { s2 with tail := tn2.next }
  | none =>
    -- tail = toAdd.get(); head = std::move(toAdd);
    assignHead { s with tail := some toAdd } (some toAdd)

/-- The method `addToEnd(int i)`. -/
def addToEnd (s : LinkedList) (i : Int) : Except Fault LinkedList :=
  let (s1, toAdd) := newNode s i
  appendToEnd s1 toAdd

/-- The loop of `find`: `while (current && current->content != i) current = current->next.get();` -/
def findLoop : Nat → LinkedList → Int → Option Nat → Except Fault (Option Nat)
  | _, _, _, none => .ok none
  | 0, _, _, some _ => .error .outOfFuel
  | fuel + 1, s, i, some a => do
    let n ← deref s (some a)
    if n.content ≠ i then findLoop fuel s i n.next else pure (some a)

/-- The method `find(int i)`; a walk over a list never needs more iterations
than there are addresses. -/
def find (s : LinkedList) (i : Int) : Except Fault (Option Nat) :=
  findLoop (s.fresh + 1) s i s.head

/-- The two assertions that open `addToPos` (guarded by `!pNode`) and, after the
null check, `removeNode`. -/
def linkAsserts (s : LinkedList) (a : Nat) : Except Fault Unit := do
  let n ← deref s (some a)
  -- n->previous == nullptr || n->previous->next.get() == n
  match n.previous with
  | none => pure ()
  | some p => do
    let pn ← deref s (some p)
    if pn.next = some a then pure () else throw .assertFailed
  -- n->next == nullptr || n->next->previous == n
  match n.next with
  | none => pure ()
  | some x => do
    let xn ← deref s (some x)
    if xn.previous = some a then pure () else throw .assertFailed

/-- The method `addToPos(Node *pNode, int i)`. -/
def addToPos (s : LinkedList) (pNode : Option Nat) (i : Int) : Except Fault LinkedList := do
  match pNode with
  | none => pure ()
  | some a => linkAsserts s a
  let (s1, toAdd) := newNode s i
  let last ← match pNode with
    | none => pure true
    | some a => do
      let n ← deref s1 (some a)
      pure n.next.isNone
  if last then
    appendToEnd s1 toAdd
  else do
    -- std::unique_ptr<Node> restOfList(std::move(pNode->next));
    let pn ← deref s1 pNode
    let restOfList := pn.next
    let s2 ← store s1 pNode (fun c => { c with next := none })
    -- toAdd->previous = pNode;
    let s3 ← store s2 (some toAdd) (fun c => { c with previous := pNode })
    -- restOfList->previous = toAdd.get();
    let s4 ← store s3 restOfList (fun c => { c with previous := some toAdd })
    -- toAdd->next = std::move(restOfList);
    let s5 ← assignNext s4 (some toAdd) restOfList
    -- pNode->next = std::move(toAdd);
    assignNext s5 pNode (some toAdd)

/-- The method `removeNode(Node* n)`. -/
def removeNode (s : LinkedList) (n : Option Nat) : Except Fault LinkedList := do
  -- assert(n != nullptr && "We don't allow nullptr here");
  let a ← match n with
    | none => throw .assertFailed
    | some a => pure a
  linkAsserts s a
  if s.head = some a ∧ s.tail = some a then
    -- tail = nullptr; head.reset(); return;
    assignHead { s with tail := none } none
  else do
    let s1 ← if s.head = some a then do
        -- head = std::move(n->next);
        let nd ← deref s (some a)
        let s0 ← store s (some a) (fun c => { c with next := none })
        assignHead s0 nd.next
      else if s.tail = some a then do
        -- tail = n->previous;
        let nd ← deref s (some a)
        pure { s with tail := nd.previous }
      else pure s
    -- Node* x = n->next.get();
    let x := (← deref s1 (some a)).next
    -- Node* p = n->previous;
    let p := (← deref s1 (some a)).previous
    let s2 ← match p with
      | some _ => do
        -- p->next = std::move(n->next);
        let nd ← deref s1 (some a)
        let s1a ← store s1 (some a) (fun c => { c with next := none })
        assignNext s1a p nd.next
      | none => pure s1
    match x with
    | some _ =>
      -- x->previous = p;
      store s2 x (fun c => { c with previous := p })
    | none => pure s2

/-- The loop `while(tail) { removeNode(tail); }` of the destructor, together with
the number of calls to `removeNode` it makes. -/
def destructorLoop : Nat → LinkedList → Except Fault (LinkedList × Nat)
  | fuel, s =>
    match s.tail with
    | none => .ok (s, 0)
    | some t =>
      match fuel with
      | 0 => .error .outOfFuel
      | fuel + 1 => do
        let s1 ← removeNode s (some t)
        let (s2, k) ← destructorLoop fuel s1
        pure (s2, k + 1)

/-- The destructor `~LinkedList()`: the loop, then the destruction of the member
`head`, which deletes whatever chain it still owns. -/
def destructor (fuel : Nat) (s : LinkedList) : Except Fault LinkedList := do
  let (s1, _) ← destructorLoop fuel s
  assignHead s1 none

/-- The loop of `operator<<`: `while(current) { os << current->content; os << ","; current = current->next.get(); }` -/
def renderLoop : Nat → LinkedList → Option Nat → String → Except Fault String
  | _, _, none, os => .ok os
  | 0, _, some _, _ => .error .outOfFuel
  | fuel + 1, s, some a, os => do
    let n ← deref s (some a)
    renderLoop fuel s n.next (os ++ toString n.content ++ ",")

/-- The function `operator<<(std::ostream&, const LinkedList&)`, as the text it writes. -/
def render (s : LinkedList) : Except Fault String := do
  let os ← renderLoop (s.fresh + 1) s s.head "<"
  pure (os ++ ">")

/-- Running a sequence of `addToEnd` calls. -/
def addAll (s : LinkedList) : List Int → Except Fault LinkedList
  | [] => .ok s
  | v :: vs => do
    let s1 ← addToEnd s v
    addAll s1 vs

end LinkedList

/-! ## Part II.  The binary search tree of `shared_main.cpp` -/

namespace BinarySearchTree

/-- The class `BinarySearchTree::Node`: owning `shared_ptr`s to the children, a
`weak_ptr` to the parent, and the payload. -/
structure Node where
  left : Option Nat
  right : Option Nat
  parent : Option Nat
  content : Int
  deriving DecidableEq, Repr

end BinarySearchTree

/-- The state a `BinarySearchTree` object lives in: the node memory, the strong
use count of every node (the number of `shared_ptr`s that currently own it), the
static counter `Node::instanceCount`, and the members `root` and `size`
(an `unsigned int`, kept below `2 ^ 32`). -/
structure BinarySearchTree where
  cells : Nat → Option BinarySearchTree.Node
  uses : Nat → Nat
  fresh : Nat
  instanceCount : Int
  root : Option Nat
  size : Nat

namespace BinarySearchTree

/-- Pointwise update of the use counts. -/
def setUse (u : Nat → Nat) (a : Nat) (v : Nat) : Nat → Nat :=
  fun b => if b = a then v else u b

/-- The constructor `BinarySearchTree() : size(0)` on a process that has created
no node yet. -/
def empty : BinarySearchTree :=
  { cells := fun _ => none, uses := fun _ => 0, fresh := 0, instanceCount := 0,
    root := none, size := 0 }

/-- Increment of an `unsigned int`. -/
def incU32 (n : Nat) : Nat := (n + 1) % 2 ^ 32

/-- The `unsigned int` expression `n - 1`. -/
def predU32 (n : Nat) : Nat := (n + 2 ^ 32 - 1) % 2 ^ 32

/-- Read of the node a pointer refers to (`p->...`). -/
def deref (s : BinarySearchTree) (p : Option Nat) : Except Fault Node :=
  match p with
  | none => .error .nullDeref
  | some a =>
    match s.cells a with
    | none => .error .deadAccess
    | some n => .ok n

/-- Store into the node a pointer refers to. -/
def store (s : BinarySearchTree) (p : Option Nat) (f : Node → Node) :
    Except Fault BinarySearchTree :=
  match p with
  | none => .error .nullDeref
  | some a =>
    match s.cells a with
    | none => .error .deadAccess
    | some n => .ok { s with cells := setCell s.cells a (some (f n)) }

/-- Copy of a `shared_ptr`: one more owner of its target. -/
def acquire (s : BinarySearchTree) (p : Option Nat) : BinarySearchTree :=
  match p with
  | none => s
  | some a => { s with uses := setUse s.uses a (s.uses a + 1) }

/-- Release of one `shared_ptr` to `p`.  While other owners remain only the use
count drops.  When the last owner goes the node is destroyed: `~Node()`
decrements `instanceCount`, then the members are destroyed in reverse order of
declaration, which releases `right` and then `left`.  Each destroyed node is one
more nested call of `~Node()`: the first argument is the number of nested calls
that are still possible, and it is used up exactly when the cascade of
destructions is deeper than that. -/
def dropFuel : Nat → BinarySearchTree → Option Nat → Except Fault BinarySearchTree
  | _, s, none => .ok s
  | 0, s, some a =>
    if 1 < s.uses a then .ok { s with uses := setUse s.uses a (s.uses a - 1) }
    else .error .outOfFuel
  | fuel + 1, s, some a =>
    if 1 < s.uses a then .ok { s with uses := setUse s.uses a (s.uses a - 1) }
    else
      match s.cells a with
      | none => .error .deadAccess
      | some n =>
        let s1 := { s with
          uses := setUse s.uses a 0,
          cells := setCell s.cells a none,
          instanceCount := s.instanceCount - 1 }
        match dropFuel fuel s1 n.right with
        | .error e => .error e
        | .ok s2 => dropFuel fuel s2 n.left

/-- Release of one `shared_ptr` where the depth of the call stack is not at
stake: a destruction cascade is never deeper than the number of addresses, so
this release never runs out of nesting depth.  It is the release used by
`addToEnd`, which destroys at most one childless node, and by the functions
`releaseStep`, `releaseLoop`, `release` and `destructor`, which therefore say
what teardown does to memory when the stack is deep enough for every cascade.
The functions `dropWithin` to `destructorWithin` below are the same code on a
call stack of a given depth. -/
def drop (s : BinarySearchTree) (p : Option Nat) : Except Fault BinarySearchTree :=
  dropFuel s.fresh s p

/-- Copy assignment `var = v` to a `shared_ptr` variable that holds `old`: the
new target gains an owner, then the old one loses one. -/
def assignLocal (s : BinarySearchTree) (old v : Option Nat) : Except Fault BinarySearchTree :=
  drop (acquire s v) old

/-- The call `w.lock()` on a `weak_ptr`: its target if that is still alive. -/
def lock (s : BinarySearchTree) (w : Option Nat) : Option Nat :=
  match w with
  | none => none
  | some p => if (s.cells p).isSome then some p else none

/-- The loop `while (current) ...` of `appendToEnd`, on the locals `current` and
`previous`. -/
def descend : Nat → BinarySearchTree → Nat → Option Nat → Option Nat →
    Except Fault (BinarySearchTree × Option Nat × Option Nat)
  | _, s, _, none, previous => .ok (s, none, previous)
  | 0, _, _, some _, _ => .error .outOfFuel
  | fuel + 1, s, toAdd, some c, previous => do
    let tn ← deref s (some toAdd)
    let cn ← deref s (some c)
    if tn.content < cn.content then
      -- previous = current; current = current->left;
      let s1 ← assignLocal s previous (some c)
      let cn1 ← deref s1 (some c)
      let s2 ← assignLocal s1 (some c) cn1.left
      descend fuel s2 toAdd cn1.left (some c)
    else if tn.content > cn.content then
      -- previous = current; current = current->right;
      let s1 ← assignLocal s previous (some c)
      let cn1 ← deref s1 (some c)
      let s2 ← assignLocal s1 (some c) cn1.right
      descend fuel s2 toAdd cn1.right (some c)
    else
      -- break;
      pure (s, some c, previous)

/-- The method `appendToEnd(std::shared_ptr<Node> &&toAdd)`.  The parameter is
a reference, so the caller keeps its own hold on the node. -/
def appendToEnd (s : BinarySearchTree) (toAdd : Nat) : Except Fault BinarySearchTree := do
  -- std::shared_ptr<Node> current = root;
  let current := s.root
  let s0 := acquire s current
  if s0.root.isNone then
    -- root = toAdd; size++; return;
    let s1 ← assignLocal s0 s0.root (some toAdd)
    let s2 := { s1 with root := some toAdd, size := incU32 s1.size }
    drop s2 current
  else do
    let (s1, current1, previous) ← descend (s0.fresh + 1) s0 toAdd current none
    let s2 ← if current1.isNone ∧ previous.isSome then do
        let tn ← deref s1 (some toAdd)
        let pn ← deref s1 previous
        let s1a ← if tn.content < pn.content then do
            -- previous->left = toAdd;
            let s1b ← store (acquire s1 (some toAdd)) previous (fun c => { c with left := some toAdd })
            drop s1b pn.left
          else if tn.content > pn.content then do
            -- previous->right = toAdd;
            let s1b ← store (acquire s1 (some toAdd)) previous (fun c => { c with right := some toAdd })
            drop s1b pn.right
          else pure s1
        -- toAdd->parent = previous; size++;
        let s1c ← store s1a (some toAdd) (fun c => { c with parent := previous })
        pure { s1c with size := incU32 s1c.size }
      else pure s1
    -- the locals previous and current go out of scope
    let s3 ← drop s2 previous
    drop s3 current1

/-- The method `addToEnd(int i)`: `new Node(i)` increments `instanceCount`; the
local `toAdd` is the first owner and is released on return. -/
def addToEnd (s : BinarySearchTree) (i : Int) : Except Fault BinarySearchTree := do
  let toAdd := s.fresh
  let s1 := { s with
    cells := setCell s.cells toAdd
      (some { left := none, right := none, parent := none, content := i }),
    uses := setUse s.uses toAdd 1,
    fresh := s.fresh + 1,
    instanceCount := s.instanceCount + 1 }
  let s2 ← appendToEnd s1 toAdd
  drop s2 (some toAdd)

/-- Running a sequence of `addToEnd` calls. -/
def addAll (s : BinarySearchTree) : List Int → Except Fault BinarySearchTree
  | [] => .ok s
  | v :: vs => do
    let s1 ← addToEnd s v
    addAll s1 vs

/-- The locals of the loops of `operator<<` and `release`; `os` is the text
written so far (unused by `release`). -/
structure Walk where
  current : Option Nat
  processed : Nat
  fromUp : Bool
  comingFromLeft : Bool
  os : String

/-- The block that occurs three times in `operator<<`:
`if (parent = current->parent.lock()) { comingFromLeft = parent->left == current; current = parent; }`.
The traversal takes the tree by const reference; its `shared_ptr` locals are
handles that are given back before it returns, so it is modelled as reading. -/
def climb (s : BinarySearchTree) (w : Walk) : Except Fault Walk := do
  let cn ← deref s w.current
  match lock s cn.parent with
  | some p => do
    let pn ← deref s (some p)
    pure { w with comingFromLeft := decide (pn.left = w.current), current := some p }
  | none => pure w

/-- One iteration of the loop body of `operator<<`. -/
def renderStep (s : BinarySearchTree) (w : Walk) : Except Fault Walk := do
  let cn ← deref s w.current
  if w.fromUp then
    if cn.left.isNone then
      let w1 := { w with os := w.os ++ toString cn.content ++ ",", processed := incU32 w.processed }
      if cn.right.isSome then
        pure { w1 with current := cn.right }
      else
        climb s { w1 with fromUp := false }
    else
      pure { w with current := cn.left }
  else
    if w.comingFromLeft then
      let w1 := { w with os := w.os ++ toString cn.content ++ ",", processed := incU32 w.processed }
      if cn.right.isSome then
        pure { w1 with current := cn.right, fromUp := true }
      else
        climb s w1
    else
      climb s w

/-- The loop `while (processed != p.size)` of `operator<<`. -/
def renderLoop : Nat → BinarySearchTree → Walk → Except Fault String
  | fuel, s, w =>
    if w.processed = s.size then .ok w.os
    else
      match fuel with
      | 0 => .error .outOfFuel
      | fuel + 1 =>
        match renderStep s w with
        | .error e => .error e
        | .ok w1 => renderLoop fuel s w1

/-- The function `operator<<(std::ostream&, const BinarySearchTree&)`, as the
text it writes.  The tree is taken by const reference and every node stays owned
by its link while the `shared_ptr` locals `current` and `parent` come and go, so
the traversal is modelled by its reads alone. -/
def render (fuel : Nat) (s : BinarySearchTree) : Except Fault String := do
  let os ← renderLoop fuel s
    { current := s.root, processed := 0, fromUp := true, comingFromLeft := false, os := "<" }
  pure (os ++ ">")

/-- The memory and the locals of a running `release`, with the number of nodes
destroyed so far by its `reset` calls being visible in `instanceCount`. -/
structure Run where
  mem : BinarySearchTree
  walk : Walk

/-- The block that occurs three times in `release`, with its effect on the use
counts: the temporary `parent` owns the parent while it is in scope. -/
def climbOwning (r : Run) : Except Fault Run := do
  let cn ← deref r.mem r.walk.current
  match lock r.mem cn.parent with
  | some p => do
    let m1 := acquire r.mem (some p)
    let pn ← deref m1 (some p)
    -- comingFromLeft = parent->left == current; current = parent;
    let m2 ← assignLocal m1 r.walk.current (some p)
    let m3 ← drop m2 (some p)
    pure { mem := m3,
           walk := { r.walk with comingFromLeft := decide (pn.left = r.walk.current),
                                 current := some p } }
  | none => pure r

/-- The statement `current = v` of `release` for `v` a child link of `current`. -/
def moveTo (r : Run) (v : Option Nat) (fromUp : Bool) : Except Fault Run := do
  let m1 ← assignLocal r.mem r.walk.current v
  pure { mem := m1, walk := { r.walk with current := v, fromUp := fromUp } }

/-- One iteration of the loop body of `release`. -/
def releaseStep (r : Run) : Except Fault Run := do
  let cn ← deref r.mem r.walk.current
  if r.walk.fromUp then
    if cn.left.isNone then
      if cn.right.isSome then
        moveTo r cn.right true
      else
        climbOwning { r with walk := { r.walk with fromUp := false } }
    else
      moveTo r cn.left true
  else
    if r.walk.comingFromLeft then
      if cn.right.isSome then
        moveTo r cn.right true
      else do
        -- current->left.reset(); processed++;
        let m1 ← store r.mem r.walk.current (fun c => { c with left := none })
        let m2 ← drop m1 cn.left
        climbOwning { mem := m2, walk := { r.walk with processed := incU32 r.walk.processed } }
    else do
      -- current->right.reset(); processed++;
      let m1 ← store r.mem r.walk.current (fun c => { c with right := none })
      let m2 ← drop m1 cn.right
      climbOwning { mem := m2, walk := { r.walk with processed := incU32 r.walk.processed } }

/-- The loop `while (processed != size - 1)` of `release`. -/
def releaseLoop : Nat → Nat → Run → Except Fault Run
  | fuel, size, r =>
    if r.walk.processed = predU32 size then .ok r
    else
      match fuel with
      | 0 => .error .outOfFuel
      | fuel + 1 =>
        match releaseStep r with
        | .error e => .error e
        | .ok r1 => releaseLoop fuel size r1

/-- The state in which the loop of `release(current, size)` starts: the by-value
parameter `current` is one more owner of the node. -/
def releaseInit (s : BinarySearchTree) (current : Option Nat) : Run :=
  { mem := acquire s current,
    walk := { current := current, processed := 0, fromUp := true, comingFromLeft := false,
              os := "" } }

/-- The function `release(std::shared_ptr<Node> current, unsigned int size)`:
the loop, then the parameter goes out of scope. -/
def release (fuel : Nat) (s : BinarySearchTree) (current : Option Nat) (size : Nat) :
    Except Fault BinarySearchTree := do
  let r ← releaseLoop fuel size (releaseInit s current)
  drop r.mem r.walk.current

/-- The destructor `~BinarySearchTree()`: `if (root) { release(root, size); root.reset(); }`;
the member `root` is empty afterwards in either case. -/
def destructor (fuel : Nat) (s : BinarySearchTree) : Except Fault BinarySearchTree :=
  if s.root.isSome then do
    let s1 ← release fuel s s.root s.size
    drop { s1 with root := none } s1.root
  else pure s

/-- Release of one `shared_ptr` on a call stack that has room for `stack` nested
calls of `~Node()`: a cascade of destructions that is deeper overflows it. -/
def dropWithin (stack : Nat) (s : BinarySearchTree) (p : Option Nat) :
    Except Fault BinarySearchTree :=
  match dropFuel stack s p with
  | .error .outOfFuel => .error .stackOverflow
  | r => r

/-- Copy assignment `var = v` to a `shared_ptr` variable that holds `old`, on a
call stack of depth `stack`. -/
def assignLocalWithin (stack : Nat) (s : BinarySearchTree) (old v : Option Nat) :
    Except Fault BinarySearchTree :=
  dropWithin stack (acquire s v) old

/-- The block that occurs three times in `release`, on a call stack of depth
`stack`. -/
def climbOwningWithin (stack : Nat) (r : Run) : Except Fault Run := do
  let cn ← deref r.mem r.walk.current
  match lock r.mem cn.parent with
  | some p => do
    let m1 := acquire r.mem (some p)
    let pn ← deref m1 (some p)
    -- comingFromLeft = parent->left == current; current = parent;
    let m2 ← assignLocalWithin stack m1 r.walk.current (some p)
    let m3 ← dropWithin stack m2 (some p)
    pure { mem := m3,
           walk := { r.walk with comingFromLeft := decide (pn.left = r.walk.current),
                                 current := some p } }
  | none => pure r

/-- The statement `current = v` of `release` for `v` a child link of `current`,
on a call stack of depth `stack`. -/
def moveToWithin (stack : Nat) (r : Run) (v : Option Nat) (fromUp : Bool) :
    Except Fault Run := do
  let m1 ← assignLocalWithin stack r.mem r.walk.current v
  pure { mem := m1, walk := { r.walk with current := v, fromUp := fromUp } }

/-- One iteration of the loop body of `release`, on a call stack of depth
`stack`. -/
def releaseStepWithin (stack : Nat) (r : Run) : Except Fault Run := do
  let cn ← deref r.mem r.walk.current
  if r.walk.fromUp then
    if cn.left.isNone then
      if cn.right.isSome then
        moveToWithin stack r cn.right true
      else
        climbOwningWithin stack { r with walk := { r.walk with fromUp := false } }
    else
      moveToWithin stack r cn.left true
  else
    if r.walk.comingFromLeft then
      if cn.right.isSome then
        moveToWithin stack r cn.right true
      else do
        -- current->left.reset(); processed++;
        let m1 ← store r.mem r.walk.current (fun c => { c with left := none })
        let m2 ← dropWithin stack m1 cn.left
        climbOwningWithin stack
          { mem := m2, walk := { r.walk with processed := incU32 r.walk.processed } }
    else do
      -- current->right.reset(); processed++;
      let m1 ← store r.mem r.walk.current (fun c => { c with right := none })
      let m2 ← dropWithin stack m1 cn.right
      climbOwningWithin stack
        { mem := m2, walk := { r.walk with processed := incU32 r.walk.processed } }

/-- The loop `while (processed != size - 1)` of `release`, on a call stack of
depth `stack`. -/
def releaseLoopWithin (stack : Nat) : Nat → Nat → Run → Except Fault Run
  | fuel, size, r =>
    if r.walk.processed = predU32 size then .ok r
    else
      match fuel with
      | 0 => .error .outOfFuel
      | fuel + 1 =>
        match releaseStepWithin stack r with
        | .error e => .error e
        | .ok r1 => releaseLoopWithin stack fuel size r1

/-- The function `release(std::shared_ptr<Node> current, unsigned int size)` on a
call stack of depth `stack`. -/
def releaseWithin (stack : Nat) (fuel : Nat) (s : BinarySearchTree) (current : Option Nat)
    (size : Nat) : Except Fault BinarySearchTree := do
  let r ← releaseLoopWithin stack fuel size (releaseInit s current)
  dropWithin stack r.mem r.walk.current

/-- The destructor `~BinarySearchTree()` on a call stack of depth `stack`:
`if (root) { release(root, size); root.reset(); }`. -/
def destructorWithin (stack : Nat) (fuel : Nat) (s : BinarySearchTree) :
    Except Fault BinarySearchTree :=
  if s.root.isSome then do
    let s1 ← releaseWithin stack fuel s s.root s.size
    dropWithin stack { s1 with root := none } s1.root
  else pure s

end BinarySearchTree
/-! ## Part III.  Specification vocabulary

Representation predicates that tie memory to lists and trees of nodes, the
invariants of the data model, and the abstract counterparts of the operations.
-/

namespace LinkedList

/-- `Seg cells prev start ps stop`: following the forward links from `start`
passes exactly the nodes `ps` (address and payload, in order) and arrives at
`stop`; the back pointer of each node is the node before it, `prev` for the
first one. -/
def Seg (cells : Nat → Option Node) :
    Option Nat → Option Nat → List (Nat × Int) → Option Nat → Prop
  | _, start, [], stop => start = stop
  | prev, start, (a, v) :: rest, stop =>
    start = some a ∧
      ∃ nx, cells a = some { next := nx, previous := prev, content := v } ∧
        Seg cells (some a) nx rest stop

/-- The addresses of a list of nodes. -/
def addrs (ps : List (Nat × Int)) : List Nat := ps.map Prod.fst

/-- The payloads of a list of nodes. -/
def values (ps : List (Nat × Int)) : List Int := ps.map Prod.snd

/-- The last address of a list of nodes, `prev` if there is none. -/
def lastPtr : Option Nat → List (Nat × Int) → Option Nat
  | prev, [] => prev
  | _, (a, _) :: rest => lastPtr (some a) rest

/-- The first address of a list of nodes, null if there is none. -/
def firstPtr : List (Nat × Int) → Option Nat
  | [] => none
  | (a, _) :: _ => some a

/-- A well-formed Sequence whose nodes are, in link order, `ps`: `head` owns the
first node, the forward links run through `ps` to null with matching back
pointers, `tail` is the last node, and no other node is alive. -/
structure WellFormed (s : LinkedList) (ps : List (Nat × Int)) : Prop where
  chain : Seg s.cells none s.head ps none
  tail_eq : s.tail = lastPtr none ps
  nodup : (addrs ps).Nodup
  bound : ∀ a ∈ addrs ps, a < s.fresh
  exact : ∀ a, a ∉ addrs ps → s.cells a = none

/-- The loop that reads the payloads in link order, as `operator<<` does. -/
def payloadsLoop : Nat → LinkedList → Option Nat → Except Fault (List Int)
  | _, _, none => .ok []
  | 0, _, some _ => .error .outOfFuel
  | fuel + 1, s, some a => do
    let n ← deref s (some a)
    let rest ← payloadsLoop fuel s n.next
    pure (n.content :: rest)

/-- The payloads of a Sequence in link order, first to last. -/
def payloads (s : LinkedList) : Except Fault (List Int) :=
  payloadsLoop (s.fresh + 1) s s.head

end LinkedList

namespace LinkedList

/-- The walk along the forward links from node `a` to the node whose forward
link is empty. -/
def terminalLoop : Nat → LinkedList → Nat → Except Fault Nat
  | 0, _, _ => .error .outOfFuel
  | fuel + 1, s, a => do
    let n ← deref s (some a)
    match n.next with
    | none => pure a
    | some b => terminalLoop fuel s b

/-- The terminal node reached by following forward links from the first node;
null for the empty Sequence. -/
def terminal (s : LinkedList) : Except Fault (Option Nat) :=
  match s.head with
  | none => .ok none
  | some h =>
    match terminalLoop (s.fresh + 1) s h with
    | .error e => .error e
    | .ok a => .ok (some a)

/-- The data-model invariant of the Sequence: the first node has no back
pointer; for any two live nodes `p` and `x`, the forward link of `p` targets `x`
exactly if the back pointer of `x` targets `p`; `tail` is the terminal node
reached from `head`, and is null exactly if `head` is. -/
structure Invariant (s : LinkedList) : Prop where
  head_back : ∀ h n, s.head = some h → s.cells h = some n → n.previous = none
  links_agree : ∀ p x np nx, s.cells p = some np → s.cells x = some nx →
    (np.next = some x ↔ nx.previous = some p)
  tail_terminal : terminal s = .ok s.tail
  tail_empty_iff : s.tail = none ↔ s.head = none

/-- A node of the Sequence: an address that holds a live node. -/
def IsNode (s : LinkedList) (a : Nat) : Prop := ∃ n, s.cells a = some n

/-- The Sequences that arise from the empty one by `addToEnd` and by `addToPos`
given the null pointer or a node of the Sequence. -/
inductive Reachable : LinkedList → Prop
  | empty : Reachable empty
  | addToEnd {s s2 : LinkedList} (v : Int) :
      Reachable s → addToEnd s v = .ok s2 → Reachable s2
  | addToPos {s s2 : LinkedList} (r : Option Nat) (v : Int) :
      Reachable s → (r = none ∨ ∃ a, r = some a ∧ IsNode s a) → addToPos s r v = .ok s2 →
      Reachable s2

/-- A Sequence with the two nodes 1 and 2, as `addToEnd(1); addToEnd(2);` leaves it. -/
def twoNodes : LinkedList :=
  { cells := setCell (setCell (fun _ => none) 0 (some { next := some 1, previous := none, content := 1 }))
      1 (some { next := none, previous := some 0, content := 2 }),
    fresh := 2, instanceCount := 2, head := some 0, tail := some 1 }

end LinkedList
namespace LinkedList

/-- The text `operator<<` writes for a list of payloads: each one in decimal,
followed by a comma. -/
def textOf : List Int → String
  | [] => ""
  | v :: vs => toString v ++ "," ++ textOf vs

/-- The four cases of `removeNode`, in the order of its `if` chain. -/
inductive Branch where
  /-- The guard `n == head.get() && n == tail` holds. -/
  | sole
  /-- The guard `n == head.get()` holds: `head = std::move(n->next)` is executed. -/
  | first
  /-- The guard `n == tail` holds: `tail = n->previous` is executed. -/
  | last
  /-- None of the guards holds. -/
  | interior
  deriving DecidableEq, Repr

/-- The branch of the `if` chain of `removeNode(n)` that a call takes in state `s`. -/
def removeBranch (s : LinkedList) (a : Nat) : Branch :=
  if s.head = some a ∧ s.tail = some a then Branch.sole
  else if s.head = some a then Branch.first
  else if s.tail = some a then Branch.last
  else Branch.interior

/-- The loop `while(tail) { removeNode(tail); }` of the destructor, as the list
of the branches its calls to `removeNode` take. -/
def destructorBranches : Nat → LinkedList → Except Fault (List Branch)
  | fuel, s =>
    match s.tail with
    | none => .ok []
    | some t =>
      match fuel with
      | 0 => .error .outOfFuel
      | fuel + 1 => do
        let s1 ← removeNode s (some t)
        let bs ← destructorBranches fuel s1
        pure (removeBranch s t :: bs)

/-- The Sequence that `addToEnd(1); addToEnd(2); addToPos(find(1), 7);` leaves
(the empty one if a call faults). -/
def insertedSeven : LinkedList :=
  match (do let s ← addAll empty [1, 2]; let n ← find s 1; addToPos s n 7) with
  | .ok s => s
  | .error _ => empty

end LinkedList
namespace BinarySearchTree

/-- A tree of nodes, each with its address and payload: the shape the memory
is meant to hold. -/
inductive Shape where
  | nil : Shape
  | node (a : Nat) (l : Shape) (v : Int) (r : Shape) : Shape
  deriving DecidableEq, Repr

namespace Shape

/-- The pointer to the topmost node; null for the empty tree. -/
def ptr : Shape → Option Nat
  | nil => none
  | node a _ _ _ => some a

/-- The addresses of the nodes, left subtree first. -/
def addrs : Shape → List Nat
  | nil => []
  | node a l _ r => l.addrs ++ a :: r.addrs

/-- The payloads in in-order: left subtree, node, right subtree. -/
def inorder : Shape → List Int
  | nil => []
  | node _ l v r => l.inorder ++ v :: r.inorder

/-- The number of nodes. -/
def size : Shape → Nat
  | nil => 0
  | node _ l _ r => l.size + 1 + r.size

/-- Binary-search-tree insertion of payload `i` in a node at address `f`;
nothing changes if `i` is met on the way down. -/
def insert (f : Nat) (i : Int) : Shape → Shape
  | nil => node f nil i nil
  | node a l v r =>
    if i < v then node a (l.insert f i) v r
    else if v < i then node a l v (r.insert f i)
    else node a l v r

/-- Where the descent for payload `i` ends: the node found (or null) and the
node visited before it. -/
def locate (i : Int) : Shape → Option Nat → Option Nat × Option Nat
  | nil, prev => (none, prev)
  | node a l v r, prev =>
    if i < v then l.locate i (some a)
    else if v < i then r.locate i (some a)
    else (some a, prev)

/-- The tree after inserting the payloads `vs` in order, the first one at
address `f`, each later one at the next address. -/
def build : Shape → Nat → List Int → Shape
  | t, _, [] => t
  | t, f, i :: vs => build (t.insert f i) (f + 1) vs

/-- The binary-search-tree order: everything in a left subtree is strictly
smaller than the node, everything in a right subtree strictly larger. -/
def Ordered : Shape → Prop
  | nil => True
  | node _ l v r => (∀ x ∈ l.inorder, x < v) ∧ (∀ x ∈ r.inorder, v < x) ∧ l.Ordered ∧ r.Ordered

end Shape

/-- `Repr cells parent t`: memory holds the tree `t`, whose topmost node has the
parent link `parent`; every child's parent link targets its parent. -/
def Repr (cells : Nat → Option Node) : Option Nat → Shape → Prop
  | _, .nil => True
  | parent, .node a l v r =>
    cells a = some { left := l.ptr, right := r.ptr, parent := parent, content := v } ∧
      Repr cells (some a) l ∧ Repr cells (some a) r

/-- A well-formed Ordered Tree holding the nodes `t`: `root` owns the topmost
node, every node is owned by exactly one link, `size` is the number of nodes,
and no other node is alive. -/
structure WellFormed (s : BinarySearchTree) (t : Shape) : Prop where
  repr : Repr s.cells none t
  root_eq : s.root = t.ptr
  nodup : t.addrs.Nodup
  bound : ∀ a ∈ t.addrs, a < s.fresh
  uses_one : ∀ a ∈ t.addrs, s.uses a = 1
  size_eq : s.size = t.size
  exact : ∀ a, a ∉ t.addrs → s.cells a = none

/-- The text `operator<<` writes for a list of payloads: each one followed by a comma. -/
def textOf : List Int → String
  | [] => ""
  | v :: vs => toString v ++ "," ++ textOf vs

/-- The node a new payload is hung below, with the link that receives it. -/
def attach (i : Int) (f : Nat) (pn : Node) : Node :=
  if i < pn.content then { pn with left := some f } else { pn with right := some f }

/-- The rest of a run of the loop of `operator<<` from the point where the
climbing block is about to execute on the locals `w`. -/
def afterClimb (s : BinarySearchTree) (fuel : Nat) (w : Walk) : Except Fault String :=
  match climb s w with
  | .error e => .error e
  | .ok w1 => renderLoop fuel s w1

/-- The use counts `u0` plus one for each of the two locals that targets the node. -/
def withLocals (u0 : Nat → Nat) (cur prev : Option Nat) : Nat → Nat :=
  fun a => u0 a + (if cur = some a then 1 else 0) + (if prev = some a then 1 else 0)

end BinarySearchTree
namespace BinarySearchTree

namespace Shape

/-- Whether the tree is empty. -/
def isNil : Shape → Bool
  | nil => true
  | node _ _ _ _ => false

/-- What the loop of `release` leaves of a tree it has walked through: the
topmost node, with its right link cleared, and with its left link cleared
unless the node had both children. -/
def residue : Shape → Shape
  | nil => nil
  | node a l v r => node a (if r.isNil then nil else l.residue) v nil

/-- The number of times the loop of `release` increments `processed` while it
walks through a tree. -/
def resets : Shape → Nat
  | nil => 0
  | node _ l _ r => l.resets + r.resets + (if l.isNil && r.isNil then 0 else 1)

end Shape

/-- Memory after the nodes at the addresses `xs` have been destroyed. -/
def wipe (m : BinarySearchTree) (xs : List Nat) : BinarySearchTree :=
  { m with
    cells := fun b => if b ∈ xs then none else m.cells b,
    uses := fun b => if b ∈ xs then 0 else m.uses b,
    instanceCount := m.instanceCount - xs.length }

/-- The rest of a run of the loop of `release` from the point where the
climbing block is about to execute. -/
def afterClimbOwning (fuel : Nat) (size : Nat) (r : Run) : Except Fault Run :=
  match climbOwning r with
  | .error e => .error e
  | .ok r1 => releaseLoop fuel size r1

/-- The memory `m` as `release` finds it when `current` has just come down to
the topmost node `a` of the subtree `t`: the subtree is intact, `a` is owned by
its link and by `current`, every other node of it by its link alone. -/
structure Entered (m : BinarySearchTree) (t : Shape) (pp : Option Nat) (a : Nat) : Prop where
  repr : Repr m.cells pp t
  nodup : t.addrs.Nodup
  bound : ∀ x ∈ t.addrs, x < m.fresh
  uses_top : m.uses a = 2
  uses_rest : ∀ x ∈ t.addrs, x ≠ a → m.uses x = 1

/-- The memory `m2` in which `release` is about to climb out of the subtree `t`
that it entered in memory `m`: what is left of the subtree is its residue, the
other nodes of it are destroyed, and nothing else has changed. -/
structure Swept (m m2 : BinarySearchTree) (t : Shape) (pp : Option Nat) (a : Nat) : Prop where
  repr : Repr m2.cells pp t.residue
  uses_top : m2.uses a = 2
  uses_rest : ∀ x ∈ t.residue.addrs, x ≠ a → m2.uses x = 1
  dead : ∀ x ∈ t.addrs, x ∉ t.residue.addrs → m2.cells x = none
  frame_cells : ∀ x, x ∉ t.addrs → m2.cells x = m.cells x
  frame_uses : ∀ x, x ∉ t.addrs → m2.uses x = m.uses x
  fresh_eq : m2.fresh = m.fresh
  count : m2.instanceCount + t.size = m.instanceCount + t.residue.size
  root_eq : m2.root = m.root
  size_eq : m2.size = m.size

end BinarySearchTree

namespace BinarySearchTree

/-- The memory `m2` after `release` has gone down from the node `a` into its
child subtree `ch` and has come back up to `a`, relative to the memory `m`
before. -/
structure Visited (m m2 : BinarySearchTree) (ch : Shape) (a : Nat) : Prop where
  repr : Repr m2.cells (some a) ch.residue
  uses_one : ∀ x ∈ ch.residue.addrs, m2.uses x = 1
  dead : ∀ x ∈ ch.addrs, x ∉ ch.residue.addrs → m2.cells x = none
  frame_cells : ∀ x, x ∉ ch.addrs → m2.cells x = m.cells x
  frame_uses : ∀ x, x ∉ ch.addrs → m2.uses x = m.uses x
  fresh_eq : m2.fresh = m.fresh
  count : m2.instanceCount + ch.size = m.instanceCount + ch.residue.size
  root_eq : m2.root = m.root
  size_eq : m2.size = m.size

/-- What the loop of `release` does with a subtree `t` it comes down into: it
runs until it is about to climb out of the topmost node, having incremented
`processed` by `t.resets` and left the residue of `t`. -/
def TraverseSpec (size : Nat) (t : Shape) : Prop :=
  ∀ (a : Nat) (pp : Option Nat) (m : BinarySearchTree) (k : Nat) (cfl : Bool) (os : String),
    t.ptr = some a → Entered m t pp a → k < predU32 size → k + t.resets ≤ predU32 size →
    ∃ n m2 c,
      (∀ fuel,
        releaseLoop (fuel + n + 1) size
            { mem := m, walk := { current := some a, processed := k, fromUp := true,
                                  comingFromLeft := cfl, os := os } } =
          afterClimbOwning fuel size
            { mem := m2, walk := { current := some a, processed := k + t.resets, fromUp := false,
                                   comingFromLeft := c, os := os } }) ∧
      Swept m m2 t pp a ∧ (c = true → ∀ nd, m2.cells a = some nd → nd.left = none)

end BinarySearchTree

namespace BinarySearchTree

/-- What is left right after the loop of `release` has finished on the tree
built from `vs`, at the point where the destructor is about to execute
`root.reset()`: the root's left and right links, the number of nodes still
alive, and the final value of `processed`. -/
def releaseLoopReport (fuel : Nat) (vs : List Int) :
    Except Fault (Option Nat × Option Nat × Int × Nat) := do
  let s ← addAll empty vs
  let r ← releaseLoop fuel s.size (releaseInit s s.root)
  let n ← deref r.mem s.root
  pure (n.left, n.right, r.mem.instanceCount, r.walk.processed)

end BinarySearchTree
namespace BinarySearchTree

/-- The payloads of the nodes below a link, read from memory: left subtree,
node, right subtree. -/
def payloadsFuel : Nat → BinarySearchTree → Option Nat → Except Fault (List Int)
  | _, _, none => .ok []
  | 0, _, some _ => .error .outOfFuel
  | fuel + 1, s, some a => do
    let n ← deref s (some a)
    let l ← payloadsFuel fuel s n.left
    let r ← payloadsFuel fuel s n.right
    pure (l ++ n.content :: r)

/-- The payloads of the subtree a link owns; a subtree is never deeper than the
number of addresses. -/
def payloads (s : BinarySearchTree) (p : Option Nat) : Except Fault (List Int) :=
  payloadsFuel s.fresh s p

/-- The height of the subtree below a link, read from memory: 0 for an empty
link, otherwise one more than the larger height of the two children. -/
def heightFuel : Nat → BinarySearchTree → Option Nat → Except Fault Nat
  | _, _, none => .ok 0
  | 0, _, some _ => .error .outOfFuel
  | fuel + 1, s, some a => do
    let n ← deref s (some a)
    let l ← heightFuel fuel s n.left
    let r ← heightFuel fuel s n.right
    pure (max l r + 1)

/-- The height of the subtree a link owns. -/
def height (s : BinarySearchTree) (p : Option Nat) : Except Fault Nat :=
  heightFuel s.fresh s p

namespace Shape

/-- The right-leaning chain that holds the payloads `vs` in nodes at the
addresses `f`, `f + 1`, and so on. -/
def chain : Nat → List Int → Shape
  | _, [] => nil
  | f, v :: vs => node f nil v (chain (f + 1) vs)

end Shape

/-- The loop `while (processed != size - 1)` of `release`, as the list of the
numbers of nodes its iterations destroy: the decrease of `instanceCount` over
each execution of the loop body, which contains at most one `reset`. -/
def releaseLoopCosts : Nat → Nat → Run → Except Fault (List Int)
  | fuel, size, r =>
    if r.walk.processed = predU32 size then .ok []
    else
      match fuel with
      | 0 => .error .outOfFuel
      | fuel + 1 =>
        match releaseStep r with
        | .error e => .error e
        | .ok r1 =>
          match releaseLoopCosts fuel size r1 with
          | .error e => .error e
          | .ok ks => .ok ((r.mem.instanceCount - r1.mem.instanceCount) :: ks)

/-- The numbers of nodes destroyed by the iterations of the loop of
`release(root, size)` on the tree built from `vs`. -/
def releaseCostsReport (fuel : Nat) (vs : List Int) : Except Fault (List Int) := do
  let s ← addAll empty vs
  releaseLoopCosts fuel s.size (releaseInit s s.root)

namespace Shape

/-- The height of a tree: the number of nodes on its longest downward path. -/
def height : Shape → Nat
  | nil => 0
  | node _ l _ r => max l.height r.height + 1

/-- The comb with `k` teeth whose nodes are at the addresses `f`, `f + 1`, and
so on: a left spine holding `2 * k`, ..., 4, 2 from the top down, each spine
node with a right child that holds the next odd number. -/
def comb : Nat → Nat → Shape
  | _, 0 => nil
  | f, k + 1 =>
    node f (comb (f + 2) k) (2 * (k + 1) : Nat) (node (f + 1) nil (2 * (k + 1) + 1 : Nat) nil)

/-- The tree `t` with `u` hung below the last node of its left spine. -/
def plugLeft : Shape → Shape → Shape
  | nil, u => u
  | node a l v r, u => node a (plugLeft l u) v r

/-- Every payload on the left spine of the tree is larger than `b`. -/
def LeftAbove : Shape → Int → Prop
  | nil, _ => True
  | node _ l v _, b => b < v ∧ LeftAbove l b

end Shape

/-- The insertions that build the comb with `k` teeth: `2 * k`, `2 * k + 1`,
then `2 * (k - 1)`, `2 * (k - 1) + 1`, and so on down to 2, 3. -/
def combValues : Nat → List Int
  | 0 => []
  | k + 1 => ((2 * (k + 1) : Nat) : Int) :: ((2 * (k + 1) + 1 : Nat) : Int) :: combValues k

/-- How a run on a call stack of bounded depth relates to the run where the
stack is deep enough: they agree, unless the bounded one overflows the stack or
the other one exhausts its budget. -/
def Sim {α : Type} (a b : Except Fault α) : Prop :=
  a = b ∨ a = .error .stackOverflow ∨ b = .error .outOfFuel

/-- The fault an execution ended with, if it did. -/
def faultOf {α : Type} : Except Fault α → Option Fault
  | .error e => some e
  | .ok _ => none

/-- The outcome of the loop of `release(root, size)` on the tree built from
`vs`, on a call stack of depth `stack`: the fault, or the number of nodes alive
when the loop has finished. -/
def releaseLoopOutcome (stack : Nat) (fuel : Nat) (vs : List Int) : Except Fault Int := do
  let s ← addAll empty vs
  let r ← releaseLoopWithin stack fuel s.size (releaseInit s s.root)
  pure r.mem.instanceCount

/-- The outcome of the destructor on the tree built from `vs`, on a call stack
of depth `stack`: the fault, or the number of nodes alive afterwards. -/
def destructorOutcome (stack : Nat) (fuel : Nat) (vs : List Int) : Except Fault Int := do
  let s ← addAll empty vs
  let s2 ← destructorWithin stack fuel s
  pure s2.instanceCount

end BinarySearchTree
/-! ## Part IV.  Lemmas

### The Sequence: segments, well-formedness, and the operations on it -/

namespace LinkedList

theorem seg_nil (cells : Nat → Option Node) (prev start stop : Option Nat) :
    Seg cells prev start [] stop ↔ start = stop := Iff.rfl

theorem seg_cons (cells : Nat → Option Node) (prev start stop : Option Nat) (a : Nat) (v : Int)
    (rest : List (Nat × Int)) :
    Seg cells prev start ((a, v) :: rest) stop ↔
      start = some a ∧
        ∃ nx, cells a = some { next := nx, previous := prev, content := v } ∧
          Seg cells (some a) nx rest stop := Iff.rfl

theorem seg_append (cells : Nat → Option Node) (ps qs : List (Nat × Int))
    (prev start stop : Option Nat) :
    Seg cells prev start (ps ++ qs) stop ↔
      ∃ mid, Seg cells prev start ps mid ∧ Seg cells (lastPtr prev ps) mid qs stop := by
  induction ps generalizing prev start with
  | nil => simp [seg_nil, lastPtr]
  | cons p ps ih =>
    obtain ⟨a, v⟩ := p
    simp only [List.cons_append, seg_cons, lastPtr, ih]
    constructor
    · rintro ⟨h1, nx, h2, mid, h3, h4⟩
      exact ⟨mid, ⟨h1, nx, h2, h3⟩, h4⟩
    · rintro ⟨mid, ⟨h1, nx, h2, h3⟩, h4⟩
      exact ⟨h1, nx, h2, mid, h3, h4⟩

theorem seg_congr {cells cells2 : Nat → Option Node} {ps : List (Nat × Int)}
    {prev start stop : Option Nat} (h : ∀ a ∈ addrs ps, cells2 a = cells a)
    (hs : Seg cells prev start ps stop) : Seg cells2 prev start ps stop := by
  induction ps generalizing prev start with
  | nil => simpa [Seg] using hs
  | cons p ps ih =>
    obtain ⟨a, v⟩ := p
    obtain ⟨h1, nx, h2, h3⟩ := hs
    refine ⟨h1, nx, ?_, ih (fun b hb => h b (by simp [addrs] at hb ⊢; right; exact hb)) h3⟩
    rw [h a (by simp [addrs])]; exact h2

theorem lastPtr_append (prev : Option Nat) (ps qs : List (Nat × Int)) :
    lastPtr prev (ps ++ qs) = lastPtr (lastPtr prev ps) qs := by
  induction ps generalizing prev with
  | nil => rfl
  | cons p ps ih => obtain ⟨a, v⟩ := p; simp [lastPtr, ih]

theorem addrs_append (ps qs : List (Nat × Int)) : addrs (ps ++ qs) = addrs ps ++ addrs qs := by
  simp [addrs]

theorem setCell_same {α : Type} (m : Nat → Option α) (a : Nat) (v : Option α) :
    setCell m a v a = v := by simp [setCell]

theorem setCell_other {α : Type} (m : Nat → Option α) {a b : Nat} (v : Option α) (h : b ≠ a) :
    setCell m a v b = m b := by simp [setCell, h]

end LinkedList
namespace LinkedList

theorem wf_snoc_inv {s : LinkedList} {qs : List (Nat × Int)} {t : Nat} {x : Int}
    (h : WellFormed s (qs ++ [(t, x)])) :
    s.tail = some t ∧ s.cells t = some { next := none, previous := lastPtr none qs, content := x } ∧
      Seg s.cells none s.head qs (some t) ∧ t < s.fresh ∧ t ∉ addrs qs ∧ (addrs qs).Nodup ∧
      (∀ a ∈ addrs qs, a < s.fresh) := by
  obtain ⟨hc, ht, hn, hb, _⟩ := h
  rw [seg_append] at hc
  obtain ⟨mid, h1, h2⟩ := hc
  rw [seg_cons] at h2
  obtain ⟨rfl, nx, h3, h4⟩ := h2
  rw [seg_nil] at h4
  subst h4
  rw [addrs_append, List.nodup_append] at hn
  refine ⟨?_, h3, h1, hb t (by simp [addrs]), ?_, hn.1, fun a ha => hb a (by simp [addrs] at ha ⊢; left; exact ha)⟩
  · rw [ht, lastPtr_append]; rfl
  · intro hmem
    exact hn.2.2 hmem (by simp [addrs])

theorem addToEnd_wf {s : LinkedList} {ps : List (Nat × Int)} (v : Int) (h : WellFormed s ps) :
    ∃ s2, addToEnd s v = .ok s2 ∧ WellFormed s2 (ps ++ [(s.fresh, v)]) ∧
      s2.fresh = s.fresh + 1 ∧ s2.instanceCount = s.instanceCount + 1 := by
  rcases List.eq_nil_or_concat ps with rfl | ⟨qs, ⟨t, x⟩, rfl⟩
  · obtain ⟨hc, ht, hn, hb, he⟩ := h
    rw [seg_nil] at hc
    simp only [lastPtr] at ht
    simp only [addToEnd, newNode, appendToEnd, ht, assignHead, hc, dispose]
    refine ⟨_, rfl, ?_, rfl, rfl⟩
    constructor
    · simp [seg_cons, seg_nil, setCell]
    · simp [lastPtr]
    · simp [addrs]
    · simp [addrs]
    · intro a ha
      simp [addrs] at ha
      simp [setCell, ha]
      exact he a (by simp [addrs])
  · rw [List.concat_eq_append] at h ⊢
    obtain ⟨ht, hcell, hseg, hlt, hnotin, hnd, hbd⟩ := wf_snoc_inv h
    have hne : t ≠ s.fresh := Nat.ne_of_lt hlt
    simp [addToEnd, newNode, appendToEnd, ht, assignNext, deref, store, setCell, hne, hne.symm, hcell,
      dispose, bind, Except.bind, pure, Except.pure]
    have hfresh : s.fresh ∉ addrs qs := fun hm => Nat.lt_irrefl _ (hbd _ hm)
    constructor
    · rw [show qs ++ [(t, x), (s.fresh, v)] = qs ++ ([(t, x)] ++ [(s.fresh, v)]) by simp]
      rw [seg_append]
      refine ⟨some t, seg_congr ?_ hseg, ?_⟩
      · intro a ha
        have h1 : a ≠ t := fun e => hnotin (e ▸ ha)
        have h2 : a ≠ s.fresh := fun e => hfresh (e ▸ ha)
        simp [setCell, h1, h2]
      · simp [seg_cons, seg_nil, setCell, hne, lastPtr]
    · simp [lastPtr_append, lastPtr]
    · rw [addrs_append, List.nodup_append]
      refine ⟨hnd, by simp [addrs, hne], ?_⟩
      intro a ha hb
      simp [addrs] at hb
      rcases hb with rfl | rfl
      · exact hnotin ha
      · exact hfresh ha
    · intro a ha
      simp [addrs] at ha
      rcases ha with ha | rfl | rfl
      · have := hbd a (by simpa [addrs] using ha); simp; omega
      · simp; omega
      · simp
    · intro a ha
      simp [addrs] at ha
      have h1 : a ≠ t := fun e => ha.2.1 e
      have h2 : a ≠ s.fresh := fun e => ha.2.2 e
      simp [setCell, h1, h2]
      exact h.exact a (by simp [addrs]; exact ⟨ha.1, h1⟩)

end LinkedList
namespace LinkedList

theorem nodup_bounded_length {l : List Nat} {n : Nat} (hn : l.Nodup) (hb : ∀ a ∈ l, a < n) :
    l.length ≤ n := by
  have h1 : l.toFinset ⊆ Finset.range n := by
    intro a ha
    simp at ha
    simpa using hb a ha
  have h2 := Finset.card_le_card h1
  rw [List.toFinset_card_of_nodup hn] at h2
  simpa using h2

theorem wf_length_le {s : LinkedList} {ps : List (Nat × Int)} (h : WellFormed s ps) :
    ps.length ≤ s.fresh := by
  have := nodup_bounded_length h.nodup h.bound
  simpa [addrs] using this

theorem payloadsLoop_seg (s : LinkedList) (ps : List (Nat × Int)) (prev start : Option Nat)
    (fuel : Nat) (hs : Seg s.cells prev start ps none) (hf : ps.length < fuel) :
    payloadsLoop fuel s start = .ok (values ps) := by
  induction ps generalizing prev start fuel with
  | nil =>
    rw [seg_nil] at hs
    subst hs
    cases fuel <;> rfl
  | cons p ps ih =>
    obtain ⟨a, v⟩ := p
    obtain ⟨rfl, nx, h2, h3⟩ := hs
    cases fuel with
    | zero => simp at hf
    | succ fuel =>
      have := ih (some a) nx fuel h3 (by simpa using hf)
      simp [payloadsLoop, deref, h2, this, values, bind, Except.bind, pure, Except.pure]

theorem payloads_wf {s : LinkedList} {ps : List (Nat × Int)} (h : WellFormed s ps) :
    payloads s = .ok (values ps) :=
  payloadsLoop_seg s ps none s.head _ h.chain (Nat.lt_succ_of_le (wf_length_le h))

theorem findLoop_absent (s : LinkedList) (ps : List (Nat × Int)) (prev start : Option Nat)
    (fuel : Nat) (i : Int) (hs : Seg s.cells prev start ps none) (hf : ps.length < fuel)
    (hi : i ∉ values ps) : findLoop fuel s i start = .ok none := by
  induction ps generalizing prev start fuel with
  | nil =>
    rw [seg_nil] at hs
    subst hs
    cases fuel <;> rfl
  | cons p ps ih =>
    obtain ⟨a, v⟩ := p
    obtain ⟨rfl, nx, h2, h3⟩ := hs
    cases fuel with
    | zero => simp at hf
    | succ fuel =>
      simp [values] at hi
      have hv : v ≠ i := fun e => hi.1 e.symm
      have := ih (some a) nx fuel h3 (by simpa using hf) (by simpa [values] using hi.2)
      simp [findLoop, deref, h2, this, hv, bind, Except.bind]

theorem find_absent {s : LinkedList} {ps : List (Nat × Int)} (i : Int) (h : WellFormed s ps)
    (hi : i ∉ values ps) : find s i = .ok none :=
  findLoop_absent s ps none s.head _ i h.chain (Nat.lt_succ_of_le (wf_length_le h)) hi

theorem findLoop_first (s : LinkedList) (pre rest : List (Nat × Int)) (a : Nat) (i : Int)
    (prev start : Option Nat) (fuel : Nat)
    (hs : Seg s.cells prev start (pre ++ (a, i) :: rest) none) (hf : pre.length < fuel)
    (hi : i ∉ values pre) : findLoop fuel s i start = .ok (some a) := by
  induction pre generalizing prev start fuel with
  | nil =>
    obtain ⟨rfl, nx, h2, h3⟩ := hs
    cases fuel with
    | zero => simp at hf
    | succ fuel => simp [findLoop, deref, h2, bind, Except.bind, pure, Except.pure]
  | cons p pre ih =>
    obtain ⟨b, v⟩ := p
    obtain ⟨rfl, nx, h2, h3⟩ := hs
    cases fuel with
    | zero => simp at hf
    | succ fuel =>
      simp [values] at hi
      have hv : v ≠ i := fun e => hi.1 e.symm
      have := ih (some b) nx fuel h3 (by simpa using hf) (by simpa [values] using hi.2)
      simp [findLoop, deref, h2, this, hv, bind, Except.bind]

theorem find_first {s : LinkedList} {pre rest : List (Nat × Int)} {a : Nat} {i : Int}
    (h : WellFormed s (pre ++ (a, i) :: rest)) (hi : i ∉ values pre) :
    find s i = .ok (some a) := by
  refine findLoop_first s pre rest a i none s.head _ h.chain ?_ hi
  have := wf_length_le h
  simp at this
  omega

/-- The facts `WellFormed` gives about a node in the middle of the list. -/
theorem wf_mid_inv {s : LinkedList} {pre rest : List (Nat × Int)} {a : Nat} {x : Int}
    (h : WellFormed s (pre ++ (a, x) :: rest)) :
    s.cells a = some { next := firstPtr rest, previous := lastPtr none pre, content := x } ∧
      Seg s.cells none s.head pre (some a) ∧
      Seg s.cells (some a) (firstPtr rest) rest none ∧
      a < s.fresh ∧ a ∉ addrs pre ∧ a ∉ addrs rest ∧
      (∀ b ∈ addrs pre, b ∉ addrs rest) := by
  obtain ⟨hc, ht, hn, hb, _⟩ := h
  rw [seg_append] at hc
  obtain ⟨mid, h1, h2⟩ := hc
  rw [seg_cons] at h2
  obtain ⟨rfl, nx, h3, h4⟩ := h2
  have hnx : nx = firstPtr rest := by
    cases rest with
    | nil => rw [seg_nil] at h4; simpa [firstPtr] using h4
    | cons q rest => obtain ⟨b, w⟩ := q; rw [seg_cons] at h4; simpa [firstPtr] using h4.1
  subst hnx
  rw [addrs_append, List.nodup_append] at hn
  obtain ⟨hn1, hn2, hn3⟩ := hn
  have hn2' : a ∉ addrs rest ∧ (addrs rest).Nodup := by simpa [addrs] using hn2
  refine ⟨h3, h1, h4, hb a (by simp [addrs]), ?_, hn2'.1, ?_⟩
  · intro hm; exact hn3 hm (by simp [addrs])
  · intro b hb1 hb2
    exact hn3 hb1 (by simp [addrs] at hb2 ⊢; right; exact hb2)

end LinkedList
namespace LinkedList

theorem seg_last_next {cells : Nat → Option Node} {qs : List (Nat × Int)} {p : Nat} {z : Int}
    {prev start stop : Option Nat} (h : Seg cells prev start (qs ++ [(p, z)]) stop) :
    ∃ n, cells p = some n ∧ n.next = stop := by
  rw [seg_append] at h
  obtain ⟨mid, _, h2⟩ := h
  rw [seg_cons] at h2
  obtain ⟨_, nx, h3, h4⟩ := h2
  rw [seg_nil] at h4
  exact ⟨_, h3, h4⟩

theorem lastPtr_some_next {cells : Nat → Option Node} {pre : List (Nat × Int)} {p : Nat}
    {start stop : Option Nat} (h : Seg cells none start pre stop) (hp : lastPtr none pre = some p) :
    ∃ n, cells p = some n ∧ n.next = stop := by
  rcases List.eq_nil_or_concat pre with rfl | ⟨qs, ⟨t, z⟩, rfl⟩
  · simp [lastPtr] at hp
  · rw [List.concat_eq_append] at h hp
    rw [lastPtr_append] at hp
    simp [lastPtr] at hp
    subst hp
    exact seg_last_next h

theorem firstPtr_some_prev {cells : Nat → Option Node} {rest : List (Nat × Int)} {b : Nat}
    {prev stop : Option Nat} (h : Seg cells prev (firstPtr rest) rest stop)
    (hb : firstPtr rest = some b) : ∃ n, cells b = some n ∧ n.previous = prev := by
  cases rest with
  | nil => simp [firstPtr] at hb
  | cons q rest =>
    obtain ⟨c, w⟩ := q
    simp [firstPtr] at hb
    subst hb
    rw [seg_cons] at h
    obtain ⟨_, nx, h3, _⟩ := h
    exact ⟨_, h3, rfl⟩

theorem linkAsserts_ok {s : LinkedList} {pre rest : List (Nat × Int)} {a : Nat} {x : Int}
    (h : WellFormed s (pre ++ (a, x) :: rest)) : linkAsserts s a = .ok () := by
  obtain ⟨hcell, hpre, hrest, -⟩ := wf_mid_inv h
  have h1 : ∀ p, lastPtr none pre = some p → ∃ n, s.cells p = some n ∧ n.next = some a :=
    fun p hp => lastPtr_some_next hpre hp
  have h2 : ∀ b, firstPtr rest = some b → ∃ n, s.cells b = some n ∧ n.previous = some a :=
    fun b hb => firstPtr_some_prev hrest hb
  simp only [linkAsserts, deref, hcell, bind, Except.bind]
  cases hp : lastPtr none pre with
  | none =>
    cases hb : firstPtr rest with
    | none => rfl
    | some b =>
      obtain ⟨n, hn1, hn2⟩ := h2 b hb
      simp [hn1, hn2, pure, Except.pure]
  | some p =>
    obtain ⟨m, hm1, hm2⟩ := h1 p hp
    cases hb : firstPtr rest with
    | none => simp [hm1, hm2, pure, Except.pure]
    | some b =>
      obtain ⟨n, hn1, hn2⟩ := h2 b hb
      simp [hm1, hm2, hn1, hn2, pure, Except.pure]

theorem addToPos_interior_wf {s : LinkedList} {pre post : List (Nat × Int)} {a b : Nat} {x y : Int}
    (v : Int) (h : WellFormed s (pre ++ (a, x) :: (b, y) :: post)) :
    ∃ s2, addToPos s (some a) v = .ok s2 ∧
      WellFormed s2 (pre ++ (a, x) :: (s.fresh, v) :: (b, y) :: post) ∧
      s2.fresh = s.fresh + 1 ∧ s2.instanceCount = s.instanceCount + 1 := by
  have hla := linkAsserts_ok h
  obtain ⟨hcella, hpre, hrest, hlt, hapre, harest, hdisj⟩ := wf_mid_inv h
  have h' : WellFormed s ((pre ++ [(a, x)]) ++ (b, y) :: post) := by simpa using h
  obtain ⟨hcellb, hpre', hpost, hltb, hbpre, hbpost, hdisj'⟩ := wf_mid_inv h'
  have hab : a ≠ b := by intro e; apply harest; simp [addrs, e]
  have haf : a ≠ s.fresh := Nat.ne_of_lt hlt
  have hbf : b ≠ s.fresh := Nat.ne_of_lt hltb
  simp only [lastPtr_append, lastPtr] at hcellb
  simp only [firstPtr] at hcella
  simp [addToPos, hla, newNode, deref, store, assignNext, dispose, setCell, hcella, hcellb, hab,
    hab.symm, haf, haf.symm, hbf, hbf.symm, bind, Except.bind, pure, Except.pure]
  have hfresh : ∀ c ∈ addrs (pre ++ (a, x) :: (b, y) :: post), c ≠ s.fresh :=
    fun c hc => Nat.ne_of_lt (h.bound c hc)
  have hbpre2 : b ∉ addrs pre := fun hm => hbpre (by simp [addrs] at hm ⊢; left; exact hm)
  constructor
  · rw [seg_append]
    refine ⟨some a, seg_congr ?_ hpre, ?_⟩
    · intro c hc
      have h1 : c ≠ a := fun e => hapre (e ▸ hc)
      have h2 : c ≠ b := fun e => hbpre2 (e ▸ hc)
      have h3 : c ≠ s.fresh := hfresh c (by simp [addrs] at hc ⊢; left; exact hc)
      simp [setCell, h1, h2, h3]
    · refine (seg_cons _ _ _ _ _ _ _).2 ⟨rfl, some s.fresh, by simp [setCell],
        (seg_cons _ _ _ _ _ _ _).2 ⟨rfl, some b, by simp [setCell, haf.symm],
          (seg_cons _ _ _ _ _ _ _).2 ⟨rfl, firstPtr post, by simp [setCell, hab.symm, hbf], ?_⟩⟩⟩
      refine seg_congr ?_ hpost
      intro c hc
      have h1 : c ≠ a := fun e => harest (by simp [addrs] at hc ⊢; right; rw [← e]; exact hc)
      have h2 : c ≠ b := fun e => hbpost (e ▸ hc)
      have h3 : c ≠ s.fresh := hfresh c (by simp [addrs] at hc ⊢; tauto)
      simp [setCell, h1, h2, h3]
  · have := h.tail_eq
    simp only [lastPtr_append, lastPtr] at this ⊢
    exact this
  · have hnd := h.nodup
    have hf1 : s.fresh ∉ addrs pre := fun hm => hfresh _ (by simp [addrs] at hm ⊢; left; exact hm) rfl
    have hf2 : s.fresh ∉ addrs post :=
      fun hm => hfresh _ (by simp [addrs] at hm ⊢; tauto) rfl
    simp only [addrs, List.map_append, List.map_cons, List.nodup_append, List.nodup_cons,
      List.mem_cons, List.mem_map, not_or, List.Disjoint] at hnd hf1 hf2 ⊢
    refine ⟨hnd.1, ⟨⟨haf, hnd.2.1.1.1, hnd.2.1.1.2⟩, ⟨hbf.symm, hf2⟩, hnd.2.1.2⟩, ?_⟩
    intro c hc1 hc2
    rcases hc2 with rfl | rfl | hc2
    · exact hnd.2.2 hc1 (Or.inl rfl)
    · exact hf1 hc1
    · exact hnd.2.2 hc1 (Or.inr hc2)
  · intro c hc
    have : c = s.fresh ∨ c ∈ addrs (pre ++ (a, x) :: (b, y) :: post) := by
      simp [addrs] at hc ⊢; tauto
    rcases this with rfl | hm
    · simp
    · have := h.bound c hm; simp; omega
  · intro c hc
    have hc' : c ∉ addrs (pre ++ (a, x) :: (b, y) :: post) ∧ c ≠ s.fresh ∧ c ≠ a ∧ c ≠ b := by
      simp [addrs] at hc ⊢; tauto
    simp [setCell, hc'.2.1, hc'.2.2.1, hc'.2.2.2]
    exact h.exact c hc'.1

end LinkedList
namespace LinkedList

theorem addToPos_eq_addToEnd {s : LinkedList} {ps : List (Nat × Int)} (h : WellFormed s ps)
    (r : Option Nat) (hr : r = none ∨ r = s.tail) (v : Int) :
    addToPos s r v = addToEnd s v := by
  cases r with
  | none => simp [addToPos, addToEnd, newNode, bind, Except.bind, pure, Except.pure]
  | some t =>
    have ht : s.tail = some t := by
      rcases hr with hr | hr
      · cases hr
      · exact hr.symm
    rcases List.eq_nil_or_concat ps with rfl | ⟨qs, ⟨t2, x⟩, rfl⟩
    · have := h.tail_eq
      rw [ht] at this
      simp [lastPtr] at this
    · rw [List.concat_eq_append] at h
      obtain ⟨ht2, hcell, -, hlt, -⟩ := wf_snoc_inv h
      rw [ht] at ht2
      cases ht2
      have hla := linkAsserts_ok h
      have hne : t ≠ s.fresh := Nat.ne_of_lt hlt
      simp [addToPos, addToEnd, hla, newNode, deref, setCell, hne, hcell, bind, Except.bind, pure,
        Except.pure]

theorem dispose_leaf {s : LinkedList} {a : Nat} {n : Node} (hlt : a < s.fresh)
    (hc : s.cells a = some n) (hn : n.next = none) :
    dispose s (some a) =
      .ok { s with instanceCount := s.instanceCount - 1, cells := setCell s.cells a none } := by
  obtain ⟨k, hk⟩ : ∃ k, s.fresh = k + 1 := ⟨s.fresh - 1, by omega⟩
  simp [dispose, hk, deleteNode, hc, hn]

theorem seg_head_mem {cells : Nat → Option Node} {qs : List (Nat × Int)} {prev start stop : Option Nat}
    (h : Seg cells prev start qs stop) (hq : qs ≠ []) : ∃ a, start = some a ∧ a ∈ addrs qs := by
  cases qs with
  | nil => exact absurd rfl hq
  | cons q qs =>
    obtain ⟨a, v⟩ := q
    exact ⟨a, h.1, by simp [addrs]⟩

theorem removeNode_last_wf {s : LinkedList} {qs : List (Nat × Int)} {t : Nat} {x : Int}
    (h : WellFormed s (qs ++ [(t, x)])) :
    ∃ s2, removeNode s (some t) = .ok s2 ∧ WellFormed s2 qs ∧ s2.fresh = s.fresh ∧
      s2.instanceCount = s.instanceCount - 1 ∧ s2.cells t = none := by
  have hla := linkAsserts_ok h
  obtain ⟨ht, hcell, hseg, hlt, hnotin, hnd, hbd⟩ := wf_snoc_inv h
  have hex : ∀ c, c ∉ addrs qs → c ≠ t → s.cells c = none := by
    intro c hc1 hc2
    exact h.exact c (by simp [addrs] at hc1 ⊢; exact ⟨hc1, hc2⟩)
  rcases List.eq_nil_or_concat qs with rfl | ⟨rs, ⟨p, y⟩, rfl⟩
  · rw [seg_nil] at hseg
    simp only [lastPtr] at hcell
    have hd := dispose_leaf (s := { s with tail := none, head := none }) (a := t) hlt hcell rfl
    simp only [removeNode, hla, hseg, ht, assignHead, bind, Except.bind, pure, Except.pure, and_self,
      if_true, hd]
    refine ⟨_, rfl, ?_, rfl, rfl, by simp [setCell]⟩
    constructor
    · simp [seg_nil]
    · simp [lastPtr]
    · simp [addrs]
    · simp [addrs]
    · intro c _
      by_cases hct : c = t
      · simp [setCell, hct]
      · simp [setCell, hct]; exact hex c (by simp [addrs]) hct
  · rw [List.concat_eq_append] at *
    obtain ⟨a, hha, ham⟩ := seg_head_mem hseg (by simp)
    have hhead : s.head ≠ some t := by
      rw [hha]; intro e; cases e; exact hnotin ham
    have hseg2 := hseg
    rw [seg_append] at hseg2
    obtain ⟨mid, hrs, hp⟩ := hseg2
    rw [seg_cons] at hp
    obtain ⟨rfl, nx, hcellp, hnx⟩ := hp
    rw [seg_nil] at hnx
    subst hnx
    simp only [lastPtr_append, lastPtr] at hcell
    have hpt : p ≠ t := by intro e; apply hnotin; simp [addrs, e]
    have hprs : p ∉ addrs rs := by
      rw [addrs_append, List.nodup_append] at hnd
      intro hm; exact hnd.2.2 hm (by simp [addrs])
    have hd := dispose_leaf
      (s := { s with tail := some p,
                     cells := setCell (setCell s.cells t
                       (some { next := none, previous := some p, content := x })) p
                       (some { next := none, previous := lastPtr none rs, content := y }) })
      (a := t) (n := { next := none, previous := some p, content := x }) hlt
      (by simp [setCell, hpt.symm]) rfl
    simp [removeNode, hla, hhead, ht, deref, store, hcell, hcellp, assignNext, setCell, hpt, hpt.symm,
      bind, Except.bind, pure, Except.pure]
    dsimp only at hd
    rw [hd]
    refine ⟨_, rfl, ?_, rfl, rfl, by simp [setCell]⟩
    constructor
    · rw [seg_append]
      refine ⟨some p, seg_congr ?_ hrs, (seg_cons _ _ _ _ _ _ _).2
        ⟨rfl, none, by simp [setCell, hpt], (seg_nil _ _ _ _).2 rfl⟩⟩
      intro c hc
      have h1 : c ≠ p := fun e => hprs (e ▸ hc)
      have h2 : c ≠ t := fun e => hnotin (by simp [addrs] at hc ⊢; left; rw [← e]; exact hc)
      simp [setCell, h1, h2]
    · simp [lastPtr_append, lastPtr]
    · exact hnd
    · exact hbd
    · intro c hc
      have hcp : c ≠ p := by intro e; apply hc; simp [addrs, e]
      by_cases hct : c = t
      · simp [setCell, hct]
      · simp [setCell, hct, hcp]; exact hex c hc hct

end LinkedList
namespace LinkedList

theorem wf_empty : WellFormed empty [] := by
  constructor <;> simp [empty, seg_nil, lastPtr, addrs]

theorem wf_twoNodes : WellFormed twoNodes [(0, 1), (1, 2)] := by
  constructor
  · simp [twoNodes, seg_cons, seg_nil, setCell]
  · simp [twoNodes, lastPtr]
  · simp [addrs]
  · simp [addrs, twoNodes]
  · intro a ha
    simp [addrs] at ha
    simp [twoNodes, setCell, ha]

theorem destructorLoop_wf {s : LinkedList} {ps : List (Nat × Int)} (h : WellFormed s ps)
    (fuel : Nat) (hf : ps.length ≤ fuel) :
    ∃ s2, destructorLoop fuel s = .ok (s2, ps.length) ∧ WellFormed s2 [] ∧
      s2.instanceCount = s.instanceCount - ps.length ∧ s2.fresh = s.fresh := by
  induction ps using List.reverseRecOn generalizing s fuel with
  | nil =>
    have ht : s.tail = none := by simpa [lastPtr] using h.tail_eq
    refine ⟨s, ?_, h, by simp, rfl⟩
    unfold destructorLoop
    simp [ht]
  | append_singleton qs q ih =>
    obtain ⟨t, x⟩ := q
    obtain ⟨ht, -⟩ := wf_snoc_inv h
    obtain ⟨s1, hr, hwf1, hfr1, hic1, -⟩ := removeNode_last_wf h
    cases fuel with
    | zero => simp at hf
    | succ fuel =>
      obtain ⟨s2, hl, hwf2, hic2, hfr2⟩ := ih hwf1 fuel (by simpa using hf)
      refine ⟨s2, ?_, hwf2, ?_, by rw [hfr2, hfr1]⟩
      · unfold destructorLoop
        simp [ht, hr, hl, bind, Except.bind, pure, Except.pure]
      · rw [hic2, hic1]; simp; ring

theorem wf_nil_inv {s : LinkedList} (h : WellFormed s []) :
    s.head = none ∧ s.tail = none ∧ ∀ a, s.cells a = none := by
  refine ⟨by simpa [seg_nil] using h.chain, by simpa [lastPtr] using h.tail_eq, ?_⟩
  intro a; exact h.exact a (by simp [addrs])

theorem destructor_wf {s : LinkedList} {ps : List (Nat × Int)} (h : WellFormed s ps)
    (fuel : Nat) (hf : ps.length ≤ fuel) :
    ∃ s2, destructorLoop fuel s = .ok (s2, ps.length) ∧ destructor fuel s = .ok s2 ∧
      s2.head = none ∧ s2.tail = none ∧ (∀ a, s2.cells a = none) ∧
      s2.instanceCount = s.instanceCount - ps.length := by
  obtain ⟨s2, hl, hwf, hic, -⟩ := destructorLoop_wf h fuel hf
  obtain ⟨hh, ht, hc⟩ := wf_nil_inv hwf
  refine ⟨s2, hl, ?_, hh, ht, hc, hic⟩
  simp only [destructor, hl, bind, Except.bind, assignHead, hh, dispose]
  cases s2
  simp_all

end LinkedList
namespace LinkedList

theorem mem_addrs_split {ps : List (Nat × Int)} {a : Nat} (h : a ∈ addrs ps) :
    ∃ pre v rest, ps = pre ++ (a, v) :: rest := by
  simp only [addrs, List.mem_map] at h
  obtain ⟨⟨b, v⟩, hm, rfl⟩ := h
  obtain ⟨pre, rest, rfl⟩ := List.append_of_mem hm
  exact ⟨pre, v, rest, rfl⟩

theorem wf_live_mem {s : LinkedList} {ps : List (Nat × Int)} (h : WellFormed s ps) {a : Nat}
    {n : Node} (hc : s.cells a = some n) : a ∈ addrs ps := by
  by_contra hm
  rw [h.exact a hm] at hc
  cases hc

theorem wf_isNode_iff {s : LinkedList} {ps : List (Nat × Int)} (h : WellFormed s ps) (a : Nat) :
    IsNode s a ↔ a ∈ addrs ps := by
  constructor
  · rintro ⟨n, hn⟩; exact wf_live_mem h hn
  · intro hm
    obtain ⟨pre, v, rest, rfl⟩ := mem_addrs_split hm
    exact ⟨_, (wf_mid_inv h).1⟩

theorem terminalLoop_seg (s : LinkedList) (ps : List (Nat × Int)) (a : Nat) (v : Int)
    (prev : Option Nat) (fuel : Nat) (hs : Seg s.cells prev (some a) ((a, v) :: ps) none)
    (hf : ps.length < fuel) :
    (match terminalLoop fuel s a with
      | .error e => .error e
      | .ok b => .ok (some b)) = (.ok (lastPtr prev ((a, v) :: ps)) : Except Fault (Option Nat)) := by
  induction ps generalizing prev a v fuel with
  | nil =>
    obtain ⟨-, nx, h2, h3⟩ := hs
    rw [seg_nil] at h3
    subst h3
    cases fuel with
    | zero => simp at hf
    | succ fuel => simp [terminalLoop, deref, h2, lastPtr, bind, Except.bind, pure, Except.pure]
  | cons p ps ih =>
    obtain ⟨b, w⟩ := p
    obtain ⟨-, nx, h2, h3⟩ := hs
    have hnx : nx = some b := h3.1
    subst hnx
    cases fuel with
    | zero => simp at hf
    | succ fuel =>
      have := ih b w (some a) fuel h3 (by simpa using hf)
      simp only [terminalLoop, deref, h2, bind, Except.bind]
      rw [this]
      simp [lastPtr]

theorem invariant_of_wf {s : LinkedList} {ps : List (Nat × Int)} (h : WellFormed s ps) :
    Invariant s := by
  constructor
  · intro a n hh hc
    cases ps with
    | nil =>
      have := h.chain; rw [seg_nil] at this; rw [hh] at this; cases this
    | cons q ps =>
      obtain ⟨b, v⟩ := q
      obtain ⟨h1, nx, h2, -⟩ := h.chain
      rw [hh] at h1; cases h1
      rw [h2] at hc; cases hc; rfl
  · intro p x np nx hp hx
    obtain ⟨pre, v, rest, rfl⟩ := mem_addrs_split (wf_live_mem h hp)
    obtain ⟨hcp, hsegpre, hsegrest, hpf, hppre, hprest, hdisj⟩ := wf_mid_inv h
    rw [hcp] at hp; cases hp
    constructor
    · intro hnext
      simp only at hnext
      cases rest with
      | nil => simp [firstPtr] at hnext
      | cons q rest =>
        obtain ⟨b, w⟩ := q
        simp only [firstPtr, Option.some.injEq] at hnext
        subst hnext
        have h' : WellFormed s ((pre ++ [(p, v)]) ++ (b, w) :: rest) := by simpa using h
        have := (wf_mid_inv h').1
        rw [this] at hx; cases hx
        simp [lastPtr_append, lastPtr]
    · intro hprev
      obtain ⟨pre2, w, rest2, hps⟩ := mem_addrs_split (wf_live_mem h hx)
      have h2 := h
      rw [hps] at h2
      obtain ⟨hcx, hsegpre2, -⟩ := wf_mid_inv h2
      rw [hcx] at hx; cases hx
      simp only at hprev
      obtain ⟨m, hm1, hm2⟩ := lastPtr_some_next hsegpre2 hprev
      rw [hcp] at hm1; cases hm1
      exact hm2
  · unfold terminal
    cases ps with
    | nil =>
      obtain ⟨hh, ht, -⟩ := wf_nil_inv h
      simp [hh, ht]
    | cons q ps =>
      obtain ⟨a, v⟩ := q
      have hc := h.chain
      have hh : s.head = some a := hc.1
      rw [hh] at hc
      have hlen := wf_length_le h
      simp only [hh]
      rw [terminalLoop_seg s ps a v none _ hc (by simp at hlen; omega), h.tail_eq]
  · rw [h.tail_eq]
    cases ps with
    | nil => simpa [lastPtr, seg_nil] using (wf_nil_inv h).1
    | cons q ps =>
      obtain ⟨a, v⟩ := q
      have hc := h.chain
      have hh : s.head = some a := hc.1
      rcases List.eq_nil_or_concat ps with rfl | ⟨qs, ⟨t, x⟩, rfl⟩
      · simp [lastPtr, hh]
      · rw [List.concat_eq_append, show (a, v) :: (qs ++ [(t, x)]) = ((a, v) :: qs) ++ [(t, x)] by simp,
          lastPtr_append]
        simp [lastPtr, hh]

theorem addToPos_wf {s : LinkedList} {ps : List (Nat × Int)} (h : WellFormed s ps)
    (r : Option Nat) (v : Int) (hr : r = none ∨ ∃ a, r = some a ∧ IsNode s a) :
    ∃ s2 ps2, addToPos s r v = .ok s2 ∧ WellFormed s2 ps2 ∧ ps2.length = ps.length + 1 ∧
      s2.instanceCount = s.instanceCount + 1 := by
  rcases hr with rfl | ⟨a, rfl, ha⟩
  · obtain ⟨s3, h3, hwf3, -, hic3⟩ := addToEnd_wf v h
    exact ⟨s3, _, by rw [addToPos_eq_addToEnd h none (Or.inl rfl), h3], hwf3, by simp, hic3⟩
  · obtain ⟨pre, x, rest, rfl⟩ := mem_addrs_split ((wf_isNode_iff h a).1 ha)
    cases rest with
    | nil =>
      obtain ⟨ht, -⟩ := wf_snoc_inv h
      obtain ⟨s3, h3, hwf3, -, hic3⟩ := addToEnd_wf v h
      exact ⟨s3, _, by rw [addToPos_eq_addToEnd h (some a) (Or.inr ht.symm), h3], hwf3, by simp, hic3⟩
    | cons q post =>
      obtain ⟨b, y⟩ := q
      obtain ⟨s3, h3, hwf3, -, hic3⟩ := addToPos_interior_wf v h
      exact ⟨s3, _, h3, hwf3, by simp; omega, hic3⟩

theorem reachable_wf {s : LinkedList} (h : Reachable s) :
    ∃ ps, WellFormed s ps ∧ s.instanceCount = ps.length := by
  induction h with
  | empty => exact ⟨[], wf_empty, rfl⟩
  | addToEnd v _ hop ih =>
    obtain ⟨ps, hwf, hic⟩ := ih
    obtain ⟨s3, h3, hwf3, -, hic3⟩ := addToEnd_wf v hwf
    rw [h3] at hop; cases hop
    exact ⟨_, hwf3, by rw [hic3, hic]; simp⟩
  | addToPos r v _ hr hop ih =>
    obtain ⟨ps, hwf, hic⟩ := ih
    obtain ⟨s3, ps3, h3, hwf3, hlen, hic3⟩ := addToPos_wf hwf r v hr
    rw [h3] at hop; cases hop
    exact ⟨_, hwf3, by rw [hic3, hic, hlen]; simp⟩

end LinkedList
namespace LinkedList

theorem lastPtr_cons_ne {a : Nat} {prev : Option Nat} {rest : List (Nat × Int)}
    (hp : prev ≠ some a) (ha : a ∉ addrs rest) : lastPtr prev rest ≠ some a := by
  induction rest generalizing prev with
  | nil => simpa [lastPtr] using hp
  | cons q rest ih =>
    obtain ⟨b, w⟩ := q
    simp only [addrs, List.map_cons, List.mem_cons, not_or] at ha
    simp only [lastPtr]
    exact ih (fun e => ha.1 (by cases e; rfl)) (by simpa [addrs] using ha.2)

/-- In a well-formed Sequence with at least two nodes, `removeNode` of the first
node faults: `head = std::move(n->next)` destroys the node, and the next
statement reads `n->next` through it. -/
theorem removeNode_first_faults {s : LinkedList} {rest : List (Nat × Int)} {a b : Nat} {x y : Int}
    (h : WellFormed s ((a, x) :: (b, y) :: rest)) :
    removeNode s (some a) = .error .deadAccess := by
  have h0 : WellFormed s ([] ++ (a, x) :: (b, y) :: rest) := h
  have hla := linkAsserts_ok h0
  obtain ⟨hcell, -, -, hlt, -, harest, -⟩ := wf_mid_inv h0
  simp only [firstPtr, lastPtr] at hcell
  have hhead : s.head = some a := h.chain.1
  have htail : s.tail ≠ some a := by
    rw [h.tail_eq]
    simp only [lastPtr]
    simp only [addrs, List.map_cons, List.mem_cons, not_or] at harest
    exact lastPtr_cons_ne (fun e => harest.1 (by cases e; rfl)) (by simpa [addrs] using harest.2)
  have hd := dispose_leaf
    (s := { s with
            cells := setCell s.cells a (some { next := none, previous := none, content := x }),
            head := some b })
    (a := a) (n := { next := none, previous := none, content := x }) hlt (by simp [setCell]) rfl
  dsimp only at hd
  simp [removeNode, hla, hhead, htail, deref, store, hcell, assignHead, hd, setCell, bind,
    Except.bind, pure, Except.pure]

/-- In a well-formed Sequence, `removeNode` of a node that has both a
predecessor and a successor unlinks and destroys exactly that node. -/
theorem removeNode_interior_wf {s : LinkedList} {pre post : List (Nat × Int)} {p a b : Nat}
    {z x y : Int} (h : WellFormed s (pre ++ (p, z) :: (a, x) :: (b, y) :: post)) :
    ∃ s2, removeNode s (some a) = .ok s2 ∧ WellFormed s2 (pre ++ (p, z) :: (b, y) :: post) ∧
      s2.fresh = s.fresh ∧ s2.instanceCount = s.instanceCount - 1 ∧ s2.cells a = none := by
  have hp0 := wf_mid_inv h
  have h1 : WellFormed s ((pre ++ [(p, z)]) ++ (a, x) :: (b, y) :: post) := by simpa using h
  have h2 : WellFormed s ((pre ++ [(p, z), (a, x)]) ++ (b, y) :: post) := by simpa using h
  have hla := linkAsserts_ok h1
  obtain ⟨hcellp, hsegpre, -, hltp, hppre, hprest, hdisj⟩ := hp0
  obtain ⟨hcella, -, -, hlta, hapre, harest, -⟩ := wf_mid_inv h1
  obtain ⟨hcellb, -, hsegpost, hltb, hbpre, hbpost, hdisj2⟩ := wf_mid_inv h2
  simp only [firstPtr] at hcellp hcella
  simp only [lastPtr_append, lastPtr] at hcella hcellb
  have hpa : p ≠ a := by intro e; apply hprest; simp [addrs, e]
  have hpb : p ≠ b := by intro e; apply hprest; simp [addrs, e]
  have hab : a ≠ b := by intro e; apply harest; simp [addrs, e]
  have hapre2 : a ∉ addrs pre := fun hm => hapre (by simp [addrs] at hm ⊢; left; exact hm)
  have hbpre2 : b ∉ addrs pre := fun hm => hbpre (by simp [addrs] at hm ⊢; left; exact hm)
  have hapost : a ∉ addrs post := fun hm => harest (by simp [addrs] at hm ⊢; right; exact hm)
  have hppost : p ∉ addrs post := fun hm => hprest (by simp [addrs] at hm ⊢; right; right; exact hm)
  have hhead : s.head ≠ some a := by
    cases pre with
    | nil =>
      have : s.head = some p := h.chain.1
      rw [this]; intro e; cases e; exact hpa rfl
    | cons q pre =>
      obtain ⟨c, w⟩ := q
      have : s.head = some c := h.chain.1
      rw [this]; intro e; cases e
      exact hapre2 (by simp [addrs])
  have htail : s.tail ≠ some a := by
    rw [h.tail_eq]
    simp only [lastPtr_append, lastPtr]
    exact lastPtr_cons_ne (fun e => hab (by cases e; rfl)) hapost
  have hd := dispose_leaf
    (s := { s with
            cells := setCell (setCell s.cells a
              (some { next := none, previous := some p, content := x })) p
              (some { next := some b, previous := lastPtr none pre, content := z }) })
    (a := a) (n := { next := none, previous := some p, content := x }) hlta
    (by simp [setCell, hpa.symm]) rfl
  dsimp only at hd
  simp [removeNode, hla, hhead, htail, deref, store, hcella, hcellp, hcellb, assignNext, setCell,
    hpa, hpa.symm, hpb, hpb.symm, hab, hab.symm, hd, bind, Except.bind, pure, Except.pure]
  constructor
  · rw [seg_append]
    refine ⟨some p, seg_congr ?_ hsegpre, (seg_cons _ _ _ _ _ _ _).2 ⟨rfl, some b,
      by simp [setCell, hpb, hpa], (seg_cons _ _ _ _ _ _ _).2 ⟨rfl, firstPtr post, by simp [setCell], ?_⟩⟩⟩
    · intro c hc
      have e1 : c ≠ p := fun e => hppre (e ▸ hc)
      have e2 : c ≠ a := fun e => hapre2 (e ▸ hc)
      have e3 : c ≠ b := fun e => hbpre2 (e ▸ hc)
      simp [setCell, e1, e2, e3]
    · refine seg_congr ?_ hsegpost
      intro c hc
      have e1 : c ≠ p := fun e => hppost (e ▸ hc)
      have e2 : c ≠ a := fun e => hapost (e ▸ hc)
      have e3 : c ≠ b := fun e => hbpost (e ▸ hc)
      simp [setCell, e1, e2, e3]
  · have := h.tail_eq
    simp only [lastPtr_append, lastPtr] at this ⊢
    exact this
  · have hnd := h.nodup
    simp only [addrs, List.map_append, List.map_cons, List.nodup_append, List.nodup_cons,
      List.mem_cons, List.mem_map, not_or, List.Disjoint] at hnd ⊢
    obtain ⟨n1, ⟨⟨-, n2, n3⟩, -, n4⟩, n5⟩ := hnd
    refine ⟨n1, ⟨⟨n2, n3⟩, n4⟩, ?_⟩
    intro c hc1 hc2
    rcases hc2 with rfl | rfl | hc2
    · exact n5 hc1 (Or.inl rfl)
    · exact n5 hc1 (Or.inr (Or.inr (Or.inl rfl)))
    · exact n5 hc1 (Or.inr (Or.inr (Or.inr hc2)))
  · intro c hc
    exact h.bound c (by simp [addrs] at hc ⊢; tauto)
  · intro c hc
    have hc' : c ∉ addrs pre ∧ c ≠ p ∧ c ≠ b ∧ c ∉ addrs post := by
      simp [addrs] at hc ⊢; tauto
    by_cases hca : c = a
    · simp [setCell, hca, hab]
    · simp only [setCell, hc'.2.1, hc'.2.2.1, hca, if_false]
      exact h.exact c (by simp [addrs] at hc' ⊢; tauto)

end LinkedList
namespace LinkedList

theorem first_occurrence_split {ps : List (Nat × Int)} {v : Int} (h : v ∈ values ps) :
    ∃ pre a rest, ps = pre ++ (a, v) :: rest ∧ v ∉ values pre := by
  induction ps with
  | nil => simp [values] at h
  | cons p ps ih =>
    obtain ⟨b, w⟩ := p
    by_cases hw : w = v
    · subst hw
      exact ⟨[], b, ps, rfl, by simp [values]⟩
    · have h2 : v ∈ values ps := by
        simp only [values, List.map_cons, List.mem_cons] at h
        rcases h with h | h
        · exact absurd h.symm hw
        · exact h
      obtain ⟨pre, a, rest, e, hn⟩ := ih h2
      refine ⟨(b, w) :: pre, a, rest, by rw [e]; rfl, ?_⟩
      simp only [values, List.map_cons, List.mem_cons, not_or]
      exact ⟨fun e2 => hw e2.symm, hn⟩

theorem find_total {s : LinkedList} {ps : List (Nat × Int)} (v : Int) (h : WellFormed s ps) :
    (v ∈ values ps → ∃ a, find s v = .ok (some a) ∧ (a, v) ∈ ps) ∧
      (v ∉ values ps → find s v = .ok none) := by
  refine ⟨fun hv => ?_, fun hv => find_absent v h hv⟩
  obtain ⟨pre, a, rest, rfl, hn⟩ := first_occurrence_split hv
  exact ⟨a, find_first h hn, by simp⟩

theorem split_at_position (ps : List (Nat × Int)) (k : Nat) (hk : k < ps.length) :
    ps = ps.take k ++ ps.get ⟨k, hk⟩ :: ps.drop (k + 1) := by
  have h1 : ps.drop k = ps.get ⟨k, hk⟩ :: ps.drop (k + 1) := by
    rw [List.drop_eq_getElem_cons hk]; rfl
  calc ps = ps.take k ++ ps.drop k := (List.take_append_drop k ps).symm
    _ = _ := by rw [h1]

theorem not_mem_values_take (ps : List (Nat × Int)) (k : Nat) (v : Int)
    (h : ∀ j (hj : j < ps.length), j < k → (ps.get ⟨j, hj⟩).2 ≠ v) :
    v ∉ values (ps.take k) := by
  intro hm
  simp only [values, List.mem_map] at hm
  obtain ⟨p, hp, hpv⟩ := hm
  obtain ⟨j, hj, e⟩ := List.getElem_of_mem hp
  have hj2 : j < k ∧ j < ps.length := by
    simpa [List.length_take] using hj
  rw [List.getElem_take] at e
  exact h j hj2.2 hj2.1 (by rw [← hpv, ← e]; rfl)

end LinkedList
namespace LinkedList

theorem addAll_list_wf {s : LinkedList} {ps : List (Nat × Int)} (vs : List Int)
    (h : WellFormed s ps) :
    ∃ s2 qs, addAll s vs = .ok s2 ∧ WellFormed s2 (ps ++ qs) ∧ values qs = vs ∧
      s2.instanceCount = s.instanceCount + vs.length := by
  induction vs generalizing s ps with
  | nil => exact ⟨s, [], rfl, by simpa using h, rfl, by simp⟩
  | cons v vs ih =>
    obtain ⟨s1, e1, hwf1, -, hic1⟩ := addToEnd_wf v h
    obtain ⟨s2, qs, e2, hwf2, hv, hic2⟩ := ih hwf1
    refine ⟨s2, (s.fresh, v) :: qs, ?_, by simpa using hwf2, by simp [values] at hv ⊢; exact hv, ?_⟩
    · simp [addAll, e1, e2, bind, Except.bind]
    · rw [hic2, hic1]; simp only [List.length_cons]; push_cast; ring

theorem renderLoop_seg (s : LinkedList) (ps : List (Nat × Int)) (prev start : Option Nat)
    (fuel : Nat) (os : String) (hs : Seg s.cells prev start ps none) (hf : ps.length < fuel) :
    renderLoop fuel s start os = .ok (os ++ textOf (values ps)) := by
  induction ps generalizing prev start fuel os with
  | nil =>
    rw [seg_nil] at hs
    subst hs
    cases fuel <;> simp [renderLoop, values, textOf]
  | cons p ps ih =>
    obtain ⟨a, v⟩ := p
    obtain ⟨rfl, nx, h2, h3⟩ := hs
    cases fuel with
    | zero => simp at hf
    | succ fuel =>
      have := ih (some a) nx fuel (os ++ toString v ++ ",") h3 (by simpa using hf)
      simp only [renderLoop, deref, h2, bind, Except.bind, this, values, List.map_cons, textOf]
      simp [String.append_assoc]

theorem render_list_wf {s : LinkedList} {ps : List (Nat × Int)} (h : WellFormed s ps) :
    render s = .ok ("<" ++ textOf (values ps) ++ ">") := by
  have := renderLoop_seg s ps none s.head (s.fresh + 1) "<" h.chain
    (Nat.lt_succ_of_le (wf_length_le h))
  simp [render, this, bind, Except.bind, pure, Except.pure]

theorem removeBranch_last {s : LinkedList} {qs : List (Nat × Int)} {t : Nat} {x : Int}
    (h : WellFormed s (qs ++ [(t, x)])) :
    removeBranch s t = if qs = [] then Branch.sole else Branch.last := by
  obtain ⟨ht, -, hseg, -, hnot, -, -⟩ := wf_snoc_inv h
  by_cases hq : qs = []
  · subst hq
    rw [seg_nil] at hseg
    simp [removeBranch, ht, hseg]
  · obtain ⟨a, ha, hmem⟩ := seg_head_mem hseg hq
    have hne : s.head ≠ some t := by
      rw [ha]
      intro e
      cases e
      exact hnot hmem
    simp [removeBranch, ht, hne, hq]

theorem destructorBranches_wf {s : LinkedList} {ps : List (Nat × Int)} (h : WellFormed s ps)
    (fuel : Nat) (hf : ps.length ≤ fuel) :
    destructorBranches fuel s =
      .ok (List.replicate (ps.length - 1) Branch.last ++ if ps = [] then [] else [Branch.sole]) := by
  induction ps using List.reverseRecOn generalizing s fuel with
  | nil =>
    have ht : s.tail = none := by simpa [lastPtr] using h.tail_eq
    unfold destructorBranches
    simp [ht]
  | append_singleton qs q ih =>
    obtain ⟨t, x⟩ := q
    obtain ⟨ht, -⟩ := wf_snoc_inv h
    obtain ⟨s1, hr, hwf1, -, -, -⟩ := removeNode_last_wf h
    have hb := removeBranch_last h
    cases fuel with
    | zero => simp at hf
    | succ fuel =>
      have hl := ih hwf1 fuel (by simpa using hf)
      unfold destructorBranches
      simp only [ht, hr, hl, hb, bind, Except.bind, pure, Except.pure]
      by_cases hq : qs = []
      · subst hq; simp
      · obtain ⟨n, hn⟩ : ∃ n, qs.length = n + 1 := ⟨qs.length - 1, by
          have := List.length_pos.2 hq
          omega⟩
        simp [hq, hn, List.replicate_succ]

end LinkedList
/-! ### The Ordered Tree: insertion refines binary-search-tree insertion -/

namespace BinarySearchTree

theorem repr_nil (cells : Nat → Option Node) (p : Option Nat) : Repr cells p .nil ↔ True := Iff.rfl

theorem repr_node (cells : Nat → Option Node) (p : Option Nat) (a : Nat) (l r : Shape) (v : Int) :
    Repr cells p (.node a l v r) ↔
      cells a = some { left := l.ptr, right := r.ptr, parent := p, content := v } ∧
        Repr cells (some a) l ∧ Repr cells (some a) r := Iff.rfl

theorem ptr_nil : Shape.nil.ptr = none := rfl

theorem ptr_node (a : Nat) (l r : Shape) (v : Int) : (Shape.node a l v r).ptr = some a := rfl

theorem repr_congr {cells cells2 : Nat → Option Node} {t : Shape} {p : Option Nat}
    (h : ∀ a ∈ t.addrs, cells2 a = cells a) (hr : Repr cells p t) : Repr cells2 p t := by
  induction t generalizing p with
  | nil => trivial
  | node a l v r ihl ihr =>
    obtain ⟨h1, h2, h3⟩ := hr
    refine ⟨?_, ihl (fun b hb => h b (by simp [Shape.addrs, hb])) h2,
      ihr (fun b hb => h b (by simp [Shape.addrs, hb])) h3⟩
    rw [h a (by simp [Shape.addrs])]; exact h1

theorem drop_shared (s : BinarySearchTree) (a : Nat) (fuel : Nat) (h : 1 < s.uses a) :
    dropFuel fuel s (some a) = .ok { s with uses := setUse s.uses a (s.uses a - 1) } := by
  cases fuel <;> simp [dropFuel, h]

theorem drop_none (s : BinarySearchTree) (fuel : Nat) : dropFuel fuel s none = .ok s := by
  cases fuel <;> simp [dropFuel]

end BinarySearchTree
namespace BinarySearchTree

theorem withLocals_swap (u0 : Nat → Nat) (x y : Option Nat) :
    withLocals u0 x y = withLocals u0 y x := by
  funext a; simp [withLocals]; omega

theorem acquire_eq (s : BinarySearchTree) (p : Option Nat) :
    acquire s p = { s with uses := fun b => s.uses b + if p = some b then 1 else 0 } := by
  cases p with
  | none => simp [acquire]
  | some n =>
    simp only [acquire]
    congr 1
    funext b
    simp only [setUse, Option.some.injEq]
    rcases eq_or_ne b n with rfl | hbn
    · simp
    · simp [hbn, hbn.symm]

theorem drop_shared_eq (s : BinarySearchTree) (p : Option Nat)
    (h : ∀ o, p = some o → 1 < s.uses o) :
    drop s p = .ok { s with uses := fun b => s.uses b - if p = some b then 1 else 0 } := by
  cases p with
  | none => simp [drop, drop_none]
  | some o =>
    simp only [drop, drop_shared _ _ _ (h o rfl)]
    congr 2
    funext b
    simp only [setUse, Option.some.injEq]
    rcases eq_or_ne b o with rfl | hbo
    · simp
    · simp [hbo, hbo.symm]

theorem assignLocal_local (s : BinarySearchTree) (u0 : Nat → Nat) (old new y : Option Nat)
    (h : s.uses = withLocals u0 old y) (hold : ∀ o, old = some o → 1 ≤ u0 o ∨ y = some o) :
    assignLocal s old new = .ok { s with uses := withLocals u0 new y } := by
  obtain ⟨cells, uses, fresh, ic, root, size⟩ := s
  simp only at h
  subst h
  have h1 : ∀ o, old = some o → 1 < (acquire ⟨cells, withLocals u0 old y, fresh, ic, root, size⟩ new).uses o := by
    intro o ho
    subst ho
    rw [acquire_eq]
    simp only [withLocals, if_true]
    rcases hold o rfl with h | h
    · omega
    · simp [h]; omega
  rw [assignLocal, drop_shared_eq _ _ h1, acquire_eq]
  congr 2
  funext b
  simp only [withLocals]
  split_ifs <;> simp_all

end BinarySearchTree
namespace BinarySearchTree

theorem descend_spec (i : Int) (toAdd : Nat) (tn : Node) (sub : Shape) (s : BinarySearchTree)
    (prev pp : Option Nat) (u0 : Nat → Nat) (fuel : Nat)
    (hrepr : Repr s.cells pp sub) (hadd : s.cells toAdd = some tn) (hi : tn.content = i)
    (huses : s.uses = withLocals u0 sub.ptr prev)
    (hu0 : ∀ a ∈ sub.addrs, 1 ≤ u0 a) (hprev : ∀ p, prev = some p → 1 ≤ u0 p)
    (hf : sub.size < fuel) :
    descend fuel s toAdd sub.ptr prev =
      .ok ({ s with uses := withLocals u0 (sub.locate i prev).1 (sub.locate i prev).2 },
           (sub.locate i prev).1, (sub.locate i prev).2) := by
  induction sub generalizing s prev pp fuel with
  | nil =>
    simp only [ptr_nil, ptr_node] at huses
    simp only [ptr_nil, Shape.locate, ← huses]
    cases fuel <;> rfl
  | node a l v r ihl ihr =>
    obtain ⟨hc, hl, hr⟩ := hrepr
    cases fuel with
    | zero => simp at hf
    | succ fuel =>
      simp only [Shape.size] at hf
      simp only [ptr_nil, ptr_node] at huses
      have ha : 1 ≤ u0 a := hu0 a (by simp [Shape.addrs])
      -- previous = current
      have e1 : assignLocal s prev (some a) = .ok { s with uses := withLocals u0 (some a) (some a) } := by
        have := assignLocal_local s u0 prev (some a) (some a)
          (by rw [huses, withLocals_swap]) (fun o ho => Or.inl (hprev o ho))
        rw [this, withLocals_swap]
      -- current = child
      have e2 : ∀ child, assignLocal { s with uses := withLocals u0 (some a) (some a) } (some a) child =
          .ok { s with uses := withLocals u0 child (some a) } := by
        intro child
        exact assignLocal_local _ u0 (some a) child (some a) rfl (fun o _ => Or.inl (by simp_all))
      simp only [ptr_node, Shape.locate, descend, deref, hadd, hc, hi, bind, Except.bind, e1, e2]
      by_cases h1 : i < v
      · simp only [h1, if_true]
        have := ihl { s with uses := withLocals u0 l.ptr (some a) } (some a) (some a) fuel hl hadd rfl
          (fun b hb => hu0 b (by simp [Shape.addrs, hb])) (by simp [ha]) (by omega)
        exact this
      · by_cases h2 : v < i
        · have h2' : i > v := h2
          simp only [h1, h2, h2', if_true, if_false]
          have := ihr { s with uses := withLocals u0 r.ptr (some a) } (some a) (some a) fuel hr hadd rfl
            (fun b hb => hu0 b (by simp [Shape.addrs, hb])) (by simp [ha]) (by omega)
          exact this
        · have h2' : ¬ i > v := h2
          simp only [h1, h2, h2', if_false, pure, Except.pure, ← huses]

end BinarySearchTree
namespace BinarySearchTree

theorem insert_ptr (f : Nat) (i : Int) {t : Shape} (h : t ≠ .nil) :
    (t.insert f i).ptr = t.ptr := by
  cases t with
  | nil => exact absurd rfl h
  | node a l v r =>
    simp only [Shape.insert]
    split_ifs <;> rfl

theorem locate_found (f : Nat) (i : Int) (t : Shape) (prev : Option Nat) (c : Nat)
    (h : (t.locate i prev).1 = some c) : t.insert f i = t := by
  induction t generalizing prev with
  | nil => simp [Shape.locate] at h
  | node a l v r ihl ihr =>
    simp only [Shape.locate] at h
    simp only [Shape.insert]
    by_cases h1 : i < v
    · simp only [h1, if_true] at h ⊢
      rw [ihl _ h]
    · by_cases h2 : v < i
      · simp only [h1, h2, if_true, if_false] at h ⊢
        rw [ihr _ h]
      · simp only [h1, h2, if_false]

theorem locate_found_mem (i : Int) (t : Shape) (prev : Option Nat) (c : Nat)
    (h : (t.locate i prev).1 = some c) :
    c ∈ t.addrs ∧ ∀ p, (t.locate i prev).2 = some p → p ∈ t.addrs ∨ prev = some p := by
  induction t generalizing prev with
  | nil => simp [Shape.locate] at h
  | node a l v r ihl ihr =>
    simp only [Shape.locate] at h ⊢
    by_cases h1 : i < v
    · simp only [h1, if_true] at h ⊢
      obtain ⟨hc, hp⟩ := ihl _ h
      refine ⟨by simp [Shape.addrs, hc], fun p hpp => ?_⟩
      rcases hp p hpp with hm | hm
      · left; simp [Shape.addrs, hm]
      · left; cases hm; simp [Shape.addrs]
    · by_cases h2 : v < i
      · simp only [h1, h2, if_true, if_false] at h ⊢
        obtain ⟨hc, hp⟩ := ihr _ h
        refine ⟨by simp [Shape.addrs, hc], fun p hpp => ?_⟩
        rcases hp p hpp with hm | hm
        · left; simp [Shape.addrs, hm]
        · left; cases hm; simp [Shape.addrs]
      · simp only [h1, h2, if_false] at h ⊢
        cases h
        exact ⟨by simp [Shape.addrs], fun p hpp => Or.inr hpp⟩

theorem locate_attach (f : Nat) (i : Int) (cells : Nat → Option Node) (t : Shape)
    (prev pp : Option Nat) (hne : t ≠ .nil) (hrepr : Repr cells pp t) (hnd : t.addrs.Nodup)
    (hf : f ∉ t.addrs) (hloc : (t.locate i prev).1 = none) :
    ∃ p pn, (t.locate i prev).2 = some p ∧ p ∈ t.addrs ∧ cells p = some pn ∧
      (i < pn.content ∨ pn.content < i) ∧
      (i < pn.content → pn.left = none) ∧ (¬ i < pn.content → pn.right = none) ∧
      ∀ cells2 : Nat → Option Node, cells2 p = some (attach i f pn) →
        cells2 f = some { left := none, right := none, parent := some p, content := i } →
        (∀ b, b ≠ p → b ≠ f → cells2 b = cells b) → Repr cells2 pp (t.insert f i) := by
  induction t generalizing prev pp with
  | nil => exact absurd rfl hne
  | node a l v r ihl ihr =>
    obtain ⟨hc, hl, hr⟩ := hrepr
    simp only [Shape.addrs, List.nodup_append, List.nodup_cons, List.mem_append, List.mem_cons,
      not_or] at hnd hf
    obtain ⟨hndl, ⟨hanr, hndr⟩, hdisj⟩ := hnd
    have hal : a ∉ l.addrs := fun hm => hdisj hm (by simp)
    have hlr : ∀ b ∈ l.addrs, b ∉ r.addrs := fun b hb hb2 => hdisj hb (by simp [hb2])
    simp only [Shape.locate] at hloc ⊢
    simp only [Shape.insert]
    by_cases h1 : i < v
    · simp only [h1, if_true] at hloc ⊢
      have hrframe : ∀ cells2 : Nat → Option Node, ∀ p, (p = a ∨ p ∈ l.addrs) →
          (∀ b, b ≠ p → b ≠ f → cells2 b = cells b) → Repr cells2 (some a) r := by
        intro cells2 p hp hfr
        refine repr_congr (fun b hb => hfr b ?_ ?_) hr
        · rintro rfl
          rcases hp with rfl | hp
          · exact hanr hb
          · exact hlr _ hp hb
        · rintro rfl; exact hf.2.2 hb
      cases l with
      | nil =>
        refine ⟨a, _, rfl, by simp [Shape.addrs], hc, Or.inl h1, fun _ => rfl, fun h => absurd h1 h, ?_⟩
        intro cells2 h2 h3 h4
        refine ⟨?_, ⟨h3, trivial, trivial⟩, hrframe cells2 a (Or.inl rfl) h4⟩
        rw [h2]; simp [attach, h1, Shape.ptr, Shape.insert]
      | node b l2 w r2 =>
        obtain ⟨p, pn, e1, e2, e3, e4, e5, e6, e7⟩ :=
          ihl (some a) (some a) (by simp) hl hndl hf.1 hloc
        refine ⟨p, pn, e1, by simp [Shape.addrs] at e2 ⊢; tauto, e3, e4, e5, e6, ?_⟩
        intro cells2 h2 h3 h4
        have hpa : a ≠ p := fun e => hal (e ▸ e2)
        refine ⟨?_, e7 cells2 h2 h3 h4, hrframe cells2 p (Or.inr e2) h4⟩
        rw [h4 a hpa (fun e => hf.2.1 e.symm), hc, insert_ptr f i (by simp)]
    · by_cases h2 : v < i
      · simp only [h1, h2, if_true, if_false] at hloc ⊢
        have hlframe : ∀ cells2 : Nat → Option Node, ∀ p, (p = a ∨ p ∈ r.addrs) →
            (∀ b, b ≠ p → b ≠ f → cells2 b = cells b) → Repr cells2 (some a) l := by
          intro cells2 p hp hfr
          refine repr_congr (fun b hb => hfr b ?_ ?_) hl
          · rintro rfl
            rcases hp with rfl | hp
            · exact hal hb
            · exact hlr _ hb hp
          · rintro rfl; exact hf.1 hb
        cases r with
        | nil =>
          refine ⟨a, _, rfl, by simp [Shape.addrs], hc, Or.inr h2, fun h => absurd h h1, fun _ => rfl, ?_⟩
          intro cells2 h2 h3 h4
          refine ⟨?_, hlframe cells2 a (Or.inl rfl) h4, ⟨h3, trivial, trivial⟩⟩
          rw [h2]; simp [attach, h1, Shape.ptr, Shape.insert]
        | node b l2 w r2 =>
          obtain ⟨p, pn, e1, e2, e3, e4, e5, e6, e7⟩ :=
            ihr (some a) (some a) (by simp) hr hndr hf.2.2 hloc
          refine ⟨p, pn, e1, by simp [Shape.addrs] at e2 ⊢; tauto, e3, e4, e5, e6, ?_⟩
          intro cells2 h2 h3 h4
          have hpa : a ≠ p := fun e => hanr (e ▸ e2)
          refine ⟨?_, hlframe cells2 p (Or.inr e2) h4, e7 cells2 h2 h3 h4⟩
          rw [h4 a hpa (fun e => hf.2.1 e.symm), hc, insert_ptr f i (by simp)]
      · simp [h1, h2] at hloc

end BinarySearchTree
namespace BinarySearchTree

theorem size_eq_length (t : Shape) : t.size = t.addrs.length := by
  induction t with
  | nil => rfl
  | node a l v r ihl ihr => simp [Shape.size, Shape.addrs, ihl, ihr]; omega

theorem tree_size_le {s : BinarySearchTree} {t : Shape} (h : WellFormed s t) : t.size ≤ s.fresh := by
  rw [size_eq_length]
  exact LinkedList.nodup_bounded_length h.nodup h.bound

theorem incU32_lt {n : Nat} (h : n + 1 < 2 ^ 32) : incU32 n = n + 1 := by
  simp only [incU32]
  exact Nat.mod_eq_of_lt h

theorem insert_size_nil (f : Nat) (i : Int) : (Shape.nil.insert f i).size = 1 := rfl

theorem addToEnd_nil {s : BinarySearchTree} (i : Int) (h : WellFormed s .nil) :
    ∃ s2, addToEnd s i = .ok s2 ∧ WellFormed s2 (Shape.nil.insert s.fresh i) ∧
      s2.fresh = s.fresh + 1 ∧ s2.instanceCount = s.instanceCount + 1 := by
  have hroot : s.root = none := h.root_eq
  have hsize : s.size = 0 := h.size_eq
  have h1 : ∀ fuel (st : BinarySearchTree), 1 < st.uses s.fresh → dropFuel fuel st (some s.fresh) =
      .ok { st with uses := setUse st.uses s.fresh (st.uses s.fresh - 1) } :=
    fun fuel st hst => drop_shared st _ fuel hst
  simp [addToEnd, appendToEnd, hroot, acquire, assignLocal, drop, drop_none, setUse, bind,
    Except.bind, pure, Except.pure, h1, hsize]
  constructor
  · simp [Shape.insert, repr_node, repr_nil, setCell, Shape.ptr]
  · simp [Shape.insert, Shape.ptr]
  · simp [Shape.insert, Shape.addrs]
  · simp [Shape.insert, Shape.addrs]
  · simp [Shape.insert, Shape.addrs, setUse]
  · simp [Shape.insert, Shape.size, incU32]
  · intro a ha
    simp [Shape.insert, Shape.addrs] at ha
    simp [setCell, ha]
    exact h.exact a (by simp [Shape.addrs])

end BinarySearchTree
namespace BinarySearchTree

theorem drop_local_snd (s : BinarySearchTree) (u0 : Nat → Nat) (x y : Option Nat)
    (h : s.uses = withLocals u0 x y) (hy : ∀ o, y = some o → 1 ≤ u0 o ∨ x = some o) :
    drop s y = .ok { s with uses := withLocals u0 x none } := by
  have := assignLocal_local s u0 y none x (by rw [h, withLocals_swap]) hy
  rw [withLocals_swap] at this
  rw [← this]
  simp [assignLocal, acquire]

theorem drop_local_fst (s : BinarySearchTree) (u0 : Nat → Nat) (x y : Option Nat)
    (h : s.uses = withLocals u0 x y) (hx : ∀ o, x = some o → 1 ≤ u0 o ∨ y = some o) :
    drop s x = .ok { s with uses := withLocals u0 none y } := by
  have := assignLocal_local s u0 x none y h hx
  rw [← this]
  simp [assignLocal, acquire]

theorem withLocals_none (u0 : Nat → Nat) : withLocals u0 none none = u0 := by
  funext b; simp [withLocals]

theorem drop_last_leaf (s : BinarySearchTree) (a : Nat) (n : Node) (hu : s.uses a ≤ 1)
    (hc : s.cells a = some n) (hl : n.left = none) (hr : n.right = none) (hf : 0 < s.fresh) :
    drop s (some a) = .ok { s with
      uses := setUse s.uses a 0, cells := setCell s.cells a none,
      instanceCount := s.instanceCount - 1 } := by
  obtain ⟨k, hk⟩ : ∃ k, s.fresh = k + 1 := ⟨s.fresh - 1, by omega⟩
  have hu2 : ¬ 1 < s.uses a := by omega
  simp [drop, hk, dropFuel, hu2, hc, hl, hr, drop_none]

end BinarySearchTree
namespace BinarySearchTree

theorem addToEnd_found {s : BinarySearchTree} {t : Shape} (i : Int) (h : WellFormed s t)
    (c : Nat) (hloc : (t.locate i none).1 = some c) :
    ∃ s2, addToEnd s i = .ok s2 ∧ WellFormed s2 t ∧
      s2.fresh = s.fresh + 1 ∧ s2.instanceCount = s.instanceCount := by
  have hf : s.fresh ∉ t.addrs := fun hm => Nat.lt_irrefl _ (h.bound _ hm)
  have hsz := tree_size_le h
  have hne : t ≠ .nil := by rintro rfl; simp [Shape.locate] at hloc
  obtain ⟨hcm, hpm⟩ := locate_found_mem i t none c hloc
  obtain ⟨hrepr, hr, hnd, hbd, huses, hsize, hex⟩ := h
  obtain ⟨cells, uses, fresh, ic, root, size⟩ := s
  simp only at hr hf hsz hrepr huses hsize hex hbd
  subst hr
  have hroot : t.ptr.isNone = false := by
    cases t with
    | nil => exact absurd rfl hne
    | node a l v r => rfl
  have hd := descend_spec i fresh { left := none, right := none, parent := none, content := i } t
    { cells := setCell cells fresh (some { left := none, right := none, parent := none, content := i }),
      uses := withLocals (setUse uses fresh 1) t.ptr none,
      fresh := fresh + 1,
      instanceCount := ic + 1, root := t.ptr, size := size } none none (setUse uses fresh 1)
      (fresh + 1 + 1)
    (repr_congr (fun a ha => by
      have : a ≠ fresh := fun e => hf (e ▸ ha)
      simp [setCell, this]) hrepr)
    (by simp [setCell]) rfl rfl
    (fun a ha => by
      have : a ≠ fresh := fun e => hf (e ▸ ha)
      simp [setUse, this, huses a ha])
    (by simp) (by omega)
  have hacq : acquire
      { cells := setCell cells fresh (some { left := none, right := none, parent := none, content := i }),
        uses := setUse uses fresh 1,
        fresh := fresh + 1,
        instanceCount := ic + 1, root := t.ptr, size := size } t.ptr =
      { cells := setCell cells fresh (some { left := none, right := none, parent := none, content := i }),
        uses := withLocals (setUse uses fresh 1) t.ptr none,
        fresh := fresh + 1,
        instanceCount := ic + 1, root := t.ptr, size := size } := by
    rw [acquire_eq]
    congr 1
  simp only [addToEnd, appendToEnd, hacq, hroot, Bool.false_eq_true, if_false, bind, Except.bind, hd,
    hloc, Option.isNone_some, false_and, pure, Except.pure]
  have hu0 : ∀ a ∈ t.addrs, 1 ≤ setUse uses fresh 1 a := by
    intro a ha
    have : a ≠ fresh := fun e => hf (e ▸ ha)
    simp [setUse, this, huses a ha]
  have hd1 := drop_local_snd
    { cells := setCell cells fresh (some { left := none, right := none, parent := none, content := i }),
      uses := withLocals (setUse uses fresh 1) (some c) (t.locate i none).2,
      fresh := fresh + 1, instanceCount := ic + 1, root := t.ptr, size := size }
    (setUse uses fresh 1) (some c) (t.locate i none).2 rfl
    (fun o ho => by
      rcases hpm o ho with hm | hm
      · exact Or.inl (hu0 o hm)
      · cases hm)
  have hd2 := drop_local_fst
    { cells := setCell cells fresh (some { left := none, right := none, parent := none, content := i }),
      uses := withLocals (setUse uses fresh 1) (some c) none,
      fresh := fresh + 1, instanceCount := ic + 1, root := t.ptr, size := size }
    (setUse uses fresh 1) (some c) none rfl
    (fun o ho => by cases ho; exact Or.inl (hu0 _ hcm))
  have hd3 := drop_last_leaf
    { cells := setCell cells fresh (some { left := none, right := none, parent := none, content := i }),
      uses := setUse uses fresh 1,
      fresh := fresh + 1, instanceCount := ic + 1, root := t.ptr, size := size }
    fresh { left := none, right := none, parent := none, content := i }
    (by simp [setUse]) (by simp [setCell]) rfl rfl (by simp)
  simp only [withLocals_none] at hd2
  simp only [hd1, hd2, hd3]
  refine ⟨_, rfl, ?_, rfl, by simp⟩
  constructor
  · exact repr_congr (fun a ha => by
      have : a ≠ fresh := fun e => hf (e ▸ ha)
      simp [setCell, this]) hrepr
  · rfl
  · exact hnd
  · intro a ha; have := hbd a ha; simp; omega
  · intro a ha
    have : a ≠ fresh := fun e => hf (e ▸ ha)
    simp [setUse, this, huses a ha]
  · exact hsize
  · intro a ha
    by_cases e : a = fresh
    · simp [setCell, e]
    · simp [setCell, e, hex a ha]

end BinarySearchTree
namespace BinarySearchTree

theorem insert_addrs_perm (f : Nat) (i : Int) (t : Shape) (prev : Option Nat)
    (hloc : (t.locate i prev).1 = none) : List.Perm (t.insert f i).addrs (f :: t.addrs) := by
  induction t generalizing prev with
  | nil => simp [Shape.insert, Shape.addrs]
  | node a l v r ihl ihr =>
    simp only [Shape.locate] at hloc
    simp only [Shape.insert]
    by_cases h1 : i < v
    · simp only [h1, if_true] at hloc ⊢
      simp only [Shape.addrs]
      have := ihl _ hloc
      exact (List.Perm.append_right _ this).trans (by simp)
    · by_cases h2 : v < i
      · simp only [h1, h2, if_true, if_false] at hloc ⊢
        simp only [Shape.addrs]
        have := ihr _ hloc
        have h3 : List.Perm (a :: (r.insert f i).addrs) (f :: a :: r.addrs) :=
          (List.Perm.cons a this).trans (List.Perm.swap f a _)
        exact (List.Perm.append_left _ h3).trans (by
          rw [← List.singleton_append (l := l.addrs ++ a :: r.addrs)]
          rw [← List.singleton_append (l := a :: r.addrs)]
          rw [← List.append_assoc, ← List.append_assoc]
          exact List.Perm.append_right _ List.perm_append_comm)
      · simp [h1, h2] at hloc

theorem addToEnd_attach {s : BinarySearchTree} {t : Shape} (i : Int) (h : WellFormed s t)
    (hne : t ≠ .nil) (hlim : t.size + 1 < 2 ^ 32) (hloc : (t.locate i none).1 = none) :
    ∃ s2, addToEnd s i = .ok s2 ∧ WellFormed s2 (t.insert s.fresh i) ∧
      s2.fresh = s.fresh + 1 ∧ s2.instanceCount = s.instanceCount + 1 := by
  have hf : s.fresh ∉ t.addrs := fun hm => Nat.lt_irrefl _ (h.bound _ hm)
  have hsz := tree_size_le h
  have hperm := insert_addrs_perm s.fresh i t none hloc
  obtain ⟨hrepr, hr, hnd, hbd, huses, hsize, hex⟩ := h
  obtain ⟨cells, uses, fresh, ic, root, size⟩ := s
  simp only at hr hf hsz hrepr huses hsize hex hbd hperm ⊢
  subst hr
  have hroot : t.ptr.isNone = false := by
    cases t with
    | nil => exact absurd rfl hne
    | node a l v r => rfl
  have hrepr1 : Repr (setCell cells fresh
      (some { left := none, right := none, parent := none, content := i })) none t :=
    repr_congr (fun a ha => by
      have : a ≠ fresh := fun e => hf (e ▸ ha)
      simp [setCell, this]) hrepr
  have hd := descend_spec i fresh { left := none, right := none, parent := none, content := i } t
    { cells := setCell cells fresh (some { left := none, right := none, parent := none, content := i }),
      uses := withLocals (setUse uses fresh 1) t.ptr none,
      fresh := fresh + 1,
      instanceCount := ic + 1, root := t.ptr, size := size } none none (setUse uses fresh 1)
      (fresh + 1 + 1) hrepr1
    (by simp [setCell]) rfl rfl
    (fun a ha => by
      have : a ≠ fresh := fun e => hf (e ▸ ha)
      simp [setUse, this, huses a ha])
    (by simp) (by omega)
  have hacq : acquire
      { cells := setCell cells fresh (some { left := none, right := none, parent := none, content := i }),
        uses := setUse uses fresh 1,
        fresh := fresh + 1,
        instanceCount := ic + 1, root := t.ptr, size := size } t.ptr =
      { cells := setCell cells fresh (some { left := none, right := none, parent := none, content := i }),
        uses := withLocals (setUse uses fresh 1) t.ptr none,
        fresh := fresh + 1,
        instanceCount := ic + 1, root := t.ptr, size := size } := by
    rw [acquire_eq]
    congr 1
  obtain ⟨p, pn, hp2, hpm, hpc, hcmp, hleft, hright, hfin⟩ :=
    locate_attach fresh i _ t none none hne hrepr1 hnd hf hloc
  have hpf : p ≠ fresh := fun e => hf (e ▸ hpm)
  have hup : uses p = 1 := huses p hpm
  have hds : ∀ (st : BinarySearchTree) (a : Nat), 1 < st.uses a → drop st (some a) =
      .ok { st with uses := setUse st.uses a (st.uses a - 1) } :=
    fun st a hst => drop_shared st a _ hst
  simp only [addToEnd, appendToEnd, hacq, hroot, Bool.false_eq_true, if_false, bind, Except.bind, hd,
    hloc, hp2, Option.isNone_none, Option.isSome_some, and_self, if_true, pure, Except.pure, deref,
    setCell, hpf, hpc]
  simp only [setCell, hpf, if_false] at hpc
  simp only [hpc, if_true]
  have hdn : ∀ st : BinarySearchTree, drop st none = .ok st := fun st => drop_none st _
  have hgoal : ∀ (cells2 : Nat → Option Node) (uses2 : Nat → Nat),
      cells2 p = some (attach i fresh pn) →
      cells2 fresh = some { left := none, right := none, parent := some p, content := i } →
      (∀ b, b ≠ p → b ≠ fresh → cells2 b = cells b) →
      (∀ b, b ∈ t.addrs ∨ b = fresh → uses2 b = 1) →
      WellFormed { cells := cells2, uses := uses2, fresh := fresh + 1, instanceCount := ic + 1,
                   root := t.ptr, size := incU32 size } (t.insert fresh i) := by
    intro cells2 uses2 h1 h2 h3 h4
    have hmem : ∀ b, b ∈ (t.insert fresh i).addrs ↔ b = fresh ∨ b ∈ t.addrs := by
      intro b; rw [hperm.mem_iff]; simp
    constructor
    · refine hfin cells2 h1 h2 (fun b hb1 hb2 => ?_)
      rw [h3 b hb1 hb2]; simp [setCell, hb2]
    · exact (insert_ptr fresh i hne).symm
    · rw [hperm.nodup_iff]; exact List.nodup_cons.2 ⟨hf, hnd⟩
    · intro b hb
      rcases (hmem b).1 hb with rfl | hb
      · simp
      · have := hbd b hb; simp; omega
    · intro b hb
      exact h4 b (((hmem b).1 hb).symm)
    · simp only
      rw [incU32_lt (by omega), hsize, size_eq_length, size_eq_length, hperm.length_eq]
      simp
    · intro b hb
      rw [hmem] at hb
      simp only [not_or] at hb
      show cells2 b = none
      rw [h3 b (fun e => hb.2 (e ▸ hpm)) hb.1]
      exact hex b hb.2
  rcases hcmp with hlt | hgt
  · have hl := hleft hlt
    simp [hlt, hl, store, acquire, setCell, hpf, hpf.symm, hpc, hdn, hds, withLocals, setUse, hup]
    refine hgoal _ _ ?_ ?_ ?_ ?_
    · simp [setCell, hpf, attach, hlt]
    · simp [setCell]
    · intro b hb1 hb2; simp [setCell, hb1, hb2]
    · intro b hb
      rcases hb with hb | rfl
      · have hbf : b ≠ fresh := fun e => hf (e ▸ hb)
        by_cases hbp : b = p
        · subst hbp; simp [setUse, hbf, hup]
        · have hpb : p ≠ b := fun e => hbp e.symm
          simp [setUse, withLocals, hbf, hbp, hpb, huses b hb]
      · simp [setUse, hpf.symm]
  · have hnlt : ¬ i < pn.content := not_lt.2 (le_of_lt hgt)
    have hr := hright hnlt
    have hgt2 : i > pn.content := hgt
    simp [hnlt, hgt, hr, store, acquire, setCell, hpf, hpf.symm, hpc, hdn, hds, withLocals,
      setUse, hup]
    refine hgoal _ _ ?_ ?_ ?_ ?_
    · simp [setCell, hpf, attach, hnlt]
    · simp [setCell]
    · intro b hb1 hb2; simp [setCell, hb1, hb2]
    · intro b hb
      rcases hb with hb | rfl
      · have hbf : b ≠ fresh := fun e => hf (e ▸ hb)
        by_cases hbp : b = p
        · subst hbp; simp [setUse, hbf, hup]
        · have hpb : p ≠ b := fun e => hbp e.symm
          simp [setUse, withLocals, hbf, hbp, hpb, huses b hb]
      · simp [setUse, hpf.symm]

end BinarySearchTree
namespace BinarySearchTree

theorem insert_size_found (f : Nat) (i : Int) (t : Shape) (c : Nat)
    (h : (t.locate i none).1 = some c) : (t.insert f i).size = t.size := by
  rw [locate_found f i t none c h]

theorem insert_size_attach (f : Nat) (i : Int) (t : Shape)
    (h : (t.locate i none).1 = none) : (t.insert f i).size = t.size + 1 := by
  rw [size_eq_length, size_eq_length, (insert_addrs_perm f i t none h).length_eq]
  simp

theorem insert_size_le (f : Nat) (i : Int) (t : Shape) : (t.insert f i).size ≤ t.size + 1 := by
  cases h : (t.locate i none).1 with
  | none => rw [insert_size_attach f i t h]
  | some c => rw [insert_size_found f i t c h]; omega

theorem addToEnd_tree_wf {s : BinarySearchTree} {t : Shape} (i : Int) (h : WellFormed s t)
    (hlim : t.size + 1 < 2 ^ 32) :
    ∃ s2, addToEnd s i = .ok s2 ∧ WellFormed s2 (t.insert s.fresh i) ∧
      s2.fresh = s.fresh + 1 ∧
      s2.instanceCount + t.size = s.instanceCount + (t.insert s.fresh i).size := by
  by_cases hne : t = .nil
  · subst hne
    obtain ⟨s2, h1, h2, h3, h4⟩ := addToEnd_nil i h
    exact ⟨s2, h1, h2, h3, by rw [h4]; simp [Shape.insert, Shape.size]⟩
  · cases hloc : (t.locate i none).1 with
    | none =>
      obtain ⟨s2, h1, h2, h3, h4⟩ := addToEnd_attach i h hne hlim hloc
      refine ⟨s2, h1, h2, h3, ?_⟩
      rw [h4, insert_size_attach _ i t hloc]; push_cast; ring
    | some c =>
      obtain ⟨s2, h1, h2, h3, h4⟩ := addToEnd_found i h c hloc
      refine ⟨s2, h1, ?_, h3, ?_⟩
      · rw [locate_found _ i t none c hloc]; exact h2
      · rw [h4, insert_size_found _ i t c hloc]

theorem build_size_le (t : Shape) (f : Nat) (vs : List Int) :
    (Shape.build t f vs).size ≤ t.size + vs.length := by
  induction vs generalizing t f with
  | nil => simp [Shape.build]
  | cons v vs ih =>
    simp only [Shape.build, List.length_cons]
    have := ih (t.insert f v) (f + 1)
    have := insert_size_le f v t
    omega

theorem addAll_tree_wf {s : BinarySearchTree} {t : Shape} (vs : List Int) (h : WellFormed s t)
    (hlim : t.size + vs.length < 2 ^ 32) :
    ∃ s2, addAll s vs = .ok s2 ∧ WellFormed s2 (Shape.build t s.fresh vs) ∧
      s2.fresh = s.fresh + vs.length ∧
      s2.instanceCount + t.size = s.instanceCount + (Shape.build t s.fresh vs).size := by
  induction vs generalizing s t with
  | nil => exact ⟨s, rfl, h, rfl, rfl⟩
  | cons v vs ih =>
    simp only [List.length_cons] at hlim
    obtain ⟨s1, h1, hwf1, hf1, hic1⟩ := addToEnd_tree_wf v h (by omega)
    have hsz := insert_size_le s.fresh v t
    obtain ⟨s2, h2, hwf2, hf2, hic2⟩ := ih hwf1 (by omega)
    refine ⟨s2, ?_, ?_, ?_, ?_⟩
    · simp [addAll, h1, h2, bind, Except.bind]
    · rw [hf1] at hwf2; exact hwf2
    · rw [hf2, hf1]; simp; omega
    · rw [hf1] at hic2
      simp only [Shape.build]
      linarith

theorem tree_wf_empty : WellFormed empty .nil := by
  constructor <;> simp [empty, Repr, Shape.ptr, Shape.addrs, Shape.size]

theorem mem_inorder_insert (f : Nat) (i x : Int) (t : Shape) :
    x ∈ (t.insert f i).inorder ↔ x = i ∨ x ∈ t.inorder := by
  induction t with
  | nil => simp [Shape.insert, Shape.inorder]
  | node a l v r ihl ihr =>
    simp only [Shape.insert]
    by_cases h1 : i < v
    · simp only [h1, if_true, Shape.inorder, List.mem_append, List.mem_cons, ihl]; tauto
    · by_cases h2 : v < i
      · simp only [h1, h2, if_true, if_false, Shape.inorder, List.mem_append, List.mem_cons, ihr]
        tauto
      · have : i = v := le_antisymm (not_lt.1 h2) (not_lt.1 h1)
        subst this
        simp only [h1, if_false, Shape.inorder, List.mem_append, List.mem_cons]; tauto

theorem ordered_insert (f : Nat) (i : Int) (t : Shape) (h : t.Ordered) : (t.insert f i).Ordered := by
  induction t with
  | nil => simp [Shape.insert, Shape.Ordered, Shape.inorder]
  | node a l v r ihl ihr =>
    obtain ⟨h1, h2, h3, h4⟩ := h
    simp only [Shape.insert]
    by_cases c1 : i < v
    · simp only [c1, if_true]
      refine ⟨?_, h2, ihl h3, h4⟩
      intro x hx
      rcases (mem_inorder_insert f i x l).1 hx with rfl | hx
      · exact c1
      · exact h1 x hx
    · by_cases c2 : v < i
      · simp only [c1, c2, if_true, if_false]
        refine ⟨h1, ?_, h3, ihr h4⟩
        intro x hx
        rcases (mem_inorder_insert f i x r).1 hx with rfl | hx
        · exact c2
        · exact h2 x hx
      · simp only [c1, c2, if_false]
        exact ⟨h1, h2, h3, h4⟩

theorem inorder_sorted (t : Shape) (h : t.Ordered) : t.inorder.Sorted (· < ·) := by
  induction t with
  | nil => simp [Shape.inorder]
  | node a l v r ihl ihr =>
    obtain ⟨h1, h2, h3, h4⟩ := h
    simp only [Shape.inorder, List.Sorted, List.pairwise_append, List.pairwise_cons]
    refine ⟨ihl h3, ⟨h2, ihr h4⟩, ?_⟩
    intro x hx y hy
    rcases List.mem_cons.1 hy with rfl | hy
    · exact h1 x hx
    · exact lt_trans (h1 x hx) (h2 y hy)

theorem build_ordered (t : Shape) (f : Nat) (vs : List Int) (h : t.Ordered) :
    (Shape.build t f vs).Ordered := by
  induction vs generalizing t f with
  | nil => exact h
  | cons v vs ih => exact ih _ _ (ordered_insert f v t h)

theorem mem_inorder_build (t : Shape) (f : Nat) (vs : List Int) (x : Int) :
    x ∈ (Shape.build t f vs).inorder ↔ x ∈ t.inorder ∨ x ∈ vs := by
  induction vs generalizing t f with
  | nil => simp [Shape.build]
  | cons v vs ih =>
    simp only [Shape.build, ih, mem_inorder_insert, List.mem_cons]; tauto

theorem inorder_build_eq_sort (f : Nat) (vs : List Int) :
    (Shape.build .nil f vs).inorder = vs.toFinset.sort (· ≤ ·) := by
  have hs := inorder_sorted _ (build_ordered .nil f vs trivial)
  refine List.eq_of_perm_of_sorted ?_ (hs.imp le_of_lt) (Finset.sort_sorted _ _)
  rw [List.perm_ext_iff_of_nodup hs.nodup (Finset.sort_nodup _ _)]
  intro x
  rw [mem_inorder_build, Finset.mem_sort, List.mem_toFinset]
  simp [Shape.inorder]

end BinarySearchTree
/-! ### The Ordered Tree: the in-order walk of `operator<<` -/

namespace BinarySearchTree

theorem textOf_append (xs ys : List Int) : textOf (xs ++ ys) = textOf xs ++ textOf ys := by
  induction xs with
  | nil => simp [textOf]
  | cons x xs ih => simp [textOf, ih, String.append_assoc]

theorem renderLoop_done (s : BinarySearchTree) (fuel : Nat) (w : Walk) (h : w.processed = s.size) :
    renderLoop fuel s w = .ok w.os := by
  unfold renderLoop; simp [h]

theorem renderLoop_step (s : BinarySearchTree) (fuel : Nat) (w w1 : Walk)
    (h : w.processed ≠ s.size) (hs : renderStep s w = .ok w1) :
    renderLoop (fuel + 1) s w = renderLoop fuel s w1 := by
  rw [renderLoop]; simp [h, hs]

theorem climb_child (s : BinarySearchTree) (w : Walk) (a p : Nat) (n pn : Node)
    (hcur : w.current = some a) (hc : s.cells a = some n) (hp : n.parent = some p)
    (hpc : s.cells p = some pn) :
    climb s w = .ok { w with comingFromLeft := decide (pn.left = some a), current := some p } := by
  simp [climb, deref, hcur, hc, hp, lock, hpc, bind, Except.bind, pure, Except.pure]

theorem climb_root (s : BinarySearchTree) (w : Walk) (a : Nat) (n : Node)
    (hcur : w.current = some a) (hc : s.cells a = some n) (hp : n.parent = none) :
    climb s w = .ok w := by
  simp [climb, deref, hcur, hc, hp, lock, bind, Except.bind, pure, Except.pure]

theorem climb_ok (s : BinarySearchTree) (w : Walk) (a : Nat) (n : Node)
    (hcur : w.current = some a) (hc : s.cells a = some n) :
    ∃ w1, climb s w = .ok w1 ∧ w1.processed = w.processed ∧ w1.os = w.os := by
  cases hp : n.parent with
  | none => exact ⟨w, climb_root s w a n hcur hc hp, rfl, rfl⟩
  | some p =>
    cases hpc : s.cells p with
    | none =>
      refine ⟨w, ?_, rfl, rfl⟩
      simp [climb, deref, hcur, hc, hp, lock, hpc, bind, Except.bind, pure, Except.pure]
    | some pn => exact ⟨_, climb_child s w a p n pn hcur hc hp hpc, rfl, rfl⟩

theorem afterClimb_done (s : BinarySearchTree) (fuel : Nat) (w : Walk) (a : Nat) (n : Node)
    (hcur : w.current = some a) (hc : s.cells a = some n) (h : w.processed = s.size) :
    afterClimb s fuel w = .ok w.os := by
  obtain ⟨w1, h1, h2, h3⟩ := climb_ok s w a n hcur hc
  simp only [afterClimb, h1]
  rw [renderLoop_done s fuel w1 (by rw [h2, h]), h3]

end BinarySearchTree
namespace BinarySearchTree

theorem renderLoop_step_climb (s : BinarySearchTree) (fuel : Nat) (w w1 : Walk)
    (h : w.processed ≠ s.size) (hs : renderStep s w = climb s w1) :
    renderLoop (fuel + 1) s w = afterClimb s fuel w1 := by
  rw [renderLoop]; simp only [h, if_false, hs, afterClimb]

theorem afterClimb_child (s : BinarySearchTree) (fuel : Nat) (w : Walk) (a p : Nat) (n pn : Node)
    (hcur : w.current = some a) (hc : s.cells a = some n) (hp : n.parent = some p)
    (hpc : s.cells p = some pn) :
    afterClimb s fuel w =
      renderLoop fuel s { w with comingFromLeft := decide (pn.left = some a), current := some p } := by
  simp only [afterClimb, climb_child s w a p n pn hcur hc hp hpc]

theorem render_traverse (s : BinarySearchTree) (hsz : s.size < 2 ^ 32) (t : Shape) :
    ∀ (a : Nat) (pp : Option Nat) (k : Nat) (cfl : Bool) (os : String),
      t.ptr = some a → Repr s.cells pp t → t.addrs.Nodup → k + t.size ≤ s.size →
      ∃ n c, ∀ fuel,
        renderLoop (fuel + n) s
            { current := some a, processed := k, fromUp := true, comingFromLeft := cfl, os := os } =
          afterClimb s fuel
            { current := some a, processed := k + t.size, fromUp := false, comingFromLeft := c,
              os := os ++ textOf t.inorder } := by
  induction t with
  | nil => intro a pp k cfl os h; cases h
  | node a l v r ihl ihr =>
    intro a0 pp k cfl os hptr hrepr hnd hk
    cases hptr
    obtain ⟨hc, hl, hr⟩ := hrepr
    simp only [Shape.addrs, List.nodup_append, List.nodup_cons] at hnd
    obtain ⟨hndl, ⟨har, hndr⟩, hdisj⟩ := hnd
    simp only [Shape.size] at hk
    have hinc : ∀ j, j < s.size → incU32 j = j + 1 := fun j hj => incU32_lt (by omega)
    -- the last iteration at `a`, after the right subtree has been left
    have hlast : ∀ (os1 : String), ∀ fuel,
        renderLoop (fuel + 1) s
            { current := some a, processed := k + (l.size + 1 + r.size), fromUp := false,
              comingFromLeft := false, os := os1 } =
          afterClimb s fuel
            { current := some a, processed := k + (l.size + 1 + r.size), fromUp := false,
              comingFromLeft := false, os := os1 } := by
      intro os1 fuel
      by_cases hfin : k + (l.size + 1 + r.size) = s.size
      · rw [renderLoop_done _ _ _ hfin, afterClimb_done s fuel _ a _ rfl hc hfin]
      · exact renderLoop_step_climb s fuel _ _ hfin
          (by simp [renderStep, deref, hc, bind, Except.bind])
    -- what happens once the payload of `a` has been written
    have hright : ∀ (os1 : String) (fu c1 : Bool), r ≠ .nil →
        ∃ n, ∀ fuel,
          renderLoop (fuel + n) s
              { current := r.ptr, processed := k + l.size + 1, fromUp := true,
                comingFromLeft := c1, os := os1 } =
            afterClimb s fuel
              { current := some a, processed := k + (l.size + 1 + r.size), fromUp := false,
                comingFromLeft := false, os := os1 ++ textOf r.inorder } := by
      intro os1 fu c1 hrne
      cases r with
      | nil => exact absurd rfl hrne
      | node ra rl rv rr =>
        obtain ⟨n, c, hn⟩ := ihr ra (some a) (k + l.size + 1) c1 os1 rfl hr hndr (by omega)
        refine ⟨n + 1, fun fuel => ?_⟩
        have hrc := hr.1
        have hne : l.ptr ≠ some ra := by
          intro e
          cases l with
          | nil => cases e
          | node la ll lv lr =>
            cases e
            exact hdisj (show ra ∈ (Shape.node ra ll lv lr).addrs by simp [Shape.addrs])
              (by simp [Shape.addrs])
        rw [show fuel + (n + 1) = (fuel + 1) + n by omega, ptr_node, hn,
          afterClimb_child s _ _ ra a _ _ rfl hrc rfl hc]
        simp only [hne, decide_False]
        rw [show k + l.size + 1 + (Shape.node ra rl rv rr).size
          = k + (l.size + 1 + (Shape.node ra rl rv rr).size) by omega]
        exact hlast _ fuel
    cases l with
    | nil =>
      simp only [Shape.size, Shape.inorder, List.nil_append, Nat.zero_add, ptr_nil] at *
      have hk1 : k ≠ s.size := by omega
      cases r with
      | nil =>
        refine ⟨1, cfl, fun fuel => ?_⟩
        simp only [ptr_nil] at hc
        rw [renderLoop_step_climb s fuel _
          { current := some a, processed := k + 1, fromUp := false, comingFromLeft := cfl,
            os := os ++ toString v ++ "," } hk1
          (by simp [renderStep, deref, hc, bind, Except.bind, hinc k (by omega)])]
        simp [Shape.size, Shape.inorder, textOf, String.append_assoc]
      | node ra rl rv rr =>
        obtain ⟨n, hn⟩ := hright (os ++ toString v ++ ",") true cfl (by simp)
        refine ⟨n + 1, false, fun fuel => ?_⟩
        rw [show fuel + (n + 1) = (fuel + n) + 1 by omega,
          renderLoop_step s (fuel + n) _
            { current := some ra, processed := k + 1, fromUp := true, comingFromLeft := cfl,
              os := os ++ toString v ++ "," } hk1
            (by simp [renderStep, deref, hc, ptr_node, bind, Except.bind, pure, Except.pure,
              hinc k (by omega)])]
        have := hn fuel
        simp only [ptr_node, Nat.add_zero] at this
        rw [this]
        simp [textOf, String.append_assoc]
    | node la ll lv lr =>
      have hk1 : k ≠ s.size := by omega
      obtain ⟨nl, cl, hnl⟩ := ihl la (some a) k cfl os rfl hl hndl (by omega)
      have hlc := hl.1
      -- down into the left subtree and back up to `a`
      have hleft : ∀ fuel,
          renderLoop (fuel + nl + 1) s
              { current := some a, processed := k, fromUp := true, comingFromLeft := cfl, os := os } =
            renderLoop fuel s
              { current := some a, processed := k + (Shape.node la ll lv lr).size, fromUp := false,
                comingFromLeft := true, os := os ++ textOf (Shape.node la ll lv lr).inorder } := by
        intro fuel
        rw [renderLoop_step s (fuel + nl) _
            { current := some la, processed := k, fromUp := true, comingFromLeft := cfl, os := os } hk1
            (by simp [renderStep, deref, hc, ptr_node, bind, Except.bind, pure, Except.pure]),
          hnl, afterClimb_child s _ _ la a _ _ rfl hlc rfl hc]
        simp [ptr_node]
      have hk2 : k + (Shape.node la ll lv lr).size ≠ s.size := by omega
      have hk3 : k + (Shape.node la ll lv lr).size < s.size := by omega
      cases r with
      | nil =>
        refine ⟨nl + 2, true, fun fuel => ?_⟩
        simp only [ptr_nil] at hc
        rw [show fuel + (nl + 2) = (fuel + 1) + nl + 1 by omega, hleft,
          renderLoop_step_climb s fuel _
            { current := some a, processed := k + (Shape.node la ll lv lr).size + 1, fromUp := false,
              comingFromLeft := true,
              os := os ++ textOf (Shape.node la ll lv lr).inorder ++ toString v ++ "," } hk2
            (by simp [renderStep, deref, hc, bind, Except.bind, hinc _ hk3])]
        simp [Shape.size, Shape.inorder, textOf, textOf_append, String.append_assoc, Nat.add_assoc]
      | node ra rl rv rr =>
        obtain ⟨n, hn⟩ := hright (os ++ textOf (Shape.node la ll lv lr).inorder ++ toString v ++ ",")
          true true (by simp)
        refine ⟨n + 1 + nl + 1, false, fun fuel => ?_⟩
        rw [show fuel + (n + 1 + nl + 1) = (fuel + n + 1) + nl + 1 by omega, hleft,
          renderLoop_step s (fuel + n) _
            { current := some ra, processed := k + (Shape.node la ll lv lr).size + 1, fromUp := true,
              comingFromLeft := true,
              os := os ++ textOf (Shape.node la ll lv lr).inorder ++ toString v ++ "," } hk2
            (by simp [renderStep, deref, hc, ptr_node, bind, Except.bind, pure, Except.pure,
              hinc _ hk3])]
        have := hn fuel
        simp only [ptr_node] at this
        rw [this]
        simp [Shape.size, Shape.inorder, textOf, textOf_append, String.append_assoc]

end BinarySearchTree
namespace BinarySearchTree

theorem render_wf {s : BinarySearchTree} {t : Shape} (h : WellFormed s t) (hsz : t.size < 2 ^ 32) :
    ∃ n, ∀ fuel, n ≤ fuel → render fuel s = .ok ("<" ++ textOf t.inorder ++ ">") := by
  cases t with
  | nil =>
    refine ⟨0, fun fuel _ => ?_⟩
    have h1 : s.size = 0 := h.size_eq
    simp only [render, bind, Except.bind]
    rw [renderLoop_done _ _ _ (by simp [h1])]
    simp [Shape.inorder, textOf, pure, Except.pure]
  | node a l v r =>
    have hs : s.size = (Shape.node a l v r).size := h.size_eq
    obtain ⟨n, c, hn⟩ := render_traverse s (by rw [hs]; exact hsz) (Shape.node a l v r) a none 0 false "<"
      rfl h.repr h.nodup (by rw [hs]; omega)
    refine ⟨n, fun fuel hf => ?_⟩
    have hroot : s.root = some a := h.root_eq
    simp only [render, bind, Except.bind, hroot]
    rw [show fuel = (fuel - n) + n by omega, hn,
      afterClimb_done s _ _ a _ rfl h.repr.1 (by simp [hs])]
    simp [pure, Except.pure]

end BinarySearchTree
/-! ### The Ordered Tree: the walk of `release` and the destructor -/

namespace BinarySearchTree

theorem wipe_nil (m : BinarySearchTree) : wipe m [] = m := by
  cases m; simp [wipe]

theorem dropFuel_tree (t : Shape) :
    ∀ (m : BinarySearchTree) (pp : Option Nat) (fuel : Nat), Repr m.cells pp t → t.addrs.Nodup →
      (∀ x ∈ t.addrs, m.uses x = 1) → t.size ≤ fuel →
      dropFuel fuel m t.ptr = .ok (wipe m t.addrs) := by
  induction t with
  | nil => intro m pp fuel _ _ _ _; simp [ptr_nil, drop_none, Shape.addrs, wipe_nil]
  | node a l v r ihl ihr =>
    intro m pp fuel hrepr hnd hu hf
    obtain ⟨hc, hl, hr⟩ := hrepr
    simp only [Shape.addrs, List.nodup_append, List.nodup_cons] at hnd
    obtain ⟨hndl, ⟨har, hndr⟩, hdisj⟩ := hnd
    have hal : a ∉ l.addrs := fun hm => hdisj hm (by simp)
    have hlr : ∀ b ∈ l.addrs, b ∉ r.addrs := fun b hb hb2 => hdisj hb (by simp [hb2])
    simp only [Shape.size] at hf
    cases fuel with
    | zero => omega
    | succ fuel =>
      have hua : ¬ 1 < m.uses a := by rw [hu a (by simp [Shape.addrs])]; omega
      have e1 := ihr
        { m with
          uses := setUse m.uses a 0, cells := setCell m.cells a none,
          instanceCount := m.instanceCount - 1 } (some a) fuel
        (repr_congr (fun b hb => by
          have : b ≠ a := fun e => har (e ▸ hb)
          simp [setCell, this]) hr) hndr
        (fun b hb => by
          have : b ≠ a := fun e => har (e ▸ hb)
          simp [setUse, this, hu b (by simp [Shape.addrs, hb])]) (by omega)
      have e2 := ihl
        (wipe
          { m with
            uses := setUse m.uses a 0, cells := setCell m.cells a none,
            instanceCount := m.instanceCount - 1 } r.addrs) (some a) fuel
        (repr_congr (fun b hb => by
          have h1 : b ≠ a := fun e => hal (e ▸ hb)
          simp [wipe, setCell, h1, hlr b hb]) hl) hndl
        (fun b hb => by
          have h1 : b ≠ a := fun e => hal (e ▸ hb)
          simp [wipe, setUse, h1, hlr b hb, hu b (by simp [Shape.addrs, hb])]) (by omega)
      simp only [ptr_node, dropFuel, hua, if_false, hc, e1, e2]
      congr 1
      simp only [wipe, Shape.addrs]
      congr 1
      · funext b
        by_cases h1 : b = a
        · subst h1; simp [setCell]
        · by_cases h2 : b ∈ l.addrs
          · simp [h2]
          · by_cases h3 : b ∈ r.addrs
            · simp [h3]
            · simp [h1, h2, h3, setCell]
      · funext b
        by_cases h1 : b = a
        · subst h1; simp [setUse]
        · by_cases h2 : b ∈ l.addrs
          · simp [h2]
          · by_cases h3 : b ∈ r.addrs
            · simp [h3]
            · simp [h1, h2, h3, setUse]
      · simp; ring

end BinarySearchTree
namespace BinarySearchTree

theorem residue_ptr (t : Shape) : t.residue.ptr = t.ptr := by
  cases t <;> rfl

theorem residue_addrs_subset (t : Shape) : ∀ x ∈ t.residue.addrs, x ∈ t.addrs := by
  induction t with
  | nil => intro x hx; exact hx
  | node a l v r ihl ihr =>
    intro x hx
    simp only [Shape.residue, Shape.addrs, List.mem_append, List.mem_cons] at hx ⊢
    rcases hx with hx | hx | hx
    · cases hr : r.isNil
      · simp only [hr, Bool.false_eq_true, if_false] at hx
        exact Or.inl (ihl x hx)
      · simp [hr, Shape.addrs] at hx
    · exact Or.inr (Or.inl hx)
    · simp at hx

theorem residue_nodup (t : Shape) (h : t.addrs.Nodup) : t.residue.addrs.Nodup := by
  induction t with
  | nil => exact h
  | node a l v r ihl ihr =>
    simp only [Shape.addrs, List.nodup_append, List.nodup_cons] at h
    obtain ⟨hndl, ⟨har, hndr⟩, hdisj⟩ := h
    simp only [Shape.residue, Shape.addrs, List.nodup_append, List.nodup_cons, List.not_mem_nil,
      not_false_eq_true, List.nodup_nil, and_self, true_and]
    cases hr : r.isNil
    · simp only [Bool.false_eq_true, if_false]
      refine ⟨ihl hndl, ?_⟩
      intro x hx hx2
      have : x = a := by simpa using hx2
      exact hdisj (residue_addrs_subset l x hx) (by simp [this])
    · simp [Shape.addrs]

theorem residue_size_le (t : Shape) : t.residue.size ≤ t.size := by
  rw [size_eq_length, size_eq_length]
  induction t with
  | nil => exact Nat.le_refl _
  | node a l v r ihl ihr =>
    simp only [Shape.residue, Shape.addrs, List.length_append, List.length_cons, List.length_nil]
    cases hr : r.isNil
    · simp only [Bool.false_eq_true, if_false]; omega
    · simp only [if_true, Shape.addrs, List.length_nil]; omega

theorem resets_lt_size (t : Shape) (h : t ≠ .nil) : t.resets + 1 ≤ t.size := by
  induction t with
  | nil => exact absurd rfl h
  | node a l v r ihl ihr =>
    simp only [Shape.resets, Shape.size]
    cases l with
    | nil =>
      cases r with
      | nil => simp [Shape.resets, Shape.isNil, Shape.size]
      | node ra rl rv rr =>
        have := ihr (by simp)
        simp [Shape.resets, Shape.isNil, Shape.size] at this ⊢
        omega
    | node la ll lv lr =>
      have h1 := ihl (by simp)
      cases r with
      | nil =>
        simp [Shape.resets, Shape.isNil, Shape.size] at h1 ⊢
        omega
      | node ra rl rv rr =>
        have h2 := ihr (by simp)
        simp [Shape.resets, Shape.isNil, Shape.size] at h1 h2 ⊢
        omega

theorem Swept_iff (m m2 : BinarySearchTree) (t : Shape) (pp : Option Nat) (a : Nat) :
    Swept m m2 t pp a ↔
      Repr m2.cells pp t.residue ∧ m2.uses a = 2 ∧
      (∀ x ∈ t.residue.addrs, x ≠ a → m2.uses x = 1) ∧
      (∀ x ∈ t.addrs, x ∉ t.residue.addrs → m2.cells x = none) ∧
      (∀ x, x ∉ t.addrs → m2.cells x = m.cells x) ∧
      (∀ x, x ∉ t.addrs → m2.uses x = m.uses x) ∧
      m2.fresh = m.fresh ∧ m2.instanceCount + t.size = m.instanceCount + t.residue.size ∧
      m2.root = m.root ∧ m2.size = m.size :=
  ⟨fun h => ⟨h.1, h.2, h.3, h.4, h.5, h.6, h.7, h.8, h.9, h.10⟩,
   fun h => ⟨h.1, h.2.1, h.2.2.1, h.2.2.2.1, h.2.2.2.2.1, h.2.2.2.2.2.1, h.2.2.2.2.2.2.1,
     h.2.2.2.2.2.2.2.1, h.2.2.2.2.2.2.2.2.1, h.2.2.2.2.2.2.2.2.2⟩⟩

theorem releaseLoop_done (fuel size : Nat) (r : Run) (h : r.walk.processed = predU32 size) :
    releaseLoop fuel size r = .ok r := by
  unfold releaseLoop; simp [h]

theorem releaseLoop_step (fuel size : Nat) (r r1 : Run) (h : r.walk.processed ≠ predU32 size)
    (hs : releaseStep r = .ok r1) : releaseLoop (fuel + 1) size r = releaseLoop fuel size r1 := by
  rw [releaseLoop]; simp [h, hs]

theorem releaseLoop_step_climb (fuel size : Nat) (r r1 : Run)
    (h : r.walk.processed ≠ predU32 size) (hs : releaseStep r = climbOwning r1) :
    releaseLoop (fuel + 1) size r = afterClimbOwning fuel size r1 := by
  rw [releaseLoop]; simp only [h, if_false, hs, afterClimbOwning]

theorem climbOwning_root (r : Run) (a : Nat) (n : Node) (hcur : r.walk.current = some a)
    (hc : r.mem.cells a = some n) (hp : n.parent = none) : climbOwning r = .ok r := by
  simp [climbOwning, deref, hcur, hc, hp, lock, bind, Except.bind, pure, Except.pure]

theorem climbOwning_child (m : BinarySearchTree) (w : Walk) (a p : Nat) (n pn : Node)
    (hcur : w.current = some a) (hc : m.cells a = some n) (hp : n.parent = some p)
    (hpc : m.cells p = some pn) (hua : 1 < m.uses a) (hap : a ≠ p) :
    climbOwning { mem := m, walk := w } =
      .ok { mem := { m with uses := setUse (setUse m.uses a (m.uses a - 1)) p (m.uses p + 1) },
            walk := { w with comingFromLeft := decide (pn.left = some a), current := some p } } := by
  have h1 : ∀ (st : BinarySearchTree) (x : Nat), 1 < st.uses x → drop st (some x) =
      .ok { st with uses := setUse st.uses x (st.uses x - 1) } :=
    fun st x hst => drop_shared st x _ hst
  simp only [climbOwning, deref, hcur, hc, hp, lock, hpc, Option.isSome_some, if_true, bind,
    Except.bind, acquire, assignLocal, pure, Except.pure]
  rw [h1 _ a (by simp [setUse, hap, hua])]
  simp only [bind, Except.bind]
  rw [h1 _ p (by simp [setUse, hap, Ne.symm hap])]
  simp only [Except.ok.injEq, Run.mk.injEq, and_true]
  congr 1
  funext b
  simp only [setUse]
  by_cases hb : b = p
  · subst hb; simp [Ne.symm hap]
  · by_cases hb2 : b = a
    · subst hb2; simp [hap]
    · simp [hb, hb2]

theorem moveTo_child (m : BinarySearchTree) (w : Walk) (a c : Nat) (fu : Bool)
    (hcur : w.current = some a) (hua : 1 < m.uses a) (hac : a ≠ c) :
    moveTo { mem := m, walk := w } (some c) fu =
      .ok { mem := { m with uses := setUse (setUse m.uses a (m.uses a - 1)) c (m.uses c + 1) },
            walk := { w with current := some c, fromUp := fu } } := by
  have h1 : ∀ (st : BinarySearchTree) (x : Nat), 1 < st.uses x → drop st (some x) =
      .ok { st with uses := setUse st.uses x (st.uses x - 1) } :=
    fun st x hst => drop_shared st x _ hst
  simp only [moveTo, hcur, assignLocal, acquire, bind, Except.bind, pure, Except.pure]
  rw [h1 _ a (by simp [setUse, hac, hua])]
  simp only [Except.ok.injEq, Run.mk.injEq, and_true]
  congr 1
  funext b
  simp only [setUse]
  by_cases hb : b = c
  · subst hb; simp [Ne.symm hac]
  · by_cases hb2 : b = a
    · subst hb2; simp [hac]
    · simp [hb, hb2]

end BinarySearchTree
namespace BinarySearchTree

theorem predU32_lt (size : Nat) : predU32 size < 2 ^ 32 := Nat.mod_lt _ (by norm_num)

theorem visit_child (size : Nat) (ch : Shape) (hspec : TraverseSpec size ch) (a ca : Nat)
    (n : Node) (m : BinarySearchTree) (k : Nat) (fu cfl : Bool) (os : String)
    (hptr : ch.ptr = some ca) (hc : m.cells a = some n) (hach : a ∉ ch.addrs)
    (hrepr : Repr m.cells (some a) ch) (hnd : ch.addrs.Nodup) (hbd : ∀ x ∈ ch.addrs, x < m.fresh)
    (hu : ∀ x ∈ ch.addrs, m.uses x = 1) (hua : m.uses a = 2)
    (hk : k < predU32 size) (hk2 : k + ch.resets ≤ predU32 size) :
    ∃ j m2,
      (∀ fuel,
        (match moveTo { mem := m, walk := { current := some a, processed := k, fromUp := fu,
                                            comingFromLeft := cfl, os := os } } (some ca) true with
          | .error e => .error e
          | .ok r1 => releaseLoop (fuel + j) size r1) =
        releaseLoop fuel size
          { mem := m2, walk := { current := some a, processed := k + ch.resets, fromUp := false,
                                 comingFromLeft := decide (n.left = some ca), os := os } }) ∧
      Visited m m2 ch a := by
  have hca : ca ∈ ch.addrs := by
    cases ch with
    | nil => cases hptr
    | node b l v r => cases hptr; simp [Shape.addrs]
  have hne : a ≠ ca := fun e => hach (e ▸ hca)
  have hent : Entered { m with uses := setUse (setUse m.uses a (m.uses a - 1)) ca (m.uses ca + 1) }
      ch (some a) ca := by
    refine ⟨hrepr, hnd, hbd, by simp [setUse, hu ca hca], ?_⟩
    intro x hx hxca
    have : x ≠ a := fun e => hach (e ▸ hx)
    simp [setUse, hxca, this, hu x hx]
  obtain ⟨n1, m2, c, hrun, hsw, -⟩ := hspec ca (some a) _ k cfl os hptr hent hk hk2
  have hcell : ∃ nd, m2.cells ca = some nd ∧ nd.parent = some a := by
    have := hsw.repr
    cases ch with
    | nil => cases hptr
    | node b l v r => cases hptr; exact ⟨_, this.1, rfl⟩
  obtain ⟨nd, hnd1, hnd2⟩ := hcell
  have hca2 : m2.cells a = some n := by rw [hsw.frame_cells a hach]; exact hc
  have hua2 : m2.uses a = 1 := by
    rw [hsw.frame_uses a hach]; simp [setUse, hne, hua]
  refine ⟨n1 + 1, { m2 with uses := setUse (setUse m2.uses ca (m2.uses ca - 1)) a (m2.uses a + 1) },
    fun fuel => ?_, ?_⟩
  · rw [moveTo_child m _ a ca true rfl (by omega) hne]
    simp only
    rw [show fuel + (n1 + 1) = fuel + n1 + 1 by omega, hrun, afterClimbOwning,
      climbOwning_child m2 _ ca a nd n rfl hnd1 hnd2 hca2 (by rw [hsw.uses_top]; omega) (Ne.symm hne)]
  · constructor
    · exact hsw.repr
    · intro x hx
      have hx2 := residue_addrs_subset ch x hx
      have hxa : x ≠ a := fun e => hach (e ▸ hx2)
      by_cases hxc : x = ca
      · subst hxc; simp [setUse, hxa, hsw.uses_top]
      · simp [setUse, hxa, hxc, hsw.uses_rest x hx hxc]
    · exact hsw.dead
    · intro x hx; exact hsw.frame_cells x hx
    · intro x hx
      have hxc : x ≠ ca := fun e => hx (e ▸ hca)
      by_cases hxa : x = a
      · subst hxa; simp [setUse, hua2, hua]
      · simp only [setUse, hxa, hxc, if_false]
        rw [hsw.frame_uses x hx]; simp [setUse, hxa, hxc]
    · exact hsw.fresh_eq
    · exact hsw.count
    · exact hsw.root_eq
    · exact hsw.size_eq

end BinarySearchTree
namespace BinarySearchTree

theorem store_cell (m : BinarySearchTree) (a : Nat) (n : Node) (f : Node → Node)
    (hc : m.cells a = some n) :
    store m (some a) f = .ok { m with cells := setCell m.cells a (some (f n)) } := by
  simp [store, hc]

theorem drop_residue (m : BinarySearchTree) (a : Nat) (n2 : Node) (chr : Shape)
    (hrepr : Repr m.cells (some a) chr)
    (hnd : chr.addrs.Nodup) (hu : ∀ x ∈ chr.addrs, m.uses x = 1) (ha : a ∉ chr.addrs)
    (hbd : ∀ x ∈ chr.addrs, x < m.fresh) :
    drop { m with cells := setCell m.cells a (some n2) } chr.ptr =
      .ok (wipe { m with cells := setCell m.cells a (some n2) } chr.addrs) := by
  simp only [drop]
  refine dropFuel_tree chr _ (some a) _ (repr_congr (fun x hx => ?_) hrepr) hnd hu ?_
  · have : x ≠ a := fun e => ha (e ▸ hx)
    simp [setCell, this]
  · rw [size_eq_length]; exact LinkedList.nodup_bounded_length hnd hbd

theorem releaseLoop_step_move (fuel size : Nat) (r : Run) (c : Option Nat) (fu : Bool)
    (h : r.walk.processed ≠ predU32 size) (hs : releaseStep r = moveTo r c fu) :
    releaseLoop (fuel + 1) size r =
      (match moveTo r c fu with
        | .error e => Except.error e
        | .ok r1 => releaseLoop fuel size r1) := by
  rw [releaseLoop]; simp only [h, if_false, hs]

theorem traverse_leaf (size : Nat) (a : Nat) (v : Int) :
    TraverseSpec size (Shape.node a Shape.nil v Shape.nil) := by
  intro a0 pp m k cfl os hptr hent hk hk2
  cases hptr
  obtain ⟨⟨hc, -, -⟩, hnd, hbd, hut, hur⟩ := hent
  simp only [ptr_nil] at hc
  refine ⟨0, m, cfl, fun fuel => ?_, ?_, ?_⟩
  · rw [releaseLoop_step_climb fuel size _
      { mem := m, walk := { current := some a, processed := k, fromUp := false,
                            comingFromLeft := cfl, os := os } } (Nat.ne_of_lt hk)
      (by simp [releaseStep, deref, hc, bind, Except.bind])]
    simp [Shape.resets, Shape.isNil]
  · constructor
    · simp [Shape.residue, Shape.isNil, repr_node, repr_nil, hc, ptr_nil]
    · exact hut
    · intro x hx hxa
      simp [Shape.residue, Shape.isNil, Shape.addrs] at hx
      exact absurd hx hxa
    · intro x hx hx2
      simp [Shape.residue, Shape.isNil, Shape.addrs] at hx hx2
      exact absurd hx hx2
    · intro x _; rfl
    · intro x _; rfl
    · rfl
    · simp [Shape.residue, Shape.isNil, Shape.size]
    · rfl
    · rfl
  · intro _ nd hnd1
    rw [hc] at hnd1; cases hnd1; rfl

theorem traverse_left (size : Nat) (a : Nat) (v : Int) (l : Shape) (hl : TraverseSpec size l)
    (hne : l ≠ Shape.nil) : TraverseSpec size (Shape.node a l v Shape.nil) := by
  intro a0 pp m k cfl os hptr hent hk hk2
  cases hptr
  obtain ⟨⟨hc, hrl, -⟩, hnd, hbd, hut, hur⟩ := hent
  simp only [ptr_nil] at hc
  simp only [Shape.addrs, List.nodup_append, List.nodup_cons] at hnd
  obtain ⟨hndl, -, hdisj⟩ := hnd
  have hal : a ∉ l.addrs := fun hm => hdisj hm (by simp)
  obtain ⟨la, hla⟩ : ∃ la, l.ptr = some la := by
    cases l with
    | nil => exact absurd rfl hne
    | node b _ _ _ => exact ⟨b, rfl⟩
  have hres : (Shape.node a l v .nil).resets = l.resets + 1 := by
    cases l with
    | nil => exact absurd rfl hne
    | node b _ _ _ => simp [Shape.resets, Shape.isNil]
  rw [hres] at hk2
  obtain ⟨j, m2, hrun, hv⟩ := visit_child size l hl a la _ m k true cfl os hla hc hal hrl hndl
    (fun x hx => hbd x (by simp [Shape.addrs, hx]))
    (fun x hx => hur x (by simp [Shape.addrs, hx]) (fun e => hal (e ▸ hx))) hut hk (by omega)
  have hc2 : m2.cells a = some { left := l.ptr, right := none, parent := pp, content := v } := by
    rw [hv.frame_cells a hal]; exact hc
  have hreset := drop_residue m2 a { left := none, right := none, parent := pp, content := v }
    l.residue hv.repr (residue_nodup l hndl)
    hv.uses_one (fun hm => hal (residue_addrs_subset l a hm))
    (fun x hx => by rw [hv.fresh_eq]; exact hbd x (by simp [Shape.addrs, residue_addrs_subset l x hx]))
  rw [residue_ptr] at hreset
  have hlim := predU32_lt size
  have har : a ∉ l.residue.addrs := fun hm => hal (residue_addrs_subset l a hm)
  obtain ⟨m3, hm3⟩ : ∃ m3, m3 = wipe
      { m2 with
        cells := setCell m2.cells a (some { left := none, right := none, parent := pp, content := v }) }
      l.residue.addrs := ⟨_, rfl⟩
  rw [← hm3] at hreset
  refine ⟨j + 1, m3, true, fun fuel => ?_, ?_, ?_⟩
  · rw [show fuel + (j + 1) + 1 = (fuel + 1 + j) + 1 by omega,
      releaseLoop_step_move _ size _ (some la) true (Nat.ne_of_lt hk)
        (by simp [releaseStep, deref, hc, hla, bind, Except.bind]),
      hrun]
    simp only [hla, decide_True]
    rw [releaseLoop_step_climb fuel size _
      { mem := m3,
        walk := { current := some a, processed := k + l.resets + 1, fromUp := false,
                  comingFromLeft := true, os := os } } (by simp; omega) ?_]
    · simp [hres, Nat.add_assoc]
    · simp only [releaseStep, deref, hc2, bind, Except.bind, Bool.false_eq_true, if_false, if_true,
        Option.isSome_none, store_cell m2 a _ _ hc2, hreset]
      simp [incU32_lt (show k + l.resets + 1 < 2 ^ 32 by omega)]
  · subst hm3
    constructor
    · simp [Shape.residue, Shape.isNil, repr_node, repr_nil, wipe, setCell, har, ptr_nil]
    · simp only [wipe, har, if_false]
      rw [hv.frame_uses a hal]; exact hut
    · intro x hx hxa
      simp [Shape.residue, Shape.isNil, Shape.addrs] at hx
      exact absurd hx hxa
    · intro x hx hx2
      simp only [Shape.residue, Shape.isNil, if_true, Shape.addrs, List.nil_append, List.mem_cons,
        List.not_mem_nil, or_false, List.mem_append] at hx hx2
      have hxl : x ∈ l.addrs := by
        rcases hx with h | h
        · exact h
        · exact absurd h hx2
      by_cases hxr : x ∈ l.residue.addrs
      · simp [wipe, hxr]
      · simp only [wipe, hxr, if_false, setCell, hx2]
        exact hv.dead x hxl hxr
    · intro x hx
      simp only [Shape.addrs, List.mem_append, List.mem_cons, List.not_mem_nil, or_false,
        not_or] at hx
      have hxr : x ∉ l.residue.addrs := fun hm => hx.1 (residue_addrs_subset l x hm)
      simp only [wipe, hxr, if_false, setCell, hx.2]
      exact hv.frame_cells x hx.1
    · intro x hx
      simp only [Shape.addrs, List.mem_append, List.mem_cons, List.not_mem_nil, or_false,
        not_or] at hx
      have hxr : x ∉ l.residue.addrs := fun hm => hx.1 (residue_addrs_subset l x hm)
      simp only [wipe, hxr, if_false]
      exact hv.frame_uses x hx.1
    · exact hv.fresh_eq
    · have := hv.count
      simp only [wipe, Shape.residue, Shape.isNil, if_true, Shape.size]
      rw [← size_eq_length]
      push_cast
      linarith
    · exact hv.root_eq
    · exact hv.size_eq
  · intro _ nd hnd1
    subst hm3
    simp [wipe, setCell, har] at hnd1
    rw [← hnd1]

end BinarySearchTree
namespace BinarySearchTree

theorem traverse_right (size : Nat) (a : Nat) (v : Int) (r : Shape) (hr : TraverseSpec size r)
    (hne : r ≠ Shape.nil) : TraverseSpec size (Shape.node a Shape.nil v r) := by
  intro a0 pp m k cfl os hptr hent hk hk2
  cases hptr
  obtain ⟨⟨hc, -, hrr⟩, hnd, hbd, hut, hur⟩ := hent
  simp only [ptr_nil] at hc
  simp only [Shape.addrs, List.nil_append, List.nodup_cons] at hnd
  obtain ⟨har, hndr⟩ := hnd
  obtain ⟨ra, hra⟩ : ∃ ra, r.ptr = some ra := by
    cases r with
    | nil => exact absurd rfl hne
    | node b _ _ _ => exact ⟨b, rfl⟩
  have hnil : r.isNil = false := by
    cases r with
    | nil => exact absurd rfl hne
    | node b _ _ _ => rfl
  have hres : (Shape.node a Shape.nil v r).resets = r.resets + 1 := by
    show 0 + r.resets + (if (true && r.isNil) then 0 else 1) = r.resets + 1
    rw [hnil]; simp
  have hresd : (Shape.node a Shape.nil v r).residue = Shape.node a Shape.nil v Shape.nil := by
    show Shape.node a (if r.isNil then Shape.nil else Shape.nil) v Shape.nil = _
    rw [hnil]; rfl
  rw [hres] at hk2
  obtain ⟨j, m2, hrun, hv⟩ := visit_child size r hr a ra _ m k true cfl os hra hc har hrr hndr
    (fun x hx => hbd x (by simp [Shape.addrs, hx]))
    (fun x hx => hur x (by simp [Shape.addrs, hx]) (fun e => har (e ▸ hx))) hut hk (by omega)
  have hc2 : m2.cells a = some { left := none, right := r.ptr, parent := pp, content := v } := by
    rw [hv.frame_cells a har]; exact hc
  have harr : a ∉ r.residue.addrs := fun hm => har (residue_addrs_subset r a hm)
  have hreset := drop_residue m2 a { left := none, right := none, parent := pp, content := v }
    r.residue hv.repr (residue_nodup r hndr) hv.uses_one harr
    (fun x hx => by rw [hv.fresh_eq]; exact hbd x (by simp [Shape.addrs, residue_addrs_subset r x hx]))
  rw [residue_ptr] at hreset
  have hlim := predU32_lt size
  obtain ⟨m3, hm3⟩ : ∃ m3, m3 = wipe
      { m2 with
        cells := setCell m2.cells a (some { left := none, right := none, parent := pp, content := v }) }
      r.residue.addrs := ⟨_, rfl⟩
  rw [← hm3] at hreset
  refine ⟨j + 1, m3, false, fun fuel => ?_, ?_, ?_⟩
  · rw [show fuel + (j + 1) + 1 = (fuel + 1 + j) + 1 by omega,
      releaseLoop_step_move _ size _ (some ra) true (Nat.ne_of_lt hk)
        (by simp [releaseStep, deref, hc, hra, bind, Except.bind]),
      hrun]
    simp only [decide_False]
    rw [releaseLoop_step_climb fuel size _
      { mem := m3,
        walk := { current := some a, processed := k + r.resets + 1, fromUp := false,
                  comingFromLeft := false, os := os } } (by simp; omega) ?_]
    · simp [hres, Nat.add_assoc]
    · simp only [releaseStep, deref, hc2, bind, Except.bind, Bool.false_eq_true, if_false,
        store_cell m2 a _ _ hc2, hreset]
      simp [incU32_lt (show k + r.resets + 1 < 2 ^ 32 by omega)]
  · subst hm3
    rw [Swept_iff, hresd]
    refine ⟨?_, ?_, ?_, ?_, ?_, ?_, hv.fresh_eq, ?_, hv.root_eq, hv.size_eq⟩
    · simp [repr_node, repr_nil, wipe, setCell, harr, ptr_nil]
    · simp only [wipe, harr, if_false]
      rw [hv.frame_uses a har]; exact hut
    · intro x hx hxa
      simp [Shape.addrs] at hx
      exact absurd hx hxa
    · intro x hx hx2
      simp only [Shape.addrs, List.nil_append, List.mem_cons, List.not_mem_nil, or_false] at hx hx2
      have hxl : x ∈ r.addrs := by
        rcases hx with h | h
        · exact absurd h hx2
        · exact h
      by_cases hxr : x ∈ r.residue.addrs
      · simp [wipe, hxr]
      · simp only [wipe, hxr, if_false, setCell, hx2]
        exact hv.dead x hxl hxr
    · intro x hx
      simp only [Shape.addrs, List.nil_append, List.mem_cons, not_or] at hx
      have hxr : x ∉ r.residue.addrs := fun hm => hx.2 (residue_addrs_subset r x hm)
      simp only [wipe, hxr, if_false, setCell, hx.1]
      exact hv.frame_cells x hx.2
    · intro x hx
      simp only [Shape.addrs, List.nil_append, List.mem_cons, not_or] at hx
      have hxr : x ∉ r.residue.addrs := fun hm => hx.2 (residue_addrs_subset r x hm)
      simp only [wipe, hxr, if_false]
      exact hv.frame_uses x hx.2
    · have := hv.count
      simp only [wipe, Shape.size]
      rw [← size_eq_length]
      push_cast
      linarith
  · intro h; cases h

end BinarySearchTree
namespace BinarySearchTree

theorem traverse_both (size : Nat) (a : Nat) (v : Int) (l r : Shape) (hl : TraverseSpec size l)
    (hr : TraverseSpec size r) (hnel : l ≠ Shape.nil) (hner : r ≠ Shape.nil) :
    TraverseSpec size (Shape.node a l v r) := by
  intro a0 pp m k cfl os hptr hent hk hk2
  cases hptr
  obtain ⟨⟨hc, hrl, hrr⟩, hnd, hbd, hut, hur⟩ := hent
  simp only [Shape.addrs, List.nodup_append, List.nodup_cons] at hnd
  obtain ⟨hndl, ⟨har, hndr⟩, hdisj⟩ := hnd
  have hal : a ∉ l.addrs := fun hm => hdisj hm (by simp)
  have hlr : ∀ x ∈ l.addrs, x ∉ r.addrs := fun x hx hx2 => hdisj hx (by simp [hx2])
  obtain ⟨la, hla⟩ : ∃ la, l.ptr = some la := by
    cases l with
    | nil => exact absurd rfl hnel
    | node b _ _ _ => exact ⟨b, rfl⟩
  obtain ⟨ra, hra⟩ : ∃ ra, r.ptr = some ra := by
    cases r with
    | nil => exact absurd rfl hner
    | node b _ _ _ => exact ⟨b, rfl⟩
  have hlam : la ∈ l.addrs := by
    cases l with
    | nil => cases hla
    | node b _ _ _ => cases hla; simp [Shape.addrs]
  have hram : ra ∈ r.addrs := by
    cases r with
    | nil => cases hra
    | node b _ _ _ => cases hra; simp [Shape.addrs]
  have hlnil : l.isNil = false := by
    cases l with
    | nil => exact absurd rfl hnel
    | node b _ _ _ => rfl
  have hrnil : r.isNil = false := by
    cases r with
    | nil => exact absurd rfl hner
    | node b _ _ _ => rfl
  have hres : (Shape.node a l v r).resets = l.resets + r.resets + 1 := by
    show l.resets + r.resets + (if (l.isNil && r.isNil) then 0 else 1) = _
    rw [hlnil]; simp
  have hresd : (Shape.node a l v r).residue = Shape.node a l.residue v Shape.nil := by
    show Shape.node a (if r.isNil then Shape.nil else l.residue) v Shape.nil = _
    rw [hrnil]; rfl
  rw [hres] at hk2
  have hlim := predU32_lt size
  -- the left subtree
  obtain ⟨j, m2, hrun, hv⟩ := visit_child size l hl a la _ m k true cfl os hla hc hal hrl hndl
    (fun x hx => hbd x (by simp [Shape.addrs, hx]))
    (fun x hx => hur x (by simp [Shape.addrs, hx]) (fun e => hal (e ▸ hx))) hut hk (by omega)
  have hc2 : m2.cells a = some { left := l.ptr, right := r.ptr, parent := pp, content := v } := by
    rw [hv.frame_cells a hal]; exact hc
  -- the right subtree
  obtain ⟨j2, m4, hrun2, hv2⟩ := visit_child size r hr a ra _ m2 (k + l.resets) false true os hra hc2
    har
    (repr_congr (fun x hx => hv.frame_cells x (fun hm => hlr x hm hx)) hrr) hndr
    (fun x hx => by rw [hv.fresh_eq]; exact hbd x (by simp [Shape.addrs, hx]))
    (fun x hx => by
      rw [hv.frame_uses x (fun hm => hlr x hm hx)]
      exact hur x (by simp [Shape.addrs, hx]) (fun e => har (e ▸ hx)))
    (by rw [hv.frame_uses a hal]; exact hut) (by omega) (by omega)
  have hc4 : m4.cells a = some { left := l.ptr, right := r.ptr, parent := pp, content := v } := by
    rw [hv2.frame_cells a har]; exact hc2
  have harr : a ∉ r.residue.addrs := fun hm => har (residue_addrs_subset r a hm)
  have hreset := drop_residue m4 a { left := l.ptr, right := none, parent := pp, content := v }
    r.residue hv2.repr (residue_nodup r hndr) hv2.uses_one harr
    (fun x hx => by
      rw [hv2.fresh_eq, hv.fresh_eq]
      exact hbd x (by simp [Shape.addrs, residue_addrs_subset r x hx]))
  rw [residue_ptr] at hreset
  obtain ⟨m5, hm5⟩ : ∃ m5, m5 = wipe
      { m4 with
        cells := setCell m4.cells a (some { left := l.ptr, right := none, parent := pp, content := v }) }
      r.residue.addrs := ⟨_, rfl⟩
  rw [← hm5] at hreset
  have hne : l.ptr ≠ some ra := by
    rw [hla]; intro e; cases e; exact hlr _ hlam hram
  refine ⟨j + 1 + j2 + 1, m5, false, fun fuel => ?_, ?_, ?_⟩
  · rw [show fuel + (j + 1 + j2 + 1) + 1 = (fuel + 1 + j2 + 1 + j) + 1 by omega,
      releaseLoop_step_move _ size _ (some la) true (Nat.ne_of_lt hk)
        (by simp [releaseStep, deref, hc, hla, bind, Except.bind]),
      hrun]
    simp only [hla, decide_True]
    rw [releaseLoop_step_move _ size _ (some ra) true (by simp; omega)
        (by simp [releaseStep, deref, hc2, hra, bind, Except.bind]),
      hrun2]
    simp only [hne, decide_False]
    rw [releaseLoop_step_climb fuel size _
      { mem := m5,
        walk := { current := some a, processed := k + l.resets + r.resets + 1, fromUp := false,
                  comingFromLeft := false, os := os } } (by simp; omega) ?_]
    · simp [hres, Nat.add_assoc]
    · simp only [releaseStep, deref, hc4, bind, Except.bind, Bool.false_eq_true, if_false,
        store_cell m4 a _ _ hc4, hreset]
      simp [incU32_lt (show k + l.resets + r.resets + 1 < 2 ^ 32 by omega)]
  · subst hm5
    rw [Swept_iff, hresd]
    have hsub := residue_addrs_subset l
    refine ⟨?_, ?_, ?_, ?_, ?_, ?_, ?_, ?_, ?_, ?_⟩
    · refine ⟨?_, ?_, trivial⟩
      · simp [wipe, setCell, harr, ptr_nil, residue_ptr]
      · refine repr_congr (fun x hx => ?_) hv.repr
        have h1 : x ∈ l.addrs := hsub x hx
        have h2 : x ≠ a := fun e => hal (e ▸ h1)
        have h3 : x ∉ r.residue.addrs := fun hm => hlr x h1 (residue_addrs_subset r x hm)
        simp only [wipe, h3, if_false, setCell, h2]
        exact hv2.frame_cells x (hlr x h1)
    · simp only [wipe, harr, if_false]
      rw [hv2.frame_uses a har, hv.frame_uses a hal]; exact hut
    · intro x hx hxa
      simp only [Shape.addrs, List.mem_append, List.mem_cons, List.not_mem_nil, or_false] at hx
      have h1 : x ∈ l.residue.addrs := by
        rcases hx with h | h
        · exact h
        · exact absurd h hxa
      have h3 : x ∉ r.residue.addrs := fun hm => hlr x (hsub x h1) (residue_addrs_subset r x hm)
      simp only [wipe, h3, if_false]
      rw [hv2.frame_uses x (hlr x (hsub x h1))]
      exact hv.uses_one x h1
    · intro x hx hx2
      simp only [Shape.addrs, List.mem_append, List.mem_cons, List.not_mem_nil, or_false,
        not_or] at hx hx2
      rcases hx with h | h | h
      · have h3 : x ∉ r.residue.addrs := fun hm => hlr x h (residue_addrs_subset r x hm)
        simp only [wipe, h3, if_false, setCell, hx2.2]
        rw [hv2.frame_cells x (hlr x h)]
        exact hv.dead x h hx2.1
      · exact absurd h hx2.2
      · by_cases hxr : x ∈ r.residue.addrs
        · simp [wipe, hxr]
        · simp only [wipe, hxr, if_false, setCell, hx2.2]
          exact hv2.dead x h hxr
    · intro x hx
      simp only [Shape.addrs, List.mem_append, List.mem_cons, not_or] at hx
      have hxr : x ∉ r.residue.addrs := fun hm => hx.2.2 (residue_addrs_subset r x hm)
      simp only [wipe, hxr, if_false, setCell, hx.2.1]
      rw [hv2.frame_cells x hx.2.2]
      exact hv.frame_cells x hx.1
    · intro x hx
      simp only [Shape.addrs, List.mem_append, List.mem_cons, not_or] at hx
      have hxr : x ∉ r.residue.addrs := fun hm => hx.2.2 (residue_addrs_subset r x hm)
      simp only [wipe, hxr, if_false]
      rw [hv2.frame_uses x hx.2.2]
      exact hv.frame_uses x hx.1
    · show m4.fresh = m.fresh
      rw [hv2.fresh_eq, hv.fresh_eq]
    · have h1 := hv.count
      have h2 := hv2.count
      simp only [wipe, Shape.size]
      rw [← size_eq_length]
      push_cast
      linarith
    · show m4.root = m.root
      rw [hv2.root_eq, hv.root_eq]
    · show m4.size = m.size
      rw [hv2.size_eq, hv.size_eq]
  · intro h; cases h

theorem traverse_spec (size : Nat) (t : Shape) : TraverseSpec size t := by
  induction t with
  | nil => intro a pp m k cfl os h; cases h
  | node a l v r ihl ihr =>
    by_cases hl : l = Shape.nil
    · by_cases hr : r = Shape.nil
      · subst hl hr; exact traverse_leaf size a v
      · subst hl; exact traverse_right size a v r ihr hr
    · by_cases hr : r = Shape.nil
      · subst hr; exact traverse_left size a v l ihl hl
      · exact traverse_both size a v l r ihl ihr hl hr

end BinarySearchTree
namespace BinarySearchTree

theorem setCell_self (cells : Nat → Option Node) (a : Nat) (nd : Node) (h : cells a = some nd) :
    setCell cells a (some nd) = cells := by
  funext b
  by_cases hb : b = a
  · subst hb; simp [setCell, h]
  · simp [setCell, hb]

theorem release_spin (size : Nat) (m : BinarySearchTree) (a : Nat) (nd : Node) (c : Bool)
    (os : String) (hc : m.cells a = some nd) (hp : nd.parent = none) (hr : nd.right = none)
    (hl : c = true → nd.left = none) :
    ∀ (j k : Nat), k + j = predU32 size → ∀ fuel,
      releaseLoop (fuel + j) size
          { mem := m, walk := { current := some a, processed := k, fromUp := false,
                                comingFromLeft := c, os := os } } =
        .ok { mem := m, walk := { current := some a, processed := predU32 size, fromUp := false,
                                  comingFromLeft := c, os := os } } := by
  have hlim := predU32_lt size
  obtain ⟨ndl, ndr, ndp, ndc⟩ := nd
  simp only at hp hr hl
  subst hp hr
  have hm : ({ m with
      cells := setCell m.cells a (some { left := ndl, right := none, parent := none, content := ndc }) } :
      BinarySearchTree) = m := by
    rw [setCell_self m.cells a _ hc]
  intro j
  induction j with
  | zero =>
    intro k hk fuel
    have hk2 : k = predU32 size := hk
    rw [hk2]
    exact releaseLoop_done _ _ _ rfl
  | succ j ih =>
    intro k hk fuel
    have hk1 : k ≠ predU32 size := by omega
    have hclimb : ∀ w : Walk, w.current = some a →
        climbOwning { mem := m, walk := w } = .ok { mem := m, walk := w } :=
      fun w hw => climbOwning_root { mem := m, walk := w } a _ hw hc rfl
    have hstep : releaseStep
        { mem := m, walk := { current := some a, processed := k, fromUp := false,
                              comingFromLeft := c, os := os } } =
        .ok { mem := m, walk := { current := some a, processed := k + 1, fromUp := false,
                                  comingFromLeft := c, os := os } } := by
      have hinc : incU32 k = k + 1 := incU32_lt (by omega)
      cases c with
      | true =>
        have hl2 := hl rfl
        subst hl2
        simp only [releaseStep, deref, hc, bind, Except.bind, Bool.false_eq_true, if_false,
          if_true, Option.isSome_none, store_cell m a _ _ hc, hm, drop, drop_none]
        rw [hclimb _ rfl, hinc]
      | false =>
        simp only [releaseStep, deref, hc, bind, Except.bind, Bool.false_eq_true, if_false,
          store_cell m a _ _ hc, hm, drop, drop_none]
        rw [hclimb _ rfl, hinc]
    rw [show fuel + (j + 1) = (fuel + j) + 1 by omega, releaseLoop_step _ _ _ _ hk1 hstep]
    exact ih (k + 1) (by omega) fuel

theorem predU32_pos {n : Nat} (h1 : 0 < n) (h2 : n < 2 ^ 32) : predU32 n = n - 1 := by
  simp only [predU32]
  rw [show n + 2 ^ 32 - 1 = (n - 1) + 2 ^ 32 by omega, Nat.add_mod_right]
  exact Nat.mod_eq_of_lt (by omega)

theorem resets_pos (a : Nat) (l r : Shape) (v : Int) (h : ¬ (l = Shape.nil ∧ r = Shape.nil)) :
    1 ≤ (Shape.node a l v r).resets := by
  show 1 ≤ l.resets + r.resets + (if (l.isNil && r.isNil) then 0 else 1)
  cases l with
  | nil =>
    cases r with
    | nil => exact absurd ⟨rfl, rfl⟩ h
    | node _ _ _ _ => simp [Shape.isNil]
  | node _ _ _ _ => simp [Shape.isNil]

/-- What the loop of `release` does when the destructor calls it on a
well-formed tree: it returns, `current` is back at the root, and of the tree
the residue is left. -/
theorem releaseLoop_root {s : BinarySearchTree} {a : Nat} {l r : Shape} {v : Int}
    (h : WellFormed s (Shape.node a l v r)) (hsz : (Shape.node a l v r).size < 2 ^ 32) :
    ∃ (n : Nat) (m2 : BinarySearchTree) (w2 : Walk), (∀ fuel, n ≤ fuel →
        releaseLoop fuel s.size (releaseInit s s.root) = .ok { mem := m2, walk := w2 }) ∧
      w2.current = some a ∧ w2.processed = predU32 s.size ∧
      Swept (acquire s (some a)) m2 (Shape.node a l v r) none a := by
  have hroot : s.root = some a := h.root_eq
  have hsize : s.size = (Shape.node a l v r).size := h.size_eq
  have hua : s.uses a = 1 := h.uses_one a (by simp [Shape.addrs])
  have hent : Entered (acquire s (some a)) (Shape.node a l v r) none a := by
    refine ⟨h.repr, h.nodup, h.bound, by simp [acquire, setUse, hua], ?_⟩
    intro x hx hxa
    simp [acquire, setUse, hxa, h.uses_one x hx]
  have hpos : 0 < (Shape.node a l v r).size := by simp [Shape.size]
  have hlim : predU32 s.size = (Shape.node a l v r).size - 1 := by
    rw [hsize]; exact predU32_pos hpos hsz
  by_cases hleaf : l = Shape.nil ∧ r = Shape.nil
  · obtain ⟨rfl, rfl⟩ := hleaf
    have h0 : predU32 s.size = 0 := by rw [hlim]; simp [Shape.size]
    refine ⟨0, acquire s (some a), (releaseInit s s.root).walk, fun fuel _ => ?_, ?_, ?_, ?_⟩
    · rw [releaseLoop_done _ _ _ (by simp [releaseInit, h0])]
      simp [releaseInit, hroot]
    · simp [releaseInit, hroot]
    · simp [releaseInit, h0]
    · rw [Swept_iff]
      have hresd : (Shape.node a Shape.nil v Shape.nil).residue = Shape.node a Shape.nil v Shape.nil :=
        rfl
      rw [hresd]
      exact ⟨hent.repr, hent.uses_top, hent.uses_rest, fun x hx1 hx2 => absurd hx1 hx2,
        fun _ _ => rfl, fun _ _ => rfl, rfl, rfl, rfl, rfl⟩
  · have hrs := resets_pos a l r v hleaf
    have hrl := resets_lt_size (Shape.node a l v r) (by simp)
    obtain ⟨n1, m2, c, hrun, hsw, hleft⟩ := traverse_spec s.size (Shape.node a l v r) a none
      (acquire s (some a)) 0 false "" rfl hent (by omega) (by omega)
    have hcell : m2.cells a = some
        { left := (if r.isNil then Shape.nil else l.residue).ptr, right := none, parent := none,
          content := v } := hsw.repr.1
    refine ⟨n1 + 1 + (predU32 s.size - (Shape.node a l v r).resets), m2,
      { current := some a, processed := predU32 s.size, fromUp := false, comingFromLeft := c,
        os := "" },
      fun fuel hf => ?_, rfl, rfl, hsw⟩
    · obtain ⟨f2, rfl⟩ : ∃ f2, fuel =
          (f2 + (predU32 s.size - (Shape.node a l v r).resets)) + n1 + 1 := ⟨fuel - (n1 + 1 +
            (predU32 s.size - (Shape.node a l v r).resets)), by omega⟩
      simp only [releaseInit, hroot]
      rw [hrun, afterClimbOwning, climbOwning_root _ a _ rfl hcell rfl]
      simp only [Nat.zero_add]
      exact release_spin s.size m2 a _ c "" hcell rfl rfl (fun hc => hleft hc _ hcell) _ _
        (by omega) f2

end BinarySearchTree
namespace BinarySearchTree

theorem tree_destructor_wf {s : BinarySearchTree} {t : Shape} (h : WellFormed s t)
    (hsz : t.size < 2 ^ 32) :
    ∃ n, ∀ fuel, n ≤ fuel → ∃ s2, destructor fuel s = .ok s2 ∧ (∀ x, s2.cells x = none) ∧
      s2.root = none ∧ s2.instanceCount = s.instanceCount - t.size := by
  cases t with
  | nil =>
    refine ⟨0, fun fuel _ => ⟨s, ?_, fun x => h.exact x (by simp [Shape.addrs]), h.root_eq, ?_⟩⟩
    · have : s.root = none := h.root_eq
      simp [destructor, this, pure, Except.pure]
    · simp [Shape.size]
  | node a l v r =>
    obtain ⟨n, m2, w2, hrun, hcur, -, hsw⟩ := releaseLoop_root h hsz
    have hroot : s.root = some a := h.root_eq
    have hsub := residue_addrs_subset (Shape.node a l v r)
    have hndr := residue_nodup _ h.nodup
    have hroot2 : m2.root = some a := by rw [hsw.root_eq]; simpa [acquire] using hroot
    have hfresh2 : m2.fresh = s.fresh := by rw [hsw.fresh_eq]; rfl
    have hdrop1 : drop m2 (some a) = .ok { m2 with uses := setUse m2.uses a (m2.uses a - 1) } :=
      drop_shared m2 a _ (by rw [hsw.uses_top]; omega)
    have hdrop2 := dropFuel_tree (Shape.node a l v r).residue
      { m2 with uses := setUse m2.uses a (m2.uses a - 1), root := none } none m2.fresh
      hsw.repr hndr
      (fun x hx => by
        by_cases hxa : x = a
        · subst hxa; simp [setUse, hsw.uses_top]
        · simp [setUse, hxa, hsw.uses_rest x hx hxa])
      (by
        rw [size_eq_length]
        rw [hfresh2]
        exact LinkedList.nodup_bounded_length hndr (fun x hx => h.bound x (hsub x hx)))
    rw [residue_ptr, ptr_node] at hdrop2
    refine ⟨n, fun fuel hf =>
      ⟨wipe { m2 with uses := setUse m2.uses a (m2.uses a - 1), root := none }
        (Shape.node a l v r).residue.addrs, ?_, ?_, ?_, ?_⟩⟩
    · have hrun2 := hrun fuel hf
      rw [hroot] at hrun2
      have hdrop1b : dropFuel m2.fresh m2 (some a) =
          .ok { m2 with uses := setUse m2.uses a (m2.uses a - 1) } := hdrop1
      simp only [destructor, hroot, Option.isSome_some, if_true, release, hrun2, bind,
        Except.bind, hcur, hdrop1b, hroot2, drop]
      exact hdrop2
    · intro x
      by_cases hx : x ∈ (Shape.node a l v r).residue.addrs
      · simp [wipe, hx]
      · simp only [wipe, hx, if_false]
        by_cases hx2 : x ∈ (Shape.node a l v r).addrs
        · exact hsw.dead x hx2 hx
        · rw [hsw.frame_cells x hx2]
          exact h.exact x hx2
    · rfl
    · have := hsw.count
      simp only [wipe, acquire] at this ⊢
      rw [← size_eq_length]
      linarith

/-- The root's parent link is never set, so it resolves to nothing. -/
theorem root_parent_unresolvable {s : BinarySearchTree} {t : Shape} (h : WellFormed s t) :
    ∀ a nd, s.root = some a → s.cells a = some nd → lock s nd.parent = none := by
  intro a nd hroot hc
  cases t with
  | nil => have := h.root_eq; rw [hroot] at this; cases this
  | node b l v r =>
    have := h.root_eq
    rw [hroot] at this
    cases this
    have h1 := h.repr.1
    rw [hc] at h1
    cases h1
    rfl

end BinarySearchTree
/-! ### The Ordered Tree: reading the tree from memory -/

namespace BinarySearchTree

theorem size_eq_inorder_length (t : Shape) : t.size = t.inorder.length := by
  induction t with
  | nil => rfl
  | node a l v r ihl ihr => simp [Shape.size, Shape.inorder, ihl, ihr]; omega

theorem payloadsFuel_repr (s : BinarySearchTree) (t : Shape) :
    ∀ (pp : Option Nat) (fuel : Nat), Repr s.cells pp t → t.size ≤ fuel →
      payloadsFuel fuel s t.ptr = .ok t.inorder := by
  induction t with
  | nil => intro pp fuel _ _; cases fuel <;> rfl
  | node a l v r ihl ihr =>
    intro pp fuel hr hf
    obtain ⟨hc, hl, hrr⟩ := hr
    cases fuel with
    | zero => simp [Shape.size] at hf
    | succ fuel =>
      simp only [Shape.size] at hf
      have h1 := ihl (some a) fuel hl (by omega)
      have h2 := ihr (some a) fuel hrr (by omega)
      simp [payloadsFuel, ptr_node, deref, hc, h1, h2, bind, Except.bind, pure, Except.pure,
        Shape.inorder]

/-- What memory holds at a node of a represented tree: its cell, the subtrees
its links own, and the order between the node and its subtrees. -/
theorem repr_lookup (cells : Nat → Option Node) (t : Shape) :
    ∀ (pp : Option Nat) (a : Nat), Repr cells pp t → a ∈ t.addrs →
      ∃ l v r pa, cells a = some { left := l.ptr, right := r.ptr, parent := pa, content := v } ∧
        Repr cells (some a) l ∧ Repr cells (some a) r ∧ l.size < t.size ∧ r.size < t.size ∧
        (a ∈ t.ptr → pa = pp) ∧
        (t.Ordered → (∀ x ∈ l.inorder, x < v) ∧ (∀ x ∈ r.inorder, v < x)) := by
  induction t with
  | nil => intro pp a _ ha; simp [Shape.addrs] at ha
  | node b l v r ihl ihr =>
    intro pp a hr ha
    obtain ⟨hc, hl, hrr⟩ := hr
    simp only [Shape.addrs, List.mem_append, List.mem_cons] at ha
    rcases ha with ha | rfl | ha
    · obtain ⟨l2, v2, r2, pa, e1, e2, e3, e4, e5, -, e6⟩ := ihl (some b) a hl ha
      refine ⟨l2, v2, r2, pa, e1, e2, e3, by simp only [Shape.size]; omega,
        by simp only [Shape.size]; omega, ?_, fun ho => e6 ho.2.2.1⟩
      intro hm
      simp only [ptr_node, Option.mem_def, Option.some.injEq] at hm
      subst hm
      have e := e1.symm.trans hc
      simp only [Option.some.injEq, Node.mk.injEq] at e
      exact e.2.2.1
    · exact ⟨l, v, r, pp, hc, hl, hrr, by simp only [Shape.size]; omega,
        by simp only [Shape.size]; omega, fun _ => rfl, fun ho => ⟨ho.1, ho.2.1⟩⟩
    · obtain ⟨l2, v2, r2, pa, e1, e2, e3, e4, e5, -, e6⟩ := ihr (some b) a hrr ha
      refine ⟨l2, v2, r2, pa, e1, e2, e3, by simp only [Shape.size]; omega,
        by simp only [Shape.size]; omega, ?_, fun ho => e6 ho.2.2.2⟩
      intro hm
      simp only [ptr_node, Option.mem_def, Option.some.injEq] at hm
      subst hm
      have e := e1.symm.trans hc
      simp only [Option.some.injEq, Node.mk.injEq] at e
      exact e.2.2.1

theorem wf_live_mem_tree {s : BinarySearchTree} {t : Shape} (h : WellFormed s t) {a : Nat}
    {nd : Node} (hc : s.cells a = some nd) : a ∈ t.addrs := by
  by_contra hn
  rw [h.exact a hn] at hc
  cases hc

theorem repr_cells_unique {c1 c2 : Nat → Option Node} (t : Shape) :
    ∀ (pp : Option Nat), Repr c1 pp t → Repr c2 pp t → ∀ a ∈ t.addrs, c2 a = c1 a := by
  induction t with
  | nil => intro pp _ _ a ha; simp [Shape.addrs] at ha
  | node b l v r ihl ihr =>
    intro pp h1 h2 a ha
    simp only [Shape.addrs, List.mem_append, List.mem_cons] at ha
    rcases ha with ha | rfl | ha
    · exact ihl (some b) h1.2.1 h2.2.1 a ha
    · rw [h1.1, h2.1]
    · exact ihr (some b) h1.2.2 h2.2.2 a ha

theorem wf_cells_unique {s s2 : BinarySearchTree} {t : Shape} (h : WellFormed s t)
    (h2 : WellFormed s2 t) : s2.cells = s.cells := by
  funext a
  by_cases ha : a ∈ t.addrs
  · exact repr_cells_unique t none h.repr h2.repr a ha
  · rw [h.exact a ha, h2.exact a ha]

theorem locate_of_mem (i : Int) (t : Shape) (prev : Option Nat) (ho : t.Ordered)
    (hm : i ∈ t.inorder) : ∃ c, (t.locate i prev).1 = some c := by
  induction t generalizing prev with
  | nil => simp [Shape.inorder] at hm
  | node a l v r ihl ihr =>
    obtain ⟨h1, h2, h3, h4⟩ := ho
    simp only [Shape.inorder, List.mem_append, List.mem_cons] at hm
    simp only [Shape.locate]
    by_cases hlt : i < v
    · simp only [hlt, if_true]
      rcases hm with hm | hm | hm
      · exact ihl (some a) h3 hm
      · omega
      · have := h2 i hm; omega
    · by_cases hgt : v < i
      · simp only [hlt, hgt, if_true, if_false]
        rcases hm with hm | hm | hm
        · have := h1 i hm; omega
        · omega
        · exact ihr (some a) h4 hm
      · simp only [hlt, hgt, if_false]
        exact ⟨a, rfl⟩

theorem locate_some_mem (i : Int) (t : Shape) (prev : Option Nat) (c : Nat)
    (h : (t.locate i prev).1 = some c) : i ∈ t.inorder := by
  induction t generalizing prev with
  | nil => simp [Shape.locate] at h
  | node a l v r ihl ihr =>
    simp only [Shape.locate] at h
    simp only [Shape.inorder, List.mem_append, List.mem_cons]
    by_cases hlt : i < v
    · simp only [hlt, if_true] at h
      exact Or.inl (ihl (some a) h)
    · by_cases hgt : v < i
      · simp only [hlt, hgt, if_true, if_false] at h
        exact Or.inr (Or.inr (ihr (some a) h))
      · exact Or.inr (Or.inl (by omega))

end BinarySearchTree
namespace BinarySearchTree

theorem locate_insert_self (f : Nat) (i : Int) (t : Shape) (prev : Option Nat) :
    ∃ c, ((t.insert f i).locate i prev).1 = some c := by
  induction t generalizing prev with
  | nil => exact ⟨f, by simp [Shape.insert, Shape.locate]⟩
  | node a l v r ihl ihr =>
    simp only [Shape.insert]
    by_cases hlt : i < v
    · simp only [hlt, if_true, Shape.locate]
      exact ihl (some a)
    · by_cases hgt : v < i
      · simp only [hlt, hgt, if_true, if_false, Shape.locate]
        exact ihr (some a)
      · simp only [hlt, hgt, if_false, Shape.locate]
        exact ⟨a, rfl⟩

/-- Insertion of a payload that the descent finds leaves memory, `root`, `size`
and `instanceCount` as they were. -/
theorem addToEnd_found_same {s : BinarySearchTree} {t : Shape} (i : Int) (h : WellFormed s t)
    (c : Nat) (hloc : (t.locate i none).1 = some c) :
    ∃ s2, addToEnd s i = .ok s2 ∧ WellFormed s2 t ∧ s2.cells = s.cells ∧ s2.root = s.root ∧
      s2.size = s.size ∧ s2.instanceCount = s.instanceCount ∧ s2.fresh = s.fresh + 1 := by
  obtain ⟨s2, e, hwf, hfr, hic⟩ := addToEnd_found i h c hloc
  exact ⟨s2, e, hwf, wf_cells_unique h hwf, by rw [hwf.root_eq, h.root_eq],
    by rw [hwf.size_eq, h.size_eq], hic, hfr⟩

/-- The tree that a list of fewer than `2 ^ 32` insertions builds from the empty
tree: memory holds the shape that binary-search-tree insertion gives, and that
shape is ordered. -/
theorem built_tree (vs : List Int) (hlen : vs.length < 2 ^ 32) :
    ∃ s, addAll empty vs = .ok s ∧ WellFormed s (Shape.build .nil 0 vs) ∧
      (Shape.build .nil 0 vs).Ordered ∧ (Shape.build .nil 0 vs).size ≤ vs.length ∧
      s.fresh = vs.length ∧ s.instanceCount = (Shape.build .nil 0 vs).size := by
  obtain ⟨s, h1, hwf, hfr, hic⟩ := addAll_tree_wf vs tree_wf_empty (by simpa [Shape.size] using hlen)
  have hsz := build_size_le .nil 0 vs
  simp only [Shape.size, Nat.zero_add] at hsz
  refine ⟨s, h1, hwf, build_ordered _ _ _ (by simp [Shape.Ordered]), hsz, by simpa [empty] using hfr, ?_⟩
  have := hic
  simp only [Shape.size, empty] at this ⊢
  push_cast at this
  linarith

theorem ptr_eq_none_iff (t : Shape) : t.ptr = none ↔ t.size = 0 := by
  cases t with
  | nil => simp [Shape.ptr, Shape.size]
  | node a l v r => simp [Shape.ptr, Shape.size]

end BinarySearchTree
namespace BinarySearchTree

theorem chain_insert (f : Nat) (pre : List Int) (i : Int) (h : ∀ x ∈ pre, x < i) :
    (Shape.chain f pre).insert (f + pre.length) i = Shape.chain f (pre ++ [i]) := by
  induction pre generalizing f with
  | nil => simp [Shape.chain, Shape.insert]
  | cons v pre ih =>
    have hv : v < i := h v (by simp)
    have hnv : ¬ i < v := by omega
    have := ih (f + 1) (fun x hx => h x (by simp [hx]))
    show (Shape.node f Shape.nil v (Shape.chain (f + 1) pre)).insert (f + (pre.length + 1)) i =
      Shape.node f Shape.nil v (Shape.chain (f + 1) (pre ++ [i]))
    simp only [Shape.insert, hnv, hv, if_true, if_false]
    rw [show f + (pre.length + 1) = f + 1 + pre.length by omega, this]

theorem build_chain (f : Nat) (pre vs : List Int) (h : (pre ++ vs).Sorted (· < ·)) :
    Shape.build (Shape.chain f pre) (f + pre.length) vs = Shape.chain f (pre ++ vs) := by
  induction vs generalizing pre with
  | nil => simp [Shape.build]
  | cons v vs ih =>
    have hlt : ∀ x ∈ pre, x < v := by
      intro x hx
      have := List.pairwise_append.1 h
      exact this.2.2 x hx v (by simp)
    have h2 : (pre ++ [v] ++ vs).Sorted (· < ·) := by simpa using h
    have := ih (pre ++ [v]) h2
    simp only [Shape.build]
    rw [chain_insert f pre v hlt]
    simp only [List.length_append, List.length_singleton, List.append_assoc, List.singleton_append]
      at this
    rw [show f + pre.length + 1 = f + (pre.length + 1) by omega]
    exact this

theorem chain_addrs (f : Nat) (vs : List Int) :
    (Shape.chain f vs).addrs = List.range' f vs.length := by
  induction vs generalizing f with
  | nil => rfl
  | cons v vs ih => simp [Shape.chain, Shape.addrs, ih, List.range'_succ]

theorem chain_ptr (f : Nat) (vs : List Int) :
    (Shape.chain f vs).ptr = if 0 < vs.length then some f else none := by
  cases vs <;> simp [Shape.chain, Shape.ptr]

theorem repr_chain (cells : Nat → Option Node) (f : Nat) (vs : List Int) (pp : Option Nat)
    (h : Repr cells pp (Shape.chain f vs)) :
    ∀ k (hk : k < vs.length), cells (f + k) = some
      { left := none,
        right := if k + 1 < vs.length then some (f + k + 1) else none,
        parent := if k = 0 then pp else some (f + k - 1),
        content := vs.get ⟨k, hk⟩ } := by
  induction vs generalizing f pp with
  | nil => intro k hk; simp at hk
  | cons v vs ih =>
    intro k hk
    obtain ⟨hc, -, hr⟩ := h
    cases k with
    | zero =>
      simp only [Nat.add_zero, hc, ptr_nil, chain_ptr, List.length_cons, Nat.zero_add]
      simp
    | succ k =>
      have := ih (f + 1) (some f) hr k (by simpa using hk)
      rw [show f + (k + 1) = f + 1 + k by omega, this]
      simp only [List.length_cons, List.get_cons_succ, Nat.add_lt_add_iff_right]
      congr 2
      by_cases hk0 : k = 0
      · subst hk0; simp
      · simp [hk0]

theorem heightFuel_chain (s : BinarySearchTree) (f : Nat) (vs : List Int) (pp : Option Nat)
    (fuel : Nat) (h : Repr s.cells pp (Shape.chain f vs)) (hf : vs.length ≤ fuel) :
    heightFuel fuel s (Shape.chain f vs).ptr = .ok vs.length := by
  induction vs generalizing f pp fuel with
  | nil => cases fuel <;> rfl
  | cons v vs ih =>
    obtain ⟨hc, -, hr⟩ := h
    cases fuel with
    | zero => simp at hf
    | succ fuel =>
      have := ih (f + 1) (some f) fuel hr (by simpa using hf)
      have h0 : heightFuel fuel s none = .ok 0 := by cases fuel <;> rfl
      simp [Shape.chain, ptr_node, heightFuel, deref, hc, ptr_nil, h0, this, bind, Except.bind,
        pure, Except.pure]

end BinarySearchTree
/-! ### The Ordered Tree: teardown on a call stack of bounded depth -/

namespace BinarySearchTree

theorem sim_refl {α : Type} (a : Except Fault α) : Sim a a := Or.inl rfl

theorem sim_bind {α β : Type} {a b : Except Fault α} {f g : α → Except Fault β}
    (h : Sim a b) (hf : ∀ x, Sim (f x) (g x)) : Sim (a >>= f) (b >>= g) := by
  rcases h with h | h | h
  · subst h
    cases a with
    | error e => exact Or.inl rfl
    | ok x => exact hf x
  · subst h
    exact Or.inr (Or.inl rfl)
  · subst h
    exact Or.inr (Or.inr rfl)

theorem sim_ok {α : Type} {a : Except Fault α} {x : α} (h : Sim a (.ok x)) :
    a = .ok x ∨ a = .error .stackOverflow := by
  rcases h with h | h | h
  · exact Or.inl h
  · exact Or.inr h
  · cases h

/-- Two nesting depths give the same release unless one of them is used up. -/
theorem dropFuel_compare (d : Nat) :
    ∀ (d2 : Nat) (s : BinarySearchTree) (p : Option Nat),
      dropFuel d s p = dropFuel d2 s p ∨ dropFuel d s p = .error .outOfFuel ∨
        dropFuel d2 s p = .error .outOfFuel := by
  induction d with
  | zero =>
    intro d2 s p
    cases p with
    | none => left; cases d2 <;> rfl
    | some a =>
      by_cases hu : 1 < s.uses a
      · left; cases d2 <;> simp [dropFuel, hu]
      · right; left; simp [dropFuel, hu]
  | succ d ih =>
    intro d2 s p
    cases p with
    | none => left; cases d2 <;> rfl
    | some a =>
      by_cases hu : 1 < s.uses a
      · left; cases d2 <;> simp [dropFuel, hu]
      · cases d2 with
        | zero => right; right; simp [dropFuel, hu]
        | succ d2 =>
          simp only [dropFuel, hu, if_false]
          cases hc : s.cells a with
          | none => left; rfl
          | some n =>
            simp only
            obtain ⟨s1, hs1⟩ : ∃ s1 : BinarySearchTree, s1 =
                { s with
                  uses := setUse s.uses a 0,
                  cells := setCell s.cells a none,
                  instanceCount := s.instanceCount - 1 } := ⟨_, rfl⟩
            rw [← hs1]
            rcases ih d2 s1 n.right with h | h | h
            · rw [h]
              cases hr : dropFuel d2 s1 n.right with
              | error e => left; rfl
              | ok s2 => exact ih d2 s2 n.left
            · rw [h]; right; left; rfl
            · rw [h]; right; right; rfl

theorem sim_drop (stack : Nat) (s : BinarySearchTree) (p : Option Nat) :
    Sim (dropWithin stack s p) (drop s p) := by
  unfold dropWithin drop
  rcases dropFuel_compare stack s.fresh s p with h | h | h
  · cases hd : dropFuel stack s p with
    | ok s2 => left; rw [← h, hd]
    | error e =>
      cases e with
      | outOfFuel => right; left; rfl
      | nullDeref => left; rw [← h, hd]
      | deadAccess => left; rw [← h, hd]
      | assertFailed => left; rw [← h, hd]
      | stackOverflow => left; rw [← h, hd]
  · rw [h]; right; left; rfl
  · right; right; exact h

theorem sim_assignLocal (stack : Nat) (s : BinarySearchTree) (old v : Option Nat) :
    Sim (assignLocalWithin stack s old v) (assignLocal s old v) :=
  sim_drop stack (acquire s v) old

theorem sim_climbOwning (stack : Nat) (r : Run) :
    Sim (climbOwningWithin stack r) (climbOwning r) := by
  unfold climbOwningWithin climbOwning
  refine sim_bind (sim_refl _) (fun cn => ?_)
  cases hl : lock r.mem cn.parent with
  | none => exact sim_refl _
  | some p =>
    simp only
    refine sim_bind (sim_refl _) (fun pn => ?_)
    refine sim_bind (sim_assignLocal _ _ _ _) (fun m2 => ?_)
    exact sim_bind (sim_drop _ _ _) (fun m3 => sim_refl _)

theorem sim_moveTo (stack : Nat) (r : Run) (v : Option Nat) (fu : Bool) :
    Sim (moveToWithin stack r v fu) (moveTo r v fu) := by
  unfold moveToWithin moveTo
  exact sim_bind (sim_assignLocal _ _ _ _) (fun m1 => sim_refl _)

theorem sim_releaseStep (stack : Nat) (r : Run) :
    Sim (releaseStepWithin stack r) (releaseStep r) := by
  unfold releaseStepWithin releaseStep
  refine sim_bind (sim_refl _) (fun cn => ?_)
  split_ifs
  · exact sim_moveTo _ _ _ _
  · exact sim_climbOwning _ _
  · exact sim_moveTo _ _ _ _
  · exact sim_moveTo _ _ _ _
  · refine sim_bind (sim_refl _) (fun m1 => ?_)
    exact sim_bind (sim_drop _ _ _) (fun m2 => sim_climbOwning _ _)
  · refine sim_bind (sim_refl _) (fun m1 => ?_)
    exact sim_bind (sim_drop _ _ _) (fun m2 => sim_climbOwning _ _)

theorem sim_releaseLoop (stack : Nat) (size : Nat) (fuel : Nat) :
    ∀ r, Sim (releaseLoopWithin stack fuel size r) (releaseLoop fuel size r) := by
  induction fuel with
  | zero =>
    intro r
    unfold releaseLoopWithin releaseLoop
    exact sim_refl _
  | succ fuel ih =>
    intro r
    unfold releaseLoopWithin releaseLoop
    by_cases hp : r.walk.processed = predU32 size
    · simp only [hp, if_true]; exact sim_refl _
    · simp only [hp, if_false]
      rcases sim_releaseStep stack r with h | h | h
      · rw [h]
        cases hs : releaseStep r with
        | error e => exact sim_refl _
        | ok r1 => exact ih r1
      · rw [h]; exact Or.inr (Or.inl rfl)
      · rw [h]; exact Or.inr (Or.inr rfl)

theorem sim_release (stack fuel : Nat) (s : BinarySearchTree) (current : Option Nat)
    (size : Nat) : Sim (releaseWithin stack fuel s current size) (release fuel s current size) := by
  unfold releaseWithin release
  exact sim_bind (sim_releaseLoop _ _ _ _) (fun r => sim_drop _ _ _)

end BinarySearchTree
namespace BinarySearchTree

/-- A cascade that starts at the top of a subtree whose nodes have no other
owner destroys the subtree when the nesting depth covers its height. -/
theorem dropFuel_height (t : Shape) :
    ∀ (m : BinarySearchTree) (pp : Option Nat) (fuel : Nat), Repr m.cells pp t → t.addrs.Nodup →
      (∀ x ∈ t.addrs, m.uses x = 1) → t.height ≤ fuel →
      dropFuel fuel m t.ptr = .ok (wipe m t.addrs) := by
  induction t with
  | nil => intro m pp fuel _ _ _ _; simp [ptr_nil, drop_none, Shape.addrs, wipe_nil]
  | node a l v r ihl ihr =>
    intro m pp fuel hrepr hnd hu hf
    obtain ⟨hc, hl, hr⟩ := hrepr
    simp only [Shape.addrs, List.nodup_append, List.nodup_cons] at hnd
    obtain ⟨hndl, ⟨har, hndr⟩, hdisj⟩ := hnd
    have hal : a ∉ l.addrs := fun hm => hdisj hm (by simp)
    have hlr : ∀ b ∈ l.addrs, b ∉ r.addrs := fun b hb hb2 => hdisj hb (by simp [hb2])
    simp only [Shape.height] at hf
    cases fuel with
    | zero => omega
    | succ fuel =>
      have hua : ¬ 1 < m.uses a := by rw [hu a (by simp [Shape.addrs])]; omega
      have e1 := ihr
        { m with
          uses := setUse m.uses a 0, cells := setCell m.cells a none,
          instanceCount := m.instanceCount - 1 } (some a) fuel
        (repr_congr (fun b hb => by
          have : b ≠ a := fun e => har (e ▸ hb)
          simp [setCell, this]) hr) hndr
        (fun b hb => by
          have : b ≠ a := fun e => har (e ▸ hb)
          simp [setUse, this, hu b (by simp [Shape.addrs, hb])]) (by omega)
      have e2 := ihl
        (wipe
          { m with
            uses := setUse m.uses a 0, cells := setCell m.cells a none,
            instanceCount := m.instanceCount - 1 } r.addrs) (some a) fuel
        (repr_congr (fun b hb => by
          have h1 : b ≠ a := fun e => hal (e ▸ hb)
          simp [wipe, setCell, h1, hlr b hb]) hl) hndl
        (fun b hb => by
          have h1 : b ≠ a := fun e => hal (e ▸ hb)
          simp [wipe, setUse, h1, hlr b hb, hu b (by simp [Shape.addrs, hb])]) (by omega)
      simp only [ptr_node, dropFuel, hua, if_false, hc, e1, e2]
      congr 1
      simp only [wipe, Shape.addrs]
      congr 1
      · funext b
        by_cases h1 : b = a
        · subst h1; simp [setCell]
        · by_cases h2 : b ∈ l.addrs
          · simp [h2]
          · by_cases h3 : b ∈ r.addrs
            · simp [h3]
            · simp [h1, h2, h3, setCell]
      · funext b
        by_cases h1 : b = a
        · subst h1; simp [setUse]
        · by_cases h2 : b ∈ l.addrs
          · simp [h2]
          · by_cases h3 : b ∈ r.addrs
            · simp [h3]
            · simp [h1, h2, h3, setUse]
      · simp; ring

/-- A cascade that starts at the top of a subtree whose nodes have no other
owner uses up every nesting depth below the height of the subtree. -/
theorem dropFuel_deep (t : Shape) :
    ∀ (m : BinarySearchTree) (pp : Option Nat) (d : Nat), Repr m.cells pp t → t.addrs.Nodup →
      (∀ x ∈ t.addrs, m.uses x = 1) → d < t.height →
      dropFuel d m t.ptr = .error .outOfFuel := by
  induction t with
  | nil => intro m pp d _ _ _ hd; simp [Shape.height] at hd
  | node a l v r ihl ihr =>
    intro m pp d hrepr hnd hu hd
    obtain ⟨hc, hl, hr⟩ := hrepr
    simp only [Shape.addrs, List.nodup_append, List.nodup_cons] at hnd
    obtain ⟨hndl, ⟨har, hndr⟩, hdisj⟩ := hnd
    have hal : a ∉ l.addrs := fun hm => hdisj hm (by simp)
    have hlr : ∀ b ∈ l.addrs, b ∉ r.addrs := fun b hb hb2 => hdisj hb (by simp [hb2])
    simp only [Shape.height] at hd
    have hua : ¬ 1 < m.uses a := by rw [hu a (by simp [Shape.addrs])]; omega
    cases d with
    | zero => simp [ptr_node, dropFuel, hua]
    | succ d =>
      obtain ⟨m1, hm1⟩ : ∃ m1 : BinarySearchTree, m1 =
          { m with
            uses := setUse m.uses a 0, cells := setCell m.cells a none,
            instanceCount := m.instanceCount - 1 } := ⟨_, rfl⟩
      have hr1 : Repr m1.cells (some a) r := repr_congr (fun b hb => by
        have : b ≠ a := fun e => har (e ▸ hb)
        simp [hm1, setCell, this]) hr
      have hu1 : ∀ b ∈ r.addrs, m1.uses b = 1 := fun b hb => by
        have : b ≠ a := fun e => har (e ▸ hb)
        simp [hm1, setUse, this, hu b (by simp [Shape.addrs, hb])]
      simp only [ptr_node, dropFuel, hua, if_false, hc]
      rw [← hm1]
      by_cases hdr : d < r.height
      · rw [ihr m1 (some a) d hr1 hndr hu1 hdr]
      · rw [dropFuel_height r m1 (some a) d hr1 hndr hu1 (by omega)]
        simp only
        refine ihl (wipe m1 r.addrs) (some a) d ?_ hndl ?_ (by omega)
        · exact repr_congr (fun b hb => by
            have h1 : b ≠ a := fun e => hal (e ▸ hb)
            simp [wipe, hm1, setCell, h1, hlr b hb]) hl
        · intro b hb
          have h1 : b ≠ a := fun e => hal (e ▸ hb)
          simp [wipe, hm1, setUse, h1, hlr b hb, hu b (by simp [Shape.addrs, hb])]

/-- What `release(root, size)` leaves when the stack is deep enough: the residue
of the tree, each node of it owned by its link alone. -/
theorem release_residue {s : BinarySearchTree} {a : Nat} {l r : Shape} {v : Int}
    (h : WellFormed s (Shape.node a l v r)) (hsz : (Shape.node a l v r).size < 2 ^ 32) :
    ∃ n, ∀ fuel, n ≤ fuel → ∃ s1, release fuel s s.root s.size = .ok s1 ∧ s1.root = some a ∧
      Repr s1.cells none (Shape.node a l v r).residue ∧
      (∀ x ∈ (Shape.node a l v r).residue.addrs, s1.uses x = 1) := by
  obtain ⟨n, m2, w2, hrun, hcur, -, hsw⟩ := releaseLoop_root h hsz
  have hroot : s.root = some a := h.root_eq
  have hroot2 : m2.root = some a := by rw [hsw.root_eq]; simpa [acquire] using hroot
  have hdrop1 : dropFuel m2.fresh m2 (some a) =
      .ok { m2 with uses := setUse m2.uses a (m2.uses a - 1) } :=
    drop_shared m2 a _ (by rw [hsw.uses_top]; omega)
  refine ⟨n, fun fuel hf => ⟨{ m2 with uses := setUse m2.uses a (m2.uses a - 1) }, ?_, hroot2,
    hsw.repr, ?_⟩⟩
  · have hrun2 := hrun fuel hf
    rw [hroot] at hrun2
    simp only [release, hroot, hrun2, bind, Except.bind, hcur, drop, hdrop1]
  · intro x hx
    by_cases hxa : x = a
    · subst hxa; simp [setUse, hsw.uses_top]
    · simp [setUse, hxa, hsw.uses_rest x hx hxa]

/-- On a call stack that is less deep than the residue of the tree is high, the
destructor overflows the stack: what `release` leaves is destroyed by the nested
destructor calls that `root.reset()` sets off. -/
theorem destructorWithin_overflow {s : BinarySearchTree} {t : Shape} (h : WellFormed s t)
    (hsz : t.size < 2 ^ 32) (stack : Nat) (hd : stack < t.residue.height) :
    ∃ n, ∀ fuel, n ≤ fuel → destructorWithin stack fuel s = .error .stackOverflow := by
  cases t with
  | nil => simp [Shape.residue, Shape.height] at hd
  | node a l v r =>
    obtain ⟨n, hn⟩ := release_residue h hsz
    refine ⟨n, fun fuel hf => ?_⟩
    obtain ⟨s1, e1, hr1, hrepr, hu⟩ := hn fuel hf
    have hroot : s.root = some a := h.root_eq
    have hsim := sim_release stack fuel s s.root s.size
    rw [e1] at hsim
    simp only [destructorWithin, hroot, Option.isSome_some, if_true]
    rw [← hroot]
    rcases sim_ok hsim with e | e
    · rw [e]
      simp only [bind, Except.bind, hr1]
      have := dropFuel_deep _ { s1 with root := none } none stack hrepr
        (residue_nodup _ h.nodup) hu hd
      rw [residue_ptr, ptr_node] at this
      simp [dropWithin, this]
    · rw [e]
      rfl

end BinarySearchTree
namespace BinarySearchTree

theorem build_right (a : Nat) (l r : Shape) (v : Int) (f : Nat) (vs : List Int)
    (h : ∀ x ∈ vs, v < x) :
    Shape.build (Shape.node a l v r) f vs = Shape.node a l v (Shape.build r f vs) := by
  induction vs generalizing r f with
  | nil => rfl
  | cons x vs ih =>
    have hx : v < x := h x (by simp)
    have hnx : ¬ x < v := by omega
    simp only [Shape.build, Shape.insert, hx, hnx, if_true, if_false]
    exact ih _ _ (fun y hy => h y (by simp [hy]))

theorem plugLeft_nil_left (u : Shape) : Shape.plugLeft Shape.nil u = u := rfl

theorem plugLeft_node (a : Nat) (l r u : Shape) (v : Int) :
    Shape.plugLeft (Shape.node a l v r) u = Shape.node a (Shape.plugLeft l u) v r := rfl

theorem plugLeft_assoc (t u w : Shape) :
    Shape.plugLeft (Shape.plugLeft t u) w = Shape.plugLeft t (Shape.plugLeft u w) := by
  induction t with
  | nil => rfl
  | node a l v r ihl _ => simp only [plugLeft_node, ihl]

theorem leftAbove_mono {t : Shape} {b c : Int} (h : Shape.LeftAbove t b) (hc : c ≤ b) :
    Shape.LeftAbove t c := by
  induction t with
  | nil => trivial
  | node a l v r ihl _ => exact ⟨by have := h.1; omega, ihl h.2⟩

theorem leftAbove_plug {t u : Shape} {b : Int} (ht : Shape.LeftAbove t b)
    (hu : Shape.LeftAbove u b) : Shape.LeftAbove (Shape.plugLeft t u) b := by
  induction t with
  | nil => exact hu
  | node a l v r ihl _ => exact ⟨ht.1, ihl ht.2⟩

theorem insert_plugLeft (f : Nat) (x : Int) (t u : Shape) (h : Shape.LeftAbove t x) :
    (Shape.plugLeft t u).insert f x = Shape.plugLeft t (u.insert f x) := by
  induction t with
  | nil => rfl
  | node a l v r ihl _ =>
    have hx : x < v := h.1
    simp only [plugLeft_node, Shape.insert, hx, if_true, ihl h.2]

theorem build_comb (k : Nat) :
    ∀ (t : Shape) (f : Nat), Shape.LeftAbove t ((2 * k + 1 : Nat) : Int) →
      Shape.build (Shape.plugLeft t Shape.nil) f (combValues k) =
        Shape.plugLeft t (Shape.comb f k) := by
  induction k with
  | zero => intro t f _; rfl
  | succ k ih =>
    intro t f ht
    have hA : Shape.LeftAbove t ((2 * (k + 1) : Nat) : Int) :=
      leftAbove_mono ht (by push_cast; omega)
    have hB : Shape.LeftAbove t ((2 * (k + 1) + 1 : Nat) : Int) := ht
    have hAB : ((2 * (k + 1) : Nat) : Int) < ((2 * (k + 1) + 1 : Nat) : Int) := by
      push_cast; omega
    have hnBA : ¬ ((2 * (k + 1) + 1 : Nat) : Int) < ((2 * (k + 1) : Nat) : Int) := by omega
    have h1 : (Shape.plugLeft t Shape.nil).insert f ((2 * (k + 1) : Nat) : Int) =
        Shape.plugLeft t (Shape.node f Shape.nil ((2 * (k + 1) : Nat) : Int) Shape.nil) := by
      rw [insert_plugLeft f _ t Shape.nil hA]; rfl
    have h2 : (Shape.plugLeft t (Shape.node f Shape.nil ((2 * (k + 1) : Nat) : Int)
        Shape.nil)).insert (f + 1) ((2 * (k + 1) + 1 : Nat) : Int) =
        Shape.plugLeft t (Shape.node f Shape.nil ((2 * (k + 1) : Nat) : Int)
          (Shape.node (f + 1) Shape.nil ((2 * (k + 1) + 1 : Nat) : Int) Shape.nil)) := by
      rw [insert_plugLeft (f + 1) _ t _ hB]
      simp only [Shape.insert, hAB, hnBA, if_true, if_false]
    have h3 : Shape.plugLeft t (Shape.node f Shape.nil ((2 * (k + 1) : Nat) : Int)
          (Shape.node (f + 1) Shape.nil ((2 * (k + 1) + 1 : Nat) : Int) Shape.nil)) =
        Shape.plugLeft (Shape.plugLeft t (Shape.node f Shape.nil ((2 * (k + 1) : Nat) : Int)
          (Shape.node (f + 1) Shape.nil ((2 * (k + 1) + 1 : Nat) : Int) Shape.nil)))
          Shape.nil := by
      rw [plugLeft_assoc]; rfl
    have hT : Shape.LeftAbove (Shape.plugLeft t (Shape.node f Shape.nil
        ((2 * (k + 1) : Nat) : Int)
        (Shape.node (f + 1) Shape.nil ((2 * (k + 1) + 1 : Nat) : Int) Shape.nil)))
        ((2 * k + 1 : Nat) : Int) := by
      refine leftAbove_plug (leftAbove_mono ht (by push_cast; omega)) ⟨?_, trivial⟩
      push_cast; omega
    have := ih _ (f + 2) hT
    simp only [combValues, Shape.build]
    rw [h1, h2, h3, show f + 1 + 1 = f + 2 from rfl, this, plugLeft_assoc]
    rfl

theorem combValues_pos (k : Nat) : ∀ x ∈ combValues k, (0 : Int) < x := by
  induction k with
  | zero => intro x hx; simp [combValues] at hx
  | succ k ih =>
    intro x hx
    simp only [combValues, List.mem_cons] at hx
    rcases hx with rfl | rfl | hx
    · push_cast; omega
    · push_cast; omega
    · exact ih x hx

theorem combValues_length (k : Nat) : (combValues k).length = 2 * k := by
  induction k with
  | zero => rfl
  | succ k ih => simp only [combValues, List.length_cons, ih]; omega

/-- The insertions `combValues k` build the comb with `k` teeth. -/
theorem build_combValues (k : Nat) : Shape.build Shape.nil 0 (combValues k) = Shape.comb 0 k := by
  have := build_comb k Shape.nil 0 trivial
  simpa [plugLeft_nil_left] using this

/-- The insertion of 0 followed by `combValues k` builds a root that holds 0,
with no left child and the comb with `k` teeth as its right subtree. -/
theorem build_zero_combValues (k : Nat) :
    Shape.build Shape.nil 0 (0 :: combValues k) =
      Shape.node 0 Shape.nil 0 (Shape.comb 1 k) := by
  have h1 : Shape.build Shape.nil 0 (0 :: combValues k) =
      Shape.build (Shape.node 0 Shape.nil 0 Shape.nil) 1 (combValues k) := rfl
  rw [h1, build_right 0 _ _ 0 1 _ (combValues_pos k)]
  have := build_comb k Shape.nil 1 trivial
  rw [plugLeft_nil_left, plugLeft_nil_left] at this
  rw [this]

theorem comb_residue_height (f k : Nat) : (Shape.comb f k).residue.height = k := by
  induction k generalizing f with
  | zero => rfl
  | succ k ih =>
    simp only [Shape.comb, Shape.residue, Shape.isNil, Shape.height]
    rw [if_neg (by simp), ih]
    simp

theorem comb_resets_pos (f k : Nat) : 1 ≤ (Shape.comb f (k + 1)).resets := by
  simp only [Shape.comb]
  exact resets_pos _ _ _ _ (by simp)

theorem comb_size (f k : Nat) : (Shape.comb f k).size = 2 * k := by
  induction k generalizing f with
  | zero => rfl
  | succ k ih =>
    simp only [Shape.comb, Shape.size, ih]
    omega

end BinarySearchTree
namespace BinarySearchTree

theorem dropWithin_ok_eq {stack : Nat} {s s2 : BinarySearchTree} {p : Option Nat}
    (h : dropWithin stack s p = .ok s2) : dropFuel stack s p = .ok s2 := by
  unfold dropWithin at h
  split at h
  · cases h
  · exact h

theorem climbOwningWithin_processed {stack : Nat} {r r1 : Run}
    (h : climbOwningWithin stack r = .ok r1) : r1.walk.processed = r.walk.processed := by
  unfold climbOwningWithin at h
  cases hd : deref r.mem r.walk.current with
  | error e => simp [hd, bind, Except.bind] at h
  | ok cn =>
    simp only [hd, bind, Except.bind] at h
    cases hl : lock r.mem cn.parent with
    | none =>
      simp only [hl, pure, Except.pure, Except.ok.injEq] at h
      rw [← h]
    | some p =>
      simp only [hl] at h
      cases h1 : deref (acquire r.mem (some p)) (some p) with
      | error e => simp [h1] at h
      | ok pn =>
        simp only [h1] at h
        cases h2 : assignLocalWithin stack (acquire r.mem (some p)) r.walk.current (some p) with
        | error e => simp [h2] at h
        | ok m2 =>
          simp only [h2] at h
          cases h3 : dropWithin stack m2 (some p) with
          | error e => simp [h3] at h
          | ok m3 =>
            simp only [h3, pure, Except.pure, Except.ok.injEq] at h
            rw [← h]

theorem moveToWithin_processed {stack : Nat} {r r1 : Run} {v : Option Nat} {fu : Bool}
    (h : moveToWithin stack r v fu = .ok r1) : r1.walk.processed = r.walk.processed := by
  unfold moveToWithin at h
  cases h2 : assignLocalWithin stack r.mem r.walk.current v with
  | error e => simp [h2, bind, Except.bind] at h
  | ok m1 =>
    simp only [h2, bind, Except.bind, pure, Except.pure, Except.ok.injEq] at h
    rw [← h]

/-- An iteration of the loop of `release` leaves `processed` as it is or
increments it. -/
theorem releaseStepWithin_processed {stack : Nat} {r r1 : Run}
    (h : releaseStepWithin stack r = .ok r1) :
    r1.walk.processed = r.walk.processed ∨ r1.walk.processed = incU32 r.walk.processed := by
  unfold releaseStepWithin at h
  cases hd : deref r.mem r.walk.current with
  | error e => simp [hd, bind, Except.bind] at h
  | ok cn =>
    simp only [hd, bind, Except.bind] at h
    split_ifs at h
    · exact Or.inl (moveToWithin_processed h)
    · have e := climbOwningWithin_processed h
      exact Or.inl e
    · exact Or.inl (moveToWithin_processed h)
    · exact Or.inl (moveToWithin_processed h)
    · cases h1 : store r.mem r.walk.current (fun c => { c with left := none }) with
      | error e => simp [h1] at h
      | ok m1 =>
        simp only [h1] at h
        cases h2 : dropWithin stack m1 cn.left with
        | error e => simp [h2] at h
        | ok m2 =>
          simp only [h2] at h
          exact Or.inr (climbOwningWithin_processed h)
    · cases h1 : store r.mem r.walk.current (fun c => { c with right := none }) with
      | error e => simp [h1] at h
      | ok m1 =>
        simp only [h1] at h
        cases h2 : dropWithin stack m1 cn.right with
        | error e => simp [h2] at h
        | ok m2 =>
          simp only [h2] at h
          exact Or.inr (climbOwningWithin_processed h)

/-- If the loop of `release`, asked to stop at an earlier value of `processed`,
reaches the state `rX` or overflows the stack, and the loop overflows the stack
from `rX`, then the loop overflows the stack. -/
theorem releaseLoopWithin_compose (stack size size2 : Nat) (rX : Run)
    (hlt : predU32 size2 < predU32 size)
    (hfatal : ∀ g, releaseLoopWithin stack (g + 1) size rX = .error .stackOverflow) :
    ∀ (f : Nat) (r : Run), r.walk.processed ≤ predU32 size2 →
      (releaseLoopWithin stack f size2 r = .ok rX ∨
        releaseLoopWithin stack f size2 r = .error .stackOverflow) →
      ∀ g, f + 1 ≤ g → releaseLoopWithin stack g size r = .error .stackOverflow := by
  intro f
  induction f with
  | zero =>
    intro r hr h g hg
    unfold releaseLoopWithin at h
    by_cases hp : r.walk.processed = predU32 size2
    · simp only [hp, if_true] at h
      rcases h with h | h
      · cases h
        obtain ⟨g2, rfl⟩ : ∃ g2, g = g2 + 1 := ⟨g - 1, by omega⟩
        exact hfatal g2
      · cases h
    · simp [hp] at h
  | succ f ih =>
    intro r hr h g hg
    obtain ⟨g2, rfl⟩ : ∃ g2, g = g2 + 1 := ⟨g - 1, by omega⟩
    unfold releaseLoopWithin at h
    by_cases hp : r.walk.processed = predU32 size2
    · simp only [hp, if_true] at h
      rcases h with h | h
      · cases h
        exact hfatal g2
      · cases h
    · simp only [hp, if_false] at h
      have hps : r.walk.processed ≠ predU32 size := by omega
      unfold releaseLoopWithin
      simp only [hps, if_false]
      cases hs : releaseStepWithin stack r with
      | error e =>
        simp only [hs] at h
        rcases h with h | h
        · cases h
        · cases h; rfl
      | ok r1 =>
        simp only [hs] at h
        have hlim := predU32_lt size2
        have hr1 : r1.walk.processed ≤ predU32 size2 := by
          rcases releaseStepWithin_processed hs with e | e
          · rw [e]; exact hr
          · rw [e, incU32_lt (by omega)]; omega
        exact ih r1 hr1 h g2 (by omega)

/-- When the root has no left child and its right subtree has a residue that is
higher than the call stack is deep, the loop of `release` overflows the stack:
the `reset` of the root's right link destroys that residue by nested destructor
calls. -/
theorem releaseLoopWithin_overflow {s : BinarySearchTree} {a : Nat} {v : Int} {R : Shape}
    (h : WellFormed s (Shape.node a Shape.nil v R))
    (hsz : (Shape.node a Shape.nil v R).size < 2 ^ 32) (hres : 1 ≤ R.resets)
    (stack : Nat) (hd : stack < R.residue.height) :
    ∃ n, ∀ fuel, n ≤ fuel →
      releaseLoopWithin stack fuel s.size (releaseInit s s.root) = .error .stackOverflow := by
  have hroot : s.root = some a := h.root_eq
  have hsize : s.size = 1 + R.size := by
    rw [h.size_eq]; simp only [Shape.size]
  simp only [Shape.size] at hsz
  have hua : s.uses a = 1 := h.uses_one a (by simp [Shape.addrs])
  obtain ⟨hcell, -, hreprR⟩ := h.repr
  have hnd := h.nodup
  simp only [Shape.addrs, List.nil_append, List.nodup_cons] at hnd
  obtain ⟨haR, hndR⟩ := hnd
  have hRne : R ≠ Shape.nil := by
    rintro rfl
    simp [Shape.residue, Shape.height] at hd
  obtain ⟨ca, hptr⟩ : ∃ ca, R.ptr = some ca := by
    cases R with
    | nil => exact absurd rfl hRne
    | node b l2 v2 r2 => exact ⟨b, rfl⟩
  have hrl := resets_lt_size R hRne
  have hp2 : predU32 (R.resets + 1) = R.resets := by
    rw [predU32_pos (by omega) (by omega)]; omega
  have hp : predU32 s.size = R.size := by
    rw [hsize, predU32_pos (by omega) (by omega)]; omega
  obtain ⟨j, m2, hrun, hvis⟩ := visit_child (R.resets + 1) R (traverse_spec _ R) a ca
    { left := Shape.nil.ptr, right := R.ptr, parent := none, content := v }
    (acquire s (some a)) 0 true false "" hptr (by simpa [acquire] using hcell) haR
    (by simpa [acquire] using hreprR) hndR
    (fun x hx => by simpa [acquire] using h.bound x (by simp [Shape.addrs, hx]))
    (fun x hx => by
      have hxa : x ≠ a := fun e => haR (e ▸ hx)
      simp [acquire, setUse, hxa, h.uses_one x (by simp [Shape.addrs, hx])])
    (by simp [acquire, setUse, hua]) (by omega) (by omega)
  obtain ⟨rX, hrX⟩ : ∃ rX : Run, rX =
      { mem := m2,
        walk := { current := some a, processed := 0 + R.resets, fromUp := false,
                  comingFromLeft := decide ((Shape.nil.ptr : Option Nat) = some ca), os := "" } } :=
    ⟨_, rfl⟩
  have hfirst : releaseLoop (0 + j + 1) (R.resets + 1) (releaseInit s (some a)) = .ok rX := by
    have hstep : releaseStep (releaseInit s (some a)) =
        moveTo (releaseInit s (some a)) (some ca) true := by
      have hc2 : (acquire s (some a)).cells a = some
          { left := none, right := some ca, parent := none, content := v } := by
        rw [← hptr]; simpa [acquire, ptr_nil] using hcell
      simp [releaseStep, releaseInit, deref, hc2, bind, Except.bind]
    rw [releaseLoop_step_move _ _ _ (some ca) true (by simp [releaseInit, hp2]; omega) hstep]
    have := hrun 0
    simp only [releaseInit] at this ⊢
    rw [this, ← hrX]
    exact releaseLoop_done _ _ _ (by rw [hrX, hp2]; simp)
  have hcX : m2.cells a = some
      { left := none, right := some ca, parent := none, content := v } := by
    rw [hvis.frame_cells a haR, ← hptr]
    simpa [acquire, ptr_nil] using hcell
  have hfatal : ∀ g, releaseLoopWithin stack (g + 1) s.size rX = .error .stackOverflow := by
    intro g
    have hne : rX.walk.processed ≠ predU32 s.size := by rw [hrX, hp]; simp; omega
    have hdeep := dropFuel_deep R.residue
      { m2 with
        cells := setCell m2.cells a
          (some { left := none, right := none, parent := none, content := v }) }
      (some a) stack
      (repr_congr (fun x hx => by
        have hxa : x ≠ a := fun e => haR (e ▸ residue_addrs_subset R x hx)
        simp [setCell, hxa]) hvis.repr)
      (residue_nodup R hndR) (fun x hx => hvis.uses_one x hx) hd
    rw [residue_ptr, hptr] at hdeep
    unfold releaseLoopWithin
    simp only [hne, if_false]
    have hstepX : releaseStepWithin stack rX = .error .stackOverflow := by
      rw [hrX]
      simp [releaseStepWithin, deref, hcX, bind, Except.bind, store, dropWithin, hdeep, ptr_nil]
    rw [hstepX]
  have hsim := sim_releaseLoop stack (R.resets + 1) (0 + j + 1) (releaseInit s (some a))
  rw [hfirst] at hsim
  refine ⟨0 + j + 1 + 1, fun fuel hf => ?_⟩
  rw [hroot]
  exact releaseLoopWithin_compose stack s.size (R.resets + 1) rX (by rw [hp2, hp]; omega) hfatal
    (0 + j + 1) (releaseInit s (some a)) (by simp [releaseInit]) (sim_ok hsim) fuel hf

end BinarySearchTree
/-! ## Part V.  The claims -/

namespace LinkedList

theorem split_at_index (ps : List (Nat × Int)) (k : Nat) (hk : k + 1 < ps.length) :
    ps = ps.take k ++ ps.get ⟨k, by omega⟩ :: ps.get ⟨k + 1, hk⟩ :: ps.drop (k + 2) := by
  have h1 : ps.drop k = ps.get ⟨k, by omega⟩ :: ps.drop (k + 1) := by
    rw [List.drop_eq_getElem_cons (show k < ps.length by omega)]; rfl
  have h2 : ps.drop (k + 1) = ps.get ⟨k + 1, hk⟩ :: ps.drop (k + 2) := by
    rw [List.drop_eq_getElem_cons hk]; rfl
  calc ps = ps.take k ++ ps.drop k := (List.take_append_drop k ps).symm
    _ = _ := by rw [h1, h2]

/-- Claim C2.  In a well-formed Sequence with nodes `ps`, `addToPos` given the
node at a position `k` that is not the last one succeeds and leaves a
well-formed Sequence whose nodes are those of `ps` up to and including position
`k`, then the new node holding `v`, then the remaining nodes of `ps` unchanged
and in the same order; its payloads in link order are accordingly
`xs[0..k] ++ [v] ++ xs[k+1..]`. -/
theorem addToPos_inserts_after (s : LinkedList) (ps : List (Nat × Int)) (k : Nat) (v : Int)
    (hk : k + 1 < ps.length) (h : WellFormed s ps) :
    ∃ s2, addToPos s (some (ps.get ⟨k, by omega⟩).1) v = .ok s2 ∧
      WellFormed s2 (ps.take (k + 1) ++ (s.fresh, v) :: ps.drop (k + 1)) ∧
      payloads s2 = .ok ((values ps).take (k + 1) ++ v :: (values ps).drop (k + 1)) := by
  have hsplit := split_at_index ps k hk
  rcases hp : ps.get ⟨k, by omega⟩ with ⟨a, x⟩
  rcases hq : ps.get ⟨k + 1, hk⟩ with ⟨b, y⟩
  rw [hp, hq] at hsplit
  have h2 := h
  rw [hsplit] at h2
  obtain ⟨s2, e1, e2, -, -⟩ := addToPos_interior_wf v h2
  have hform : ps.take (k + 1) ++ (s.fresh, v) :: ps.drop (k + 1) =
      ps.take k ++ (a, x) :: (s.fresh, v) :: (b, y) :: ps.drop (k + 2) := by
    have ht : ps.take (k + 1) = ps.take k ++ [(a, x)] := by
      rw [List.take_succ, List.getElem?_eq_getElem (show k < ps.length by omega)]
      simp only [Option.toList]
      congr 2
    have hd : ps.drop (k + 1) = (b, y) :: ps.drop (k + 2) := by
      rw [List.drop_eq_getElem_cons hk]
      congr 1
    rw [ht, hd]; simp
  refine ⟨s2, e1, by rw [hform]; exact e2, ?_⟩
  rw [payloads_wf e2]
  have : values (ps.take k ++ (a, x) :: (s.fresh, v) :: (b, y) :: ps.drop (k + 2)) =
      (values (ps.take (k + 1) ++ (s.fresh, v) :: ps.drop (k + 1))) := by rw [hform]
  rw [this]
  simp [values, List.map_take, List.map_drop]

/-- Witness for claim C2: inserting 7 after the first node of the Sequence 1, 2. -/
theorem addToPos_inserts_after_witness :
    ∃ s2, addToPos twoNodes (some (([(0, 1), (1, 2)] : List (Nat × Int)).get ⟨0, by decide⟩).1) 7
        = .ok s2 ∧
      WellFormed s2 (([(0, 1), (1, 2)] : List (Nat × Int)).take (0 + 1) ++
        (twoNodes.fresh, 7) :: ([(0, 1), (1, 2)] : List (Nat × Int)).drop (0 + 1)) ∧
      payloads s2 = .ok ((values [(0, 1), (1, 2)]).take (0 + 1) ++
        7 :: (values [(0, 1), (1, 2)]).drop (0 + 1)) :=
  addToPos_inserts_after twoNodes [(0, 1), (1, 2)] 0 7 (by decide) wf_twoNodes

/-- Claim C3.  In a well-formed Sequence, `addToPos` given the null pointer or
the current last node yields exactly the state `addToEnd` yields, which is a
Sequence with `v` appended; and for a value `x` that no node holds, `find`
returns null, so `addToPos(find(x), v)` appends `v` at the end. -/
theorem addToPos_degenerates_to_addToEnd (s : LinkedList) (ps : List (Nat × Int))
    (r : Option Nat) (v : Int) (h : WellFormed s ps) (hr : r = none ∨ r = s.tail) :
    addToPos s r v = addToEnd s v ∧
      (∃ s2, addToEnd s v = .ok s2 ∧ WellFormed s2 (ps ++ [(s.fresh, v)]) ∧
        payloads s2 = .ok (values ps ++ [v])) ∧
      (∀ x, x ∉ values ps → find s x = .ok none ∧
        (do let n ← find s x; addToPos s n v) = addToEnd s v) := by
  refine ⟨addToPos_eq_addToEnd h r hr v, ?_, ?_⟩
  · obtain ⟨s2, e1, e2, -, -⟩ := addToEnd_wf v h
    refine ⟨s2, e1, e2, ?_⟩
    rw [payloads_wf e2]; simp [values]
  · intro x hx
    have hf := find_absent x h hx
    refine ⟨hf, ?_⟩
    simp only [hf, bind, Except.bind]
    exact addToPos_eq_addToEnd h none (Or.inl rfl) v

/-- Witness for claim C3: `addToPos` given the null pointer on the Sequence 1, 2. -/
theorem addToPos_degenerates_to_addToEnd_witness :
    ((none : Option Nat) = none ∨ none = twoNodes.tail) ∧
    (addToPos twoNodes none 7 = addToEnd twoNodes 7 ∧
      (∃ s2, addToEnd twoNodes 7 = .ok s2 ∧ WellFormed s2 ([(0, 1), (1, 2)] ++ [(twoNodes.fresh, 7)]) ∧
        payloads s2 = .ok (values [(0, 1), (1, 2)] ++ [7])) ∧
      (∀ x, x ∉ values [(0, 1), (1, 2)] → find twoNodes x = .ok none ∧
        (do let n ← find twoNodes x; addToPos twoNodes n 7) = addToEnd twoNodes 7)) :=
  ⟨Or.inl rfl, addToPos_degenerates_to_addToEnd twoNodes [(0, 1), (1, 2)] none 7 wf_twoNodes
    (Or.inl rfl)⟩

/-- Claim C4 (failing input).  On the Sequence 1, 2, 3, `removeNode` of the first
node does not leave the Sequence 2, 3: `head = std::move(n->next)` destroys the
node, and the reads `n->next.get()` and `n->previous` that follow go through a
destroyed node. -/
theorem removeNode_first_of_three_faults :
    (do let s ← addAll empty [1, 2, 3]; let n ← find s 1; removeNode s n) =
      .error .deadAccess := by
  rfl

/-- Claim C5 (failing input).  On the Sequence 1, 2, `removeNode` of the first
node reads the removed node after its destruction, so the statement
`x->previous = p` that would repoint the successor's back pointer is reached
only through a dead node. -/
theorem removeNode_first_of_two_faults :
    (do let s ← addAll empty [1, 2]; let n ← find s 1; removeNode s n) =
      .error .deadAccess := by
  rfl

/-- Claim C6.  Every Sequence that arises from the empty one by `addToEnd` and
by `addToPos` (given null or a node of the Sequence) satisfies the data-model
invariant, and both operations succeed on it. -/
theorem reachable_invariant (s : LinkedList) (h : Reachable s) :
    Invariant s ∧ (∀ v, ∃ s2, addToEnd s v = .ok s2) ∧
      (∀ r v, (r = none ∨ ∃ a, r = some a ∧ IsNode s a) → ∃ s2, addToPos s r v = .ok s2) := by
  obtain ⟨ps, hwf, -⟩ := reachable_wf h
  refine ⟨invariant_of_wf hwf, fun v => ?_, fun r v hr => ?_⟩
  · obtain ⟨s2, e, -⟩ := addToEnd_wf v hwf
    exact ⟨s2, e⟩
  · obtain ⟨s2, _, e, -⟩ := addToPos_wf hwf r v hr
    exact ⟨s2, e⟩

/-- Witness for claim C6: the Sequence 1, 7, 2 that arises from the empty one
by `addToEnd(1)`, `addToEnd(2)` and `addToPos` given the node that holds 1. -/
theorem reachable_invariant_witness :
    Reachable insertedSeven ∧ payloads insertedSeven = .ok [1, 7, 2] ∧
    (Invariant insertedSeven ∧ (∀ v, ∃ s2, addToEnd insertedSeven v = .ok s2) ∧
      (∀ r v, (r = none ∨ ∃ a, r = some a ∧ IsNode insertedSeven a) →
        ∃ s2, addToPos insertedSeven r v = .ok s2)) :=
  have hr : Reachable insertedSeven :=
    Reachable.addToPos (some 0) 7
      (Reachable.addToEnd 2 (Reachable.addToEnd 1 Reachable.empty rfl) rfl)
      (Or.inr ⟨0, rfl, _, rfl⟩) rfl
  ⟨hr, rfl, reachable_invariant insertedSeven hr⟩

/-- Claim C9.  For a well-formed Sequence of `N` nodes: every call
`removeNode(tail)` made while nodes remain succeeds, destroys exactly the last
node, which owns no successor at that moment, and leaves the well-formed
Sequence of the other nodes; with any iteration budget of at least `N` the loop
of the destructor returns after exactly `N` calls, the destructor ends with
`head` and `tail` null and no node alive, and `instanceCount` is lower by `N`,
which is its value before the nodes were created. -/
theorem destructor_teardown (s : LinkedList) (ps : List (Nat × Int)) (h : WellFormed s ps) :
    (∀ t, s.tail = some t →
      ∃ nd s1, s.cells t = some nd ∧ nd.next = none ∧ removeNode s (some t) = .ok s1 ∧
        WellFormed s1 ps.dropLast ∧ s1.instanceCount = s.instanceCount - 1 ∧
        s1.cells t = none) ∧
    (∀ fuel, ps.length ≤ fuel →
      ∃ s2, destructorLoop fuel s = .ok (s2, ps.length) ∧ destructor fuel s = .ok s2 ∧
        s2.head = none ∧ s2.tail = none ∧ (∀ a, s2.cells a = none) ∧
        s2.instanceCount = s.instanceCount - ps.length) := by
  refine ⟨fun t ht => ?_, fun fuel hf => destructor_wf h fuel hf⟩
  rcases List.eq_nil_or_concat ps with rfl | ⟨qs, ⟨t2, x⟩, rfl⟩
  · have := h.tail_eq
    rw [ht] at this
    simp [lastPtr] at this
  · rw [List.concat_eq_append] at h ⊢
    obtain ⟨ht2, hcell, -⟩ := wf_snoc_inv h
    rw [ht] at ht2
    cases ht2
    obtain ⟨s1, e1, e2, -, e3, e4⟩ := removeNode_last_wf h
    exact ⟨_, s1, hcell, rfl, e1, by simpa using e2, e3, e4⟩

/-- Witness for claim C9: the Sequence 1, 2. -/
theorem destructor_teardown_witness :
    WellFormed twoNodes [(0, 1), (1, 2)] ∧
    ((∀ t, twoNodes.tail = some t →
      ∃ nd s1, twoNodes.cells t = some nd ∧ nd.next = none ∧
        removeNode twoNodes (some t) = .ok s1 ∧
        WellFormed s1 ([(0, 1), (1, 2)] : List (Nat × Int)).dropLast ∧
        s1.instanceCount = twoNodes.instanceCount - 1 ∧ s1.cells t = none) ∧
    (∀ fuel, ([(0, 1), (1, 2)] : List (Nat × Int)).length ≤ fuel →
      ∃ s2, destructorLoop fuel twoNodes = .ok (s2, ([(0, 1), (1, 2)] : List (Nat × Int)).length) ∧
        destructor fuel twoNodes = .ok s2 ∧
        s2.head = none ∧ s2.tail = none ∧ (∀ a, s2.cells a = none) ∧
        s2.instanceCount = twoNodes.instanceCount - ([(0, 1), (1, 2)] : List (Nat × Int)).length)) :=
  ⟨wf_twoNodes, destructor_teardown twoNodes [(0, 1), (1, 2)] wf_twoNodes⟩

end LinkedList
namespace BinarySearchTree

/-- Claim C1.  For every list `vs` of fewer than `2 ^ 32` integers, building a
tree by `addToEnd` on each element in order and rendering it terminates (every
large enough iteration budget gives the result) and writes exactly `<`, then the
distinct values of `vs` in strictly ascending order, each once and each followed
by `,`, then `>`. -/
theorem render_sorted_distinct (vs : List Int) (hlen : vs.length < 2 ^ 32) :
    ∃ n, ∀ fuel, n ≤ fuel →
      (do let s ← addAll empty vs; render fuel s) =
        .ok ("<" ++ textOf (vs.toFinset.sort (· ≤ ·)) ++ ">") := by
  obtain ⟨s, h1, hwf, -, -⟩ := addAll_tree_wf vs tree_wf_empty (by simpa [Shape.size] using hlen)
  have hsz : (Shape.build .nil empty.fresh vs).size < 2 ^ 32 := by
    have := build_size_le .nil empty.fresh vs
    simp only [Shape.size] at this
    omega
  obtain ⟨n, hn⟩ := render_wf hwf hsz
  refine ⟨n, fun fuel hf => ?_⟩
  simp only [h1, bind, Except.bind]
  rw [hn fuel hf, inorder_build_eq_sort]

/-- Witness for claim C1: the insertions 6, 2, 8, 7, 9, 4, 1, 3, 5. -/
theorem render_sorted_distinct_witness :
    ([6, 2, 8, 7, 9, 4, 1, 3, 5] : List Int).length < 2 ^ 32 ∧
    ∃ n, ∀ fuel, n ≤ fuel →
      (do let s ← addAll empty [6, 2, 8, 7, 9, 4, 1, 3, 5]; render fuel s) =
        .ok ("<" ++ textOf (([6, 2, 8, 7, 9, 4, 1, 3, 5] : List Int).toFinset.sort (· ≤ ·)) ++ ">") :=
  ⟨by decide, render_sorted_distinct [6, 2, 8, 7, 9, 4, 1, 3, 5] (by decide)⟩

/-- The example of claim C1 evaluated: the insertions 6, 2, 8, 7, 9, 4, 1, 3, 5
render as `<1,2,3,4,5,6,7,8,9,>`. -/
theorem render_scenario_E :
    Except.toOption (do let s ← addAll empty [6, 2, 8, 7, 9, 4, 1, 3, 5]; render 100 s) =
      some "<1,2,3,4,5,6,7,8,9,>" := by
  decide!

/-- Claim C7 (failing input).  On the tree built from 2, 1, 3 the loop of
`release` finishes with `processed = 2 = size - 1`, but the root's left link
still owns the node holding 1 and two nodes are alive: the loop has destroyed
one node, not two. -/
theorem releaseLoop_leaves_left_child :
    Except.toOption (releaseLoopReport 100 [2, 1, 3]) = some (some 1, none, 2, 2) := by
  decide!

/-- The loop of `release` when the stack is deep enough for every cascade.  For
every tree built by `addToEnd` from a non-empty list of fewer than `2 ^ 32`
integers, the element count is at least 1, the root's parent link resolves to
nothing, and the loop of `release(root, size)` returns without a fault for every
large enough iteration budget. -/
theorem releaseLoop_terminates (vs : List Int) (hne : vs ≠ []) (hlen : vs.length < 2 ^ 32) :
    ∃ s, addAll empty vs = .ok s ∧ 1 ≤ s.size ∧
      (∀ a nd, s.root = some a → s.cells a = some nd → lock s nd.parent = none) ∧
      ∃ n, ∀ fuel, n ≤ fuel → ∃ r, releaseLoop fuel s.size (releaseInit s s.root) = .ok r := by
  obtain ⟨s, h1, hwf, -, -⟩ := addAll_tree_wf vs tree_wf_empty (by simpa [Shape.size] using hlen)
  have hsz : (Shape.build .nil empty.fresh vs).size < 2 ^ 32 := by
    have := build_size_le .nil empty.fresh vs
    simp only [Shape.size] at this
    omega
  have hmem : ∃ x, x ∈ (Shape.build .nil empty.fresh vs).inorder := by
    cases vs with
    | nil => exact absurd rfl hne
    | cons v vs => exact ⟨v, (mem_inorder_build _ _ _ _).2 (Or.inr (by simp))⟩
  refine ⟨s, h1, ?_, root_parent_unresolvable hwf, ?_⟩
  · rw [hwf.size_eq]
    cases ht : Shape.build .nil empty.fresh vs with
    | nil => rw [ht] at hmem; obtain ⟨x, hx⟩ := hmem; simp [Shape.inorder] at hx
    | node a l v r => simp only [Shape.size]; omega
  · cases ht : Shape.build .nil empty.fresh vs with
    | nil => rw [ht] at hmem; obtain ⟨x, hx⟩ := hmem; simp [Shape.inorder] at hx
    | node a l v r =>
      rw [ht] at hwf hsz
      obtain ⟨n, m2, w2, hrun, -⟩ := releaseLoop_root hwf hsz
      exact ⟨n, fun fuel hf => ⟨_, hrun fuel hf⟩⟩

/-- The insertions 2, 1, 3, a root with two children, as an instance. -/
theorem releaseLoop_terminates_witness :
    ([2, 1, 3] : List Int) ≠ [] ∧ ([2, 1, 3] : List Int).length < 2 ^ 32 ∧
    ∃ s, addAll empty [2, 1, 3] = .ok s ∧ 1 ≤ s.size ∧
      (∀ a nd, s.root = some a → s.cells a = some nd → lock s nd.parent = none) ∧
      ∃ n, ∀ fuel, n ≤ fuel → ∃ r, releaseLoop fuel s.size (releaseInit s s.root) = .ok r :=
  ⟨by decide, by decide, releaseLoop_terminates [2, 1, 3] (by decide) (by decide)⟩

/-- The destructor when the stack is deep enough for every cascade.  For every
list `vs` of fewer than `2 ^ 32` integers, duplicates included: `addToEnd` on
each element constructs `vs.length` nodes in all, and after the destructor has
run (for every large enough iteration budget) no node is alive, `root` is empty
and `instanceCount` is 0. -/
theorem destructor_frees_every_node (vs : List Int) (hlen : vs.length < 2 ^ 32) :
    ∃ s, addAll empty vs = .ok s ∧ s.fresh = vs.length ∧
      ∃ n, ∀ fuel, n ≤ fuel →
        ∃ s2, destructor fuel s = .ok s2 ∧ s2.instanceCount = 0 ∧ (∀ a, s2.cells a = none) ∧
          s2.root = none := by
  obtain ⟨s, h1, hwf, hfr, hic⟩ := addAll_tree_wf vs tree_wf_empty (by simpa [Shape.size] using hlen)
  have hsz : (Shape.build .nil empty.fresh vs).size < 2 ^ 32 := by
    have := build_size_le .nil empty.fresh vs
    simp only [Shape.size] at this
    omega
  obtain ⟨n, hn⟩ := tree_destructor_wf hwf hsz
  refine ⟨s, h1, by simpa [empty] using hfr, n, fun fuel hf => ?_⟩
  obtain ⟨s2, e1, e2, e3, e4⟩ := hn fuel hf
  refine ⟨s2, e1, ?_, e2, e3⟩
  rw [e4]
  have hic2 : s.instanceCount = ((Shape.build .nil empty.fresh vs).size : Int) := by
    have := hic
    simp only [Shape.size, empty] at this ⊢
    push_cast at this
    linarith
  rw [hic2]; simp

/-- The insertions 2, 1, 3, 1 with one duplicate, as an instance. -/
theorem destructor_frees_every_node_witness :
    ([2, 1, 3, 1] : List Int).length < 2 ^ 32 ∧
    ∃ s, addAll empty [2, 1, 3, 1] = .ok s ∧ s.fresh = ([2, 1, 3, 1] : List Int).length ∧
      ∃ n, ∀ fuel, n ≤ fuel →
        ∃ s2, destructor fuel s = .ok s2 ∧ s2.instanceCount = 0 ∧ (∀ a, s2.cells a = none) ∧
          s2.root = none :=
  ⟨by decide, destructor_frees_every_node [2, 1, 3, 1] (by decide)⟩

end BinarySearchTree
namespace LinkedList

/-- Claim C15.  In a well-formed Sequence with nodes `ps`, `find(v)` returns
without a fault; given a position `k` whose payload is `v` while no earlier
position holds `v`, it returns the node at position `k`; it returns the null
pointer exactly if no node holds `v`, in particular on the empty Sequence.  The
method only reads (`head.get()`, `current->content`, `current->next.get()`), so
its embedding yields a pointer and no new state. -/
theorem find_first_match (s : LinkedList) (ps : List (Nat × Int)) (v : Int)
    (h : WellFormed s ps) :
    (∀ k (hk : k < ps.length), (ps.get ⟨k, hk⟩).2 = v →
        (∀ j (hj : j < ps.length), j < k → (ps.get ⟨j, hj⟩).2 ≠ v) →
        find s v = .ok (some (ps.get ⟨k, hk⟩).1)) ∧
      (find s v = .ok none ↔ v ∉ values ps) ∧
      (∃ r, find s v = .ok r) ∧ find empty v = .ok none := by
  have htot := find_total v h
  refine ⟨fun k hk hv hmin => ?_, ⟨fun hf hv => ?_, htot.2⟩, ?_, find_absent v wf_empty (by simp [values])⟩
  · have hsplit := split_at_position ps k hk
    have hnot := not_mem_values_take ps k v hmin
    rcases hp : ps.get ⟨k, hk⟩ with ⟨a, x⟩
    rw [hp] at hsplit hv
    simp only at hv
    subst hv
    have h2 := h
    rw [hsplit] at h2
    exact find_first h2 hnot
  · obtain ⟨a, ha, -⟩ := htot.1 hv
    rw [ha] at hf
    cases hf
  · by_cases hv : v ∈ values ps
    · obtain ⟨a, ha, -⟩ := htot.1 hv
      exact ⟨_, ha⟩
    · exact ⟨_, htot.2 hv⟩

/-- Witness for claim C15: looking for 2 in the Sequence 1, 2. -/
theorem find_first_match_witness :
    WellFormed twoNodes [(0, 1), (1, 2)] ∧
    ((∀ k (hk : k < ([(0, 1), (1, 2)] : List (Nat × Int)).length),
        (([(0, 1), (1, 2)] : List (Nat × Int)).get ⟨k, hk⟩).2 = 2 →
        (∀ j (hj : j < ([(0, 1), (1, 2)] : List (Nat × Int)).length), j < k →
          (([(0, 1), (1, 2)] : List (Nat × Int)).get ⟨j, hj⟩).2 ≠ 2) →
        find twoNodes 2 = .ok (some (([(0, 1), (1, 2)] : List (Nat × Int)).get ⟨k, hk⟩).1)) ∧
      (find twoNodes 2 = .ok none ↔ (2 : Int) ∉ values [(0, 1), (1, 2)]) ∧
      (∃ r, find twoNodes 2 = .ok r) ∧ find empty 2 = .ok none) :=
  ⟨wf_twoNodes, find_first_match twoNodes [(0, 1), (1, 2)] 2 wf_twoNodes⟩

/-- Claim C16.  For every list `vs` of integers, `addToEnd` on each element in
order on the empty Sequence followed by `operator<<` writes `<`, then every
element of `vs` in the same order, duplicates included, each in decimal and
followed by `,`, then `>`; the empty Sequence renders as `<>`. -/
theorem render_after_appends (vs : List Int) :
    (do let s ← addAll empty vs; render s) = .ok ("<" ++ textOf vs ++ ">") ∧
      render empty = .ok "<>" := by
  obtain ⟨s2, qs, e, hwf, hv, -⟩ := addAll_list_wf vs wf_empty
  refine ⟨?_, rfl⟩
  simp only [e, bind, Except.bind]
  rw [render_list_wf hwf]
  simp [values, hv] at hv ⊢
  rw [← hv]

/-- Claim C17 (failing input).  On the Sequence 1, 2, 3, 4 with `n` its first
node: the statement `head = std::move(n->next)` of the first-node branch leaves
`n` destroyed, the read `n->next.get()` that follows it goes through the
destroyed node, and therefore so does `removeNode(n)`. -/
theorem removeNode_first_reads_destroyed_node :
    ∃ s nd s0 s1, addAll empty [1, 2, 3, 4] = .ok s ∧ find s 1 = .ok (some 0) ∧
      removeBranch s 0 = Branch.first ∧
      deref s (some 0) = .ok nd ∧
      store s (some 0) (fun c => { c with next := none }) = .ok s0 ∧
      assignHead s0 nd.next = .ok s1 ∧
      s1.cells 0 = none ∧ deref s1 (some 0) = .error .deadAccess ∧
      removeNode s (some 0) = .error .deadAccess :=
  ⟨_, _, _, _, rfl, rfl, rfl, rfl, rfl, rfl, rfl, rfl, rfl⟩

/-- Claim C20.  For a well-formed Sequence of `N` nodes, the calls
`removeNode(tail)` of the destructor loop take the last-node branch `N - 1`
times and then the sole-node branch once, never the first-node branch with its
`head = std::move(n->next)`; a call in the last-node branch sets `tail` to the
predecessor and leaves the predecessor's forward link empty. -/
theorem destructor_never_moves_head (s : LinkedList) (ps : List (Nat × Int))
    (h : WellFormed s ps) :
    (∀ fuel, ps.length ≤ fuel →
      ∃ bs, destructorBranches fuel s = .ok bs ∧
        bs = List.replicate (ps.length - 1) Branch.last ++ (if ps = [] then [] else [Branch.sole]) ∧
        Branch.first ∉ bs ∧ Branch.interior ∉ bs) ∧
    (∀ t, s.tail = some t →
      (removeBranch s t = Branch.sole ∧ ps.length = 1) ∨
      (removeBranch s t = Branch.last ∧ 2 ≤ ps.length ∧
        ∃ nd p pn s1, s.cells t = some nd ∧ nd.next = none ∧ nd.previous = some p ∧
          removeNode s (some t) = .ok s1 ∧ s1.tail = some p ∧ s1.cells p = some pn ∧
          pn.next = none)) := by
  refine ⟨fun fuel hf => ⟨_, destructorBranches_wf h fuel hf, rfl, ?_, ?_⟩, fun t ht => ?_⟩
  · by_cases hp : ps = [] <;> simp [hp, List.mem_replicate]
  · by_cases hp : ps = [] <;> simp [hp, List.mem_replicate]
  · rcases List.eq_nil_or_concat ps with rfl | ⟨qs, ⟨t2, x⟩, rfl⟩
    · have := h.tail_eq
      rw [ht] at this
      simp [lastPtr] at this
    · rw [List.concat_eq_append] at h ⊢
      obtain ⟨ht2, hcell, -⟩ := wf_snoc_inv h
      rw [ht] at ht2
      cases ht2
      have hb := removeBranch_last h
      rcases List.eq_nil_or_concat qs with rfl | ⟨qs2, ⟨p, z⟩, rfl⟩
      · left
        exact ⟨by simpa using hb, by simp⟩
      · right
        rw [List.concat_eq_append] at h hb hcell ⊢
        obtain ⟨s1, e1, hwf1, -, -, -⟩ := removeNode_last_wf h
        obtain ⟨ht1, hc1, -⟩ := wf_snoc_inv hwf1
        refine ⟨by simpa using hb, by simp, _, p, _, s1, hcell, rfl, ?_, e1, ht1, hc1, rfl⟩
        simp [lastPtr_append, lastPtr]

/-- Witness for claim C20: the Sequence 1, 2. -/
theorem destructor_never_moves_head_witness :
    WellFormed twoNodes [(0, 1), (1, 2)] ∧
    ((∀ fuel, ([(0, 1), (1, 2)] : List (Nat × Int)).length ≤ fuel →
      ∃ bs, destructorBranches fuel twoNodes = .ok bs ∧
        bs = List.replicate (([(0, 1), (1, 2)] : List (Nat × Int)).length - 1) Branch.last ++
          (if ([(0, 1), (1, 2)] : List (Nat × Int)) = [] then [] else [Branch.sole]) ∧
        Branch.first ∉ bs ∧ Branch.interior ∉ bs) ∧
    (∀ t, twoNodes.tail = some t →
      (removeBranch twoNodes t = Branch.sole ∧ ([(0, 1), (1, 2)] : List (Nat × Int)).length = 1) ∨
      (removeBranch twoNodes t = Branch.last ∧ 2 ≤ ([(0, 1), (1, 2)] : List (Nat × Int)).length ∧
        ∃ nd p pn s1, twoNodes.cells t = some nd ∧ nd.next = none ∧ nd.previous = some p ∧
          removeNode twoNodes (some t) = .ok s1 ∧ s1.tail = some p ∧ s1.cells p = some pn ∧
          pn.next = none))) :=
  ⟨wf_twoNodes, destructor_never_moves_head twoNodes [(0, 1), (1, 2)] wf_twoNodes⟩

end LinkedList
namespace BinarySearchTree

/-- Claim C11.  For every tree built by `addToEnd` from a list `vs` of fewer
than `2 ^ 32` integers: `addToEnd(v)` for a `v` of `vs` succeeds and leaves every
node (links, parent links and payloads), `root`, `size`, the use counts of the
nodes and `instanceCount` as they were, the node it created being destroyed
again; and for any `v`, a second `addToEnd(v)` right after a first one changes
none of these. -/
theorem addToEnd_duplicate_is_noop (vs : List Int) (hlen : vs.length < 2 ^ 32) :
    ∃ s, addAll empty vs = .ok s ∧
      (∀ v ∈ vs, ∃ s2, addToEnd s v = .ok s2 ∧ s2.cells = s.cells ∧ s2.root = s.root ∧
        s2.size = s.size ∧ s2.instanceCount = s.instanceCount ∧ s2.cells s.fresh = none ∧
        (∀ a nd, s.cells a = some nd → s2.uses a = s.uses a)) ∧
      (∀ v, vs.length + 1 < 2 ^ 32 → ∃ s1 s2, addToEnd s v = .ok s1 ∧ addToEnd s1 v = .ok s2 ∧
        s2.cells = s1.cells ∧ s2.root = s1.root ∧ s2.size = s1.size ∧
        s2.instanceCount = s1.instanceCount) := by
  obtain ⟨s, h1, hwf, hord, hsz, -, -⟩ := built_tree vs hlen
  refine ⟨s, h1, fun v hv => ?_, fun v hlim => ?_⟩
  · have hm : v ∈ (Shape.build .nil 0 vs).inorder := (mem_inorder_build _ _ _ _).2 (Or.inr hv)
    obtain ⟨c, hc⟩ := locate_of_mem v _ none hord hm
    obtain ⟨s2, e, hwf2, e1, e2, e3, e4, -⟩ := addToEnd_found_same v hwf c hc
    refine ⟨s2, e, e1, e2, e3, e4, ?_, fun a nd ha => ?_⟩
    · rw [e1]
      exact hwf.exact _ (fun hm2 => Nat.lt_irrefl _ (hwf.bound _ hm2))
    · have hmem := wf_live_mem_tree hwf ha
      rw [hwf.uses_one a hmem, hwf2.uses_one a hmem]
  · obtain ⟨s1, e1, hwf1, -, -⟩ := addToEnd_tree_wf v hwf (by omega)
    obtain ⟨c, hc⟩ := locate_insert_self s.fresh v (Shape.build .nil 0 vs) none
    obtain ⟨s2, e, -, e2, e3, e4, e5, -⟩ := addToEnd_found_same v hwf1 c hc
    exact ⟨s1, s2, e1, e, e2, e3, e4, e5⟩

/-- Witness for claim C11: the insertions 2, 1, 3. -/
theorem addToEnd_duplicate_is_noop_witness :
    ([2, 1, 3] : List Int).length < 2 ^ 32 ∧
    ∃ s, addAll empty [2, 1, 3] = .ok s ∧
      (∀ v ∈ ([2, 1, 3] : List Int), ∃ s2, addToEnd s v = .ok s2 ∧ s2.cells = s.cells ∧
        s2.root = s.root ∧ s2.size = s.size ∧ s2.instanceCount = s.instanceCount ∧
        s2.cells s.fresh = none ∧ (∀ a nd, s.cells a = some nd → s2.uses a = s.uses a)) ∧
      (∀ v, ([2, 1, 3] : List Int).length + 1 < 2 ^ 32 → ∃ s1 s2, addToEnd s v = .ok s1 ∧
        addToEnd s1 v = .ok s2 ∧ s2.cells = s1.cells ∧ s2.root = s1.root ∧ s2.size = s1.size ∧
        s2.instanceCount = s1.instanceCount) :=
  ⟨by decide, addToEnd_duplicate_is_noop [2, 1, 3] (by decide)⟩

/-- Claim C12.  For every tree built by `addToEnd` from a list `vs` of fewer
than `2 ^ 32` integers: at every node, every payload read from the subtree its
left link owns is strictly smaller than the node's payload and every payload
read from the subtree its right link owns is strictly larger; and the payloads
read from the whole tree are exactly the values of `vs`. -/
theorem addToEnd_keeps_order (vs : List Int) (hlen : vs.length < 2 ^ 32) :
    ∃ s, addAll empty vs = .ok s ∧
      (∀ a nd, s.cells a = some nd →
        ∃ ls rs, payloads s nd.left = .ok ls ∧ payloads s nd.right = .ok rs ∧
          (∀ x ∈ ls, x < nd.content) ∧ (∀ x ∈ rs, nd.content < x)) ∧
      (∃ all, payloads s s.root = .ok all ∧ ∀ x, x ∈ all ↔ x ∈ vs) := by
  obtain ⟨s, h1, hwf, hord, -, -, -⟩ := built_tree vs hlen
  have hfr := tree_size_le hwf
  refine ⟨s, h1, fun a nd ha => ?_, ?_⟩
  · obtain ⟨l, v, r, pa, e1, e2, e3, e4, e5, -, e6⟩ :=
      repr_lookup s.cells _ none a hwf.repr (wf_live_mem_tree hwf ha)
    rw [ha] at e1
    cases e1
    obtain ⟨o1, o2⟩ := e6 hord
    exact ⟨l.inorder, r.inorder, payloadsFuel_repr s l (some a) s.fresh e2 (by omega),
      payloadsFuel_repr s r (some a) s.fresh e3 (by omega), o1, o2⟩
  · refine ⟨(Shape.build .nil 0 vs).inorder, ?_, fun x => ?_⟩
    · rw [hwf.root_eq]
      exact payloadsFuel_repr s _ none s.fresh hwf.repr hfr
    · rw [mem_inorder_build]
      simp [Shape.inorder]

/-- Witness for claim C12: the insertions 2, 1, 3. -/
theorem addToEnd_keeps_order_witness :
    ([2, 1, 3] : List Int).length < 2 ^ 32 ∧
    ∃ s, addAll empty [2, 1, 3] = .ok s ∧
      (∀ a nd, s.cells a = some nd →
        ∃ ls rs, payloads s nd.left = .ok ls ∧ payloads s nd.right = .ok rs ∧
          (∀ x ∈ ls, x < nd.content) ∧ (∀ x ∈ rs, nd.content < x)) ∧
      (∃ all, payloads s s.root = .ok all ∧ ∀ x, x ∈ all ↔ x ∈ ([2, 1, 3] : List Int)) :=
  ⟨by decide, addToEnd_keeps_order [2, 1, 3] (by decide)⟩

/-- Claim C13.  For every tree built by `addToEnd` from a list `vs` of fewer
than `2 ^ 32` integers: whenever the left or the right link of a node `p` targets
`c`, the node `c` is alive and its parent link resolves to `p`; and the root is
alive with a parent link that resolves to nothing. -/
theorem addToEnd_keeps_parent_links (vs : List Int) (hlen : vs.length < 2 ^ 32) :
    ∃ s, addAll empty vs = .ok s ∧
      (∀ p pn c, s.cells p = some pn → pn.left = some c ∨ pn.right = some c →
        ∃ cn, s.cells c = some cn ∧ lock s cn.parent = some p) ∧
      (∀ a, s.root = some a → ∃ nd, s.cells a = some nd ∧ lock s nd.parent = none) := by
  obtain ⟨s, h1, hwf, -, -, -, -⟩ := built_tree vs hlen
  refine ⟨s, h1, fun p pn c hp hc => ?_, fun a ha => ?_⟩
  · obtain ⟨l, v, r, pa, e1, e2, e3, -, -, -, -⟩ :=
      repr_lookup s.cells _ none p hwf.repr (wf_live_mem_tree hwf hp)
    rw [hp] at e1
    cases e1
    have hlock : lock s (some p) = some p := by simp [lock, hp]
    rcases hc with hc | hc
    · cases l with
      | nil => simp [ptr_nil] at hc
      | node c2 ll lv lr =>
        simp only [ptr_node, Option.some.injEq] at hc
        subst hc
        exact ⟨_, e2.1, hlock⟩
    · cases r with
      | nil => simp [ptr_nil] at hc
      | node c2 rl rv rr =>
        simp only [ptr_node, Option.some.injEq] at hc
        subst hc
        exact ⟨_, e3.1, hlock⟩
  · cases ht : Shape.build .nil 0 vs with
    | nil =>
      have := hwf.root_eq
      rw [ht, ha] at this
      cases this
    | node b l v r =>
      have hwf2 := hwf
      rw [ht] at hwf2
      have := hwf2.root_eq
      rw [ha] at this
      cases this
      exact ⟨_, hwf2.repr.1, rfl⟩

/-- Witness for claim C13: the insertions 2, 1, 3. -/
theorem addToEnd_keeps_parent_links_witness :
    ([2, 1, 3] : List Int).length < 2 ^ 32 ∧
    ∃ s, addAll empty [2, 1, 3] = .ok s ∧
      (∀ p pn c, s.cells p = some pn → pn.left = some c ∨ pn.right = some c →
        ∃ cn, s.cells c = some cn ∧ lock s cn.parent = some p) ∧
      (∀ a, s.root = some a → ∃ nd, s.cells a = some nd ∧ lock s nd.parent = none) :=
  ⟨by decide, addToEnd_keeps_parent_links [2, 1, 3] (by decide)⟩

/-- Claim C14.  For every tree built by `addToEnd` from a list `vs` of fewer
than `2 ^ 32` integers: `size` is the number of distinct values of `vs`, the
number of nodes read from the root, and the number of nodes alive; `root` is
empty exactly if `size` is 0, so when the destructor calls `release(root, size)`
the unsigned `size - 1` does not wrap; and a further `addToEnd(v)` leaves `size`
as it is if `v` is among `vs` and increments it by one otherwise. -/
theorem size_is_exact (vs : List Int) (hlen : vs.length < 2 ^ 32) :
    ∃ s, addAll empty vs = .ok s ∧
      s.size = vs.toFinset.card ∧
      (∃ all, payloads s s.root = .ok all ∧ all.length = s.size) ∧
      s.instanceCount = s.size ∧
      (s.root = none ↔ s.size = 0) ∧
      (s.root.isSome → 1 ≤ s.size ∧ predU32 s.size = s.size - 1 ∧ predU32 s.size < 2 ^ 32 - 1) ∧
      (∀ v, vs.length + 1 < 2 ^ 32 →
        ∃ s2, addToEnd s v = .ok s2 ∧ s2.size = if v ∈ vs then s.size else s.size + 1) := by
  obtain ⟨s, h1, hwf, hord, hsz, -, hic⟩ := built_tree vs hlen
  have hfr := tree_size_le hwf
  have hroot : s.root = none ↔ s.size = 0 := by
    rw [hwf.root_eq, hwf.size_eq]
    exact ptr_eq_none_iff _
  refine ⟨s, h1, ?_, ⟨(Shape.build .nil 0 vs).inorder, ?_, ?_⟩, ?_, hroot, fun hr => ?_,
    fun v hlim => ?_⟩
  · rw [hwf.size_eq, size_eq_inorder_length, inorder_build_eq_sort, Finset.length_sort]
  · rw [hwf.root_eq]
    exact payloadsFuel_repr s _ none s.fresh hwf.repr hfr
  · rw [hwf.size_eq, size_eq_inorder_length]
  · rw [hic, hwf.size_eq]
  · have hpos : 1 ≤ s.size := by
      rcases Nat.eq_zero_or_pos s.size with h0 | h0
      · rw [hroot.2 h0] at hr
        cases hr
      · exact h0
    have hlt : s.size < 2 ^ 32 := by rw [hwf.size_eq]; omega
    have hp := predU32_pos hpos hlt
    exact ⟨hpos, hp, by omega⟩
  · obtain ⟨s2, e, hwf2, -, -⟩ := addToEnd_tree_wf v hwf (by omega)
    refine ⟨s2, e, ?_⟩
    rw [hwf2.size_eq, hwf.size_eq]
    by_cases hv : v ∈ vs
    · have hm : v ∈ (Shape.build .nil 0 vs).inorder := (mem_inorder_build _ _ _ _).2 (Or.inr hv)
      obtain ⟨c, hc⟩ := locate_of_mem v _ none hord hm
      simp only [hv, if_true]
      exact insert_size_found _ _ _ c hc
    · simp only [hv, if_false]
      apply insert_size_attach
      cases hloc : ((Shape.build .nil 0 vs).locate v none).1 with
      | none => rfl
      | some c =>
        have hm := locate_some_mem v _ none c hloc
        rw [mem_inorder_build] at hm
        simp [Shape.inorder] at hm
        exact absurd hm hv

/-- Witness for claim C14: the insertions 2, 1, 3, 1 with one duplicate. -/
theorem size_is_exact_witness :
    ([2, 1, 3, 1] : List Int).length < 2 ^ 32 ∧
    ∃ s, addAll empty [2, 1, 3, 1] = .ok s ∧
      s.size = ([2, 1, 3, 1] : List Int).toFinset.card ∧
      (∃ all, payloads s s.root = .ok all ∧ all.length = s.size) ∧
      s.instanceCount = s.size ∧
      (s.root = none ↔ s.size = 0) ∧
      (s.root.isSome → 1 ≤ s.size ∧ predU32 s.size = s.size - 1 ∧ predU32 s.size < 2 ^ 32 - 1) ∧
      (∀ v, ([2, 1, 3, 1] : List Int).length + 1 < 2 ^ 32 →
        ∃ s2, addToEnd s v = .ok s2 ∧
          s2.size = if v ∈ ([2, 1, 3, 1] : List Int) then s.size else s.size + 1) :=
  ⟨by decide, size_is_exact [2, 1, 3, 1] (by decide)⟩

/-- Claim C18 (failing input).  On the tree built from 1, 3, 2, 4 (the root 1
has the right child 3, which has the children 2 and 4) the loop of `release`
runs eight iterations; the sixth clears the right link of 3 and destroys the
node 4; the seventh clears the root's right link and destroys two nodes, because
the node 3 it releases still owns the node 2 through its left link. -/
theorem release_reset_destroys_two_nodes :
    Except.toOption (releaseCostsReport 100 [1, 3, 2, 4]) = some [0, 0, 0, 0, 0, 1, 2, 0] := by
  decide!

/-- Claim C19.  For every non-empty, strictly increasing list `vs` of fewer than
`2 ^ 32` integers, `addToEnd` on each element in order builds a right-leaning
chain: the node created by the `k`-th insertion holds the `k`-th value, has an
empty left link, has the node of the next insertion as its right child (the
last one has none, and is the only leaf) and the node of the previous insertion
as its parent; the first one is the root; and the height of the tree is the
number of values. -/
theorem increasing_inserts_give_right_chain (vs : List Int) (hne : vs ≠ [])
    (hlen : vs.length < 2 ^ 32) (hinc : vs.Sorted (· < ·)) :
    ∃ s, addAll empty vs = .ok s ∧ s.root = some 0 ∧
      (∀ k (hk : k < vs.length), s.cells k = some
        { left := none,
          right := if k + 1 < vs.length then some (k + 1) else none,
          parent := if k = 0 then none else some (k - 1),
          content := vs.get ⟨k, hk⟩ }) ∧
      (∀ a, vs.length ≤ a → s.cells a = none) ∧
      (∀ a nd, s.cells a = some nd → (nd.left = none ∧ nd.right = none ↔ a + 1 = vs.length)) ∧
      height s s.root = .ok vs.length := by
  obtain ⟨s, h1, hwf, -, -, hfr, -⟩ := built_tree vs hlen
  have hb : Shape.build .nil 0 vs = Shape.chain 0 vs := by
    have := build_chain 0 [] vs (by simpa using hinc)
    simpa [Shape.chain] using this
  rw [hb] at hwf
  have hpos : 0 < vs.length := List.length_pos.2 hne
  have hcells : ∀ k (hk : k < vs.length), s.cells k = some
      { left := none,
        right := if k + 1 < vs.length then some (k + 1) else none,
        parent := if k = 0 then none else some (k - 1),
        content := vs.get ⟨k, hk⟩ } := by
    intro k hk
    have := repr_chain s.cells 0 vs none hwf.repr k hk
    simpa using this
  have hdead : ∀ a, vs.length ≤ a → s.cells a = none := by
    intro a ha
    apply hwf.exact
    rw [chain_addrs]
    simp [List.mem_range']
    omega
  refine ⟨s, h1, ?_, hcells, hdead, fun a nd ha => ?_, ?_⟩
  · rw [hwf.root_eq, chain_ptr]
    simp [hpos]
  · have hlt : a < vs.length := by
      by_contra hn
      rw [hdead a (by omega)] at ha
      cases ha
    rw [hcells a hlt] at ha
    cases ha
    by_cases hl : a + 1 < vs.length
    · simp [hl]; omega
    · simp [hl]; omega
  · rw [hwf.root_eq]
    exact heightFuel_chain s 0 vs none s.fresh hwf.repr (by omega)

/-- Witness for claim C19: the insertions 1, 2, 3, 4. -/
theorem increasing_inserts_give_right_chain_witness :
    ([1, 2, 3, 4] : List Int) ≠ [] ∧ ([1, 2, 3, 4] : List Int).length < 2 ^ 32 ∧
    ([1, 2, 3, 4] : List Int).Sorted (· < ·) ∧
    ∃ s, addAll empty [1, 2, 3, 4] = .ok s ∧ s.root = some 0 ∧
      (∀ k (hk : k < ([1, 2, 3, 4] : List Int).length), s.cells k = some
        { left := none,
          right := if k + 1 < ([1, 2, 3, 4] : List Int).length then some (k + 1) else none,
          parent := if k = 0 then none else some (k - 1),
          content := ([1, 2, 3, 4] : List Int).get ⟨k, hk⟩ }) ∧
      (∀ a, ([1, 2, 3, 4] : List Int).length ≤ a → s.cells a = none) ∧
      (∀ a nd, s.cells a = some nd →
        (nd.left = none ∧ nd.right = none ↔ a + 1 = ([1, 2, 3, 4] : List Int).length)) ∧
      height s s.root = .ok ([1, 2, 3, 4] : List Int).length :=
  ⟨by decide, by decide, by decide,
    increasing_inserts_give_right_chain [1, 2, 3, 4] (by decide) (by decide) (by decide)⟩

end BinarySearchTree
namespace BinarySearchTree

/-- The depth of stack that teardown needs, evaluated: a chain of six nodes is
torn down on a stack that admits one destructor call at a time; the comb with
three teeth needs three nested calls in `root.reset()`, and with the extra root
0 above it needs them inside the loop of `release`. -/
theorem teardown_stack_need :
    Except.toOption (destructorOutcome 1 100 [1, 2, 3, 4, 5, 6]) = some 0 ∧
    faultOf (destructorOutcome 2 100 (combValues 3)) = some Fault.stackOverflow ∧
    Except.toOption (destructorOutcome 3 100 (combValues 3)) = some 0 ∧
    faultOf (releaseLoopOutcome 2 100 (0 :: combValues 3)) = some Fault.stackOverflow ∧
    Except.toOption (releaseLoopOutcome 3 100 (0 :: combValues 3)) = some 1 := by
  decide!

/-- Claim C8 (failing inputs).  For every depth `k` of the call stack, insert 0
and then the comb with `k + 1` teeth (`2 * (k + 1)`, `2 * (k + 1) + 1`, ...,
2, 3): on a call stack that admits `k` nested destructor calls, or fewer, the
loop of `release(root, size)` does not run to its end for any iteration budget
but overflows the stack, in the iteration that clears the root's right link. -/
theorem releaseLoop_overflows_stack (k stack : Nat) (hk : 2 * (k + 1) + 1 < 2 ^ 32)
    (hs : stack ≤ k) :
    ∃ s, addAll empty (0 :: combValues (k + 1)) = .ok s ∧ s.size = 2 * (k + 1) + 1 ∧
      ∃ n, ∀ fuel, n ≤ fuel →
        releaseLoopWithin stack fuel s.size (releaseInit s s.root) = .error .stackOverflow := by
  have hlen : (0 :: combValues (k + 1)).length < 2 ^ 32 := by
    simp only [List.length_cons, combValues_length]; omega
  obtain ⟨s, h1, hwf, -, -, -, -⟩ := built_tree _ hlen
  rw [build_zero_combValues] at hwf
  have hsize : s.size = 2 * (k + 1) + 1 := by
    rw [hwf.size_eq]; simp only [Shape.size, comb_size]; omega
  refine ⟨s, h1, hsize, ?_⟩
  exact releaseLoopWithin_overflow hwf (by simp only [Shape.size, comb_size]; omega)
    (comb_resets_pos 1 k) stack (by rw [comb_residue_height]; omega)

/-- Witness for claim C8: a call stack of depth 2 and the insertions
0, 6, 7, 4, 5, 2, 3. -/
theorem releaseLoop_overflows_stack_witness :
    2 * (2 + 1) + 1 < 2 ^ 32 ∧ 2 ≤ 2 ∧
    ∃ s, addAll empty (0 :: combValues (2 + 1)) = .ok s ∧ s.size = 2 * (2 + 1) + 1 ∧
      ∃ n, ∀ fuel, n ≤ fuel →
        releaseLoopWithin 2 fuel s.size (releaseInit s s.root) = .error .stackOverflow :=
  ⟨by norm_num, le_refl 2, releaseLoop_overflows_stack 2 2 (by norm_num) (le_refl 2)⟩

/-- Claim C10 (failing inputs).  For every depth `k` of the call stack, insert
the comb with `k + 1` teeth (`2 * (k + 1)`, `2 * (k + 1) + 1`, ..., 2, 3): on
a call stack that admits `k` nested destructor calls, or fewer, the destructor
does not run to its end for any iteration budget but overflows the stack, so
`instanceCount` does not return to 0. -/
theorem destructor_overflows_stack (k stack : Nat) (hk : 2 * (k + 1) < 2 ^ 32)
    (hs : stack ≤ k) :
    ∃ s, addAll empty (combValues (k + 1)) = .ok s ∧ s.size = 2 * (k + 1) ∧
      ∃ n, ∀ fuel, n ≤ fuel → destructorWithin stack fuel s = .error .stackOverflow := by
  have hlen : (combValues (k + 1)).length < 2 ^ 32 := by
    rw [combValues_length]; exact hk
  obtain ⟨s, h1, hwf, -, -, -, -⟩ := built_tree _ hlen
  rw [build_combValues] at hwf
  have hsize : s.size = 2 * (k + 1) := by
    rw [hwf.size_eq, comb_size]
  refine ⟨s, h1, hsize, ?_⟩
  exact destructorWithin_overflow hwf (by rw [comb_size]; exact hk) stack
    (by rw [comb_residue_height]; omega)

/-- Witness for claim C10: a call stack of depth 2 and the insertions
6, 7, 4, 5, 2, 3. -/
theorem destructor_overflows_stack_witness :
    2 * (2 + 1) < 2 ^ 32 ∧ 2 ≤ 2 ∧
    ∃ s, addAll empty (combValues (2 + 1)) = .ok s ∧ s.size = 2 * (2 + 1) ∧
      ∃ n, ∀ fuel, n ≤ fuel → destructorWithin 2 fuel s = .error .stackOverflow :=
  ⟨by norm_num, le_refl 2, destructor_overflows_stack 2 2 (by norm_num) (le_refl 2)⟩

end BinarySearchTree
